import Mathlib

/-!
# SimpleFileSystem (src/main.cpp): shallow embedding and verified properties

The C++ class keeps a `std::map<int, INode>` (the node store), a cursor
`current_inode` and a counter `next_inode_id`.  The embedding models

* `int` as `Int`, with the increment of the counter wrapped to 32 bits;
* `std::string` as `String`, one `Char` per C++ `char`, so `size()` is `String.length`;
* `std::map<int, INode>` as an association list kept in ascending key order,
  together with `std::map::operator[]`, which INSERTS a default-constructed
  node when the key is missing;
* `time()` as a clock: an infinite stream of readings, one consumed per call;
* the messages printed on `cout` / `cerr` as a value of type `Msg`.
-/

namespace SimpleFS

/-! ## Clock -/

/-- Readings of `time()`: reading number `n` of the stream is returned by the `n`-th call. -/
abbrev Clock := Nat → Int

/-- Value returned by the next call of `time()`. -/
def Clock.now (clk : Clock) : Int := clk 0

/-- Clock after one call of `time()`. -/
def Clock.tick (clk : Clock) : Clock := fun n => clk (n + 1)

/-! ## INode -/

/-- Mirror of `struct INode`. -/
structure INode where
  id : Int
  name : String
  is_directory : Bool
  size : Int
  creation_time : Int
  modification_time : Int
  permissions : String
  blocks : List Int
  children : List Int
  parent : Int
deriving DecidableEq, Repr

/-- Constructor `INode::INode()`: reads the clock once (`time(&creation_time)`). -/
def INode.new (t : Int) : INode :=
  { id := -1, name := "", is_directory := false, size := 0,
    creation_time := t, modification_time := t,
    permissions := "rwxr-xr-x", blocks := [], children := [], parent := -1 }

/-! ## The node store: `std::map<int, INode>` -/

/-- Contents of the `std::map<int, INode>`, in iteration (ascending key) order. -/
abbrev Store := List (Int × INode)

/-- Lookup, `std::map::find`. -/
def Store.find : Store → Int → Option INode
  | [], _ => none
  | (k', v) :: t, k => if k = k' then some v else Store.find t k

/-- Insertion or assignment at a key, keeping ascending key order. -/
def Store.insert : Store → Int → INode → Store
  | [], k, v => [(k, v)]
  | (k', v') :: t, k, v =>
    if k < k' then (k, v) :: (k', v') :: t
    else if k = k' then (k, v) :: t
    else (k', v') :: Store.insert t k v

/-- Removal of a key, `std::map::erase(key)`. -/
def Store.erase : Store → Int → Store
  | [], _ => []
  | (k', v') :: t, k => if k = k' then t else (k', v') :: Store.erase t k

/-- Write through the reference returned by `operator[]` for a key that is present. -/
def Store.update : Store → Int → (INode → INode) → Store
  | [], _, _ => []
  | (k', v) :: t, k, f =>
    if k' = k then (k', f v) :: Store.update t k f else (k', v) :: Store.update t k f

/-- The keys of the store, in order. -/
def Store.keys (m : Store) : List Int := m.map Prod.fst

/-- Representation invariant of the map: keys strictly ascending (hence unique). -/
def Store.WF (m : Store) : Prop := List.Pairwise (fun a b => a < b) (Store.keys m)

/-- Work left in a store for the deletion loop of `rm`: one unit per node and per listed
child. -/
def Store.weight : Store → Nat
  | [] => 0
  | (_, v) :: t => v.children.length + 1 + Store.weight t

/-- Mirror of `inodes[k]` (`std::map::operator[]`): when the key is missing a node built by
`INode()` is inserted first, which reads the clock.  Returns the node now stored under `k`,
the store and the clock. -/
def subscript (m : Store) (clk : Clock) (k : Int) : INode × Store × Clock :=
  match Store.find m k with
  | some v => (v, m, clk)
  | none => (INode.new clk.now, Store.insert m k (INode.new clk.now), clk.tick)

/-! ## Session state -/

/-- The data members of `SimpleFileSystem` that the tree operations use. -/
structure FS where
  inodes : Store
  current_inode : Int
  next_inode_id : Int
deriving DecidableEq, Repr

/-- What an operation prints. -/
inductive Msg where
  | silent
  | mkdirCreated
  | touchUpdated
  | touchCreated
  | removed
  | renamed
  | permsChanged
  | alreadyExists
  | notFound
  | notEmpty
  | invalidFormat
deriving DecidableEq, Repr

/-- Two's complement wrap of a value to the 32-bit `int`. -/
def wrapInt32 (x : Int) : Int := (x + 2147483648) % 4294967296 - 2147483648

/-- State built by the constructor before `loadFromDisk`: root only, cursor 0, counter 1.
The root is built by `INode()` at clock reading `t`. -/
def FS.fresh (t : Int) : FS :=
  { inodes := [(0, { INode.new t with id := 0, name := "/", is_directory := true, parent := 0 })],
    current_inode := 0, next_inode_id := 1 }

/-- Mirror of `updateModificationTime`: `time(&inodes[inode_id].modification_time)`. -/
def updateModificationTime (m : Store) (clk : Clock) (inode_id : Int) : Store × Clock :=
  match subscript m clk inode_id with
  | (_, m1, clk1) =>
    (Store.update m1 inode_id fun n => { n with modification_time := clk1.now }, clk1.tick)

/-- The loop `for (int child_id : children) if (p(inodes[child_id])) { ...; return; }`:
position and id of the first child whose node satisfies `p`, with the store and clock
after the `operator[]` accesses made on the way. -/
def scan (p : INode → Bool) : List Int → Nat → Store → Clock → Option (Nat × Int) × Store × Clock
  | [], _, m, clk => (none, m, clk)
  | c :: cs, i, m, clk =>
    match subscript m clk c with
    | (node, m1, clk1) =>
      if p node then (some (i, c), m1, clk1) else scan p cs (i + 1) m1 clk1

/-- Mirror of `SimpleFileSystem::mkdir`. -/
def mkdir (s : FS) (clk : Clock) (name : String) : FS × Msg :=
  match subscript s.inodes clk s.current_inode with
  | (cur, m1, clk1) =>
    match scan (fun n => n.name == name) cur.children 0 m1 clk1 with
    | (some _, m2, _) => ({ s with inodes := m2 }, Msg.alreadyExists)
    | (none, m2, clk2) =>
      let new_dir : INode :=
        { INode.new clk2.now with
          id := s.next_inode_id, name := name, is_directory := true, parent := s.current_inode }
      let next := wrapInt32 (s.next_inode_id + 1)
      match subscript m2 clk2.tick s.current_inode with
      | (_, m3, clk3) =>
        let m4 := Store.update m3 s.current_inode
          fun n => { n with children := n.children ++ [new_dir.id] }
        match subscript m4 clk3 new_dir.id with
        | (_, m5, clk4) =>
          let m6 := Store.update m5 new_dir.id fun _ => new_dir
          ({ inodes := (updateModificationTime m6 clk4 s.current_inode).1,
             current_inode := s.current_inode, next_inode_id := next }, Msg.mkdirCreated)

/-- Mirror of `SimpleFileSystem::touch`. -/
def touch (s : FS) (clk : Clock) (name : String) : FS × Msg :=
  match subscript s.inodes clk s.current_inode with
  | (cur, m1, clk1) =>
    match scan (fun n => n.name == name) cur.children 0 m1 clk1 with
    | (some (_, child_id), m2, clk2) =>
      ({ s with inodes := (updateModificationTime m2 clk2 child_id).1 }, Msg.touchUpdated)
    | (none, m2, clk2) =>
      let new_file : INode :=
        { INode.new clk2.now with
          id := s.next_inode_id, name := name, is_directory := false, parent := s.current_inode }
      let next := wrapInt32 (s.next_inode_id + 1)
      match subscript m2 clk2.tick s.current_inode with
      | (_, m3, clk3) =>
        let m4 := Store.update m3 s.current_inode
          fun n => { n with children := n.children ++ [new_file.id] }
        match subscript m4 clk3 new_file.id with
        | (_, m5, clk4) =>
          let m6 := Store.update m5 new_file.id fun _ => new_file
          ({ inodes := (updateModificationTime m6 clk4 s.current_inode).1,
             current_inode := s.current_inode, next_inode_id := next }, Msg.touchCreated)

/-- Mirror of `SimpleFileSystem::cd`.  Success prints nothing. -/
def cd (s : FS) (clk : Clock) (path : String) : FS × Msg :=
  if path = "" then (s, Msg.silent)
  else if path = "/" then ({ s with current_inode := 0 }, Msg.silent)
  else if path = ".." then
    if s.current_inode ≠ 0 then
      match subscript s.inodes clk s.current_inode with
      | (cur, m1, _) => ({ s with inodes := m1, current_inode := cur.parent }, Msg.silent)
    else (s, Msg.silent)
  else
    match subscript s.inodes clk s.current_inode with
    | (cur, m1, clk1) =>
      match scan (fun n => n.name == path && n.is_directory) cur.children 0 m1 clk1 with
      | (some (_, child_id), m2, _) => ({ s with inodes := m2, current_inode := child_id }, Msg.silent)
      | (none, m2, _) => ({ s with inodes := m2 }, Msg.notFound)

/-- The `while (!to_delete.empty())` loop of `rm`; the head of the list is the top of the
stack.  One unit of fuel per iteration; `none` when the fuel runs out first. -/
def rmLoop : Nat → List Int → Store → Clock → Option (Store × Clock)
  | _, [], m, clk => some (m, clk)
  | 0, _ :: _, _, _ => none
  | fuel + 1, id :: st, m, clk =>
    match subscript m clk id with
    | (node, m1, clk1) =>
      rmLoop fuel (if node.is_directory then node.children.reverse ++ st else st)
        (Store.erase m1 id) clk1

/-- Value read by `*it` after `children.erase(it)`: the vector shifted the later elements one
place down and `it` still addresses the same slot, so it reads the element that followed the
erased one; when the erased element was the last, the slot still holds the erased value. -/
def derefAfterErase (children : List Int) (i : Nat) (erased : Int) : Int :=
  (children.eraseIdx i).getD i erased

/-- Mirror of `SimpleFileSystem::rm`, with the fuel of its deletion loop. -/
def rm (fuel : Nat) (s : FS) (clk : Clock) (name : String) : Option (FS × Msg) :=
  match subscript s.inodes clk s.current_inode with
  | (cur, m1, clk1) =>
    match scan (fun n => n.name == name) cur.children 0 m1 clk1 with
    | (some (i, child_id), m2, clk2) =>
      match subscript m2 clk2 child_id with
      | (node, m3, clk3) =>
        if node.is_directory && !node.children.isEmpty then
          some ({ s with inodes := m3 }, Msg.notEmpty)
        else
          let m4 := Store.update m3 s.current_inode
            fun n => { n with children := n.children.eraseIdx i }
          match rmLoop fuel [derefAfterErase cur.children i child_id] m4 clk3 with
          | none => none
          | some (m5, clk4) =>
            some ({ s with inodes := (updateModificationTime m5 clk4 s.current_inode).1 },
                  Msg.removed)
    | (none, m2, _) => some ({ s with inodes := m2 }, Msg.notFound)

/-- Mirror of `SimpleFileSystem::mv`. -/
def mv (s : FS) (clk : Clock) (old_name new_name : String) : FS × Msg :=
  match subscript s.inodes clk s.current_inode with
  | (cur, m1, clk1) =>
    match scan (fun n => n.name == old_name) cur.children 0 m1 clk1 with
    | (some (_, child_id), m2, clk2) =>
      match subscript m2 clk2 s.current_inode with
      | (cur2, m3, clk3) =>
        match scan (fun n => n.name == new_name) cur2.children 0 m3 clk3 with
        | (some _, m4, _) => ({ s with inodes := m4 }, Msg.alreadyExists)
        | (none, m4, clk4) =>
          match subscript m4 clk4 child_id with
          | (_, m5, clk5) =>
            let m6 := Store.update m5 child_id fun n => { n with name := new_name }
            match updateModificationTime m6 clk5 child_id with
            | (m7, clk6) =>
              ({ s with inodes := (updateModificationTime m7 clk6 s.current_inode).1 },
               Msg.renamed)
    | (none, m2, _) => ({ s with inodes := m2 }, Msg.notFound)

/-- Mirror of `SimpleFileSystem::chmod`. -/
def chmod (s : FS) (clk : Clock) (name mode : String) : FS × Msg :=
  match subscript s.inodes clk s.current_inode with
  | (cur, m1, clk1) =>
    match scan (fun n => n.name == name) cur.children 0 m1 clk1 with
    | (some (_, child_id), m2, clk2) =>
      if mode.length = 9 ∨ mode.length = 3 then
        match subscript m2 clk2 child_id with
        | (_, m3, clk3) =>
          let m4 := Store.update m3 child_id fun n => { n with permissions := mode }
          ({ s with inodes := (updateModificationTime m4 clk3 child_id).1 }, Msg.permsChanged)
      else ({ s with inodes := m2 }, Msg.invalidFormat)
    | (none, m2, _) => ({ s with inodes := m2 }, Msg.notFound)

/-! ## Path resolver -/

/-- The loop `while (current != 0)` of `getAbsolutePath`: pushes `inodes[current].name` and
moves to `inodes[current].parent`.  One unit of fuel per test of the loop condition. -/
def collectParts : Nat → Store → Clock → Int → List String → Option (List String × Store × Clock)
  | 0, _, _, _, _ => none
  | fuel + 1, m, clk, current, path_parts =>
    if current = 0 then some (path_parts, m, clk)
    else
      match subscript m clk current with
      | (node, m1, clk1) => collectParts fuel m1 clk1 node.parent (path_parts ++ [node.name])

/-- The loop `for (size_t i = 0; i < path_parts.size(); ++i)` of `getAbsolutePath`, from
index `i` on, with the parts not yet appended. -/
def joinParts : List String → Nat → String → String
  | [], _, path => path
  | part :: rest, i, path =>
    joinParts rest (i + 1) ((if i ≠ 0 then path ++ "/" else path) ++ part)

/-- Mirror of `SimpleFileSystem::getAbsolutePath`, with the fuel of its parent walk; returns
the path and the store (which `operator[]` may have extended). -/
def getAbsolutePath (fuel : Nat) (m : Store) (clk : Clock) (inode_id : Int) :
    Option (String × Store) :=
  if inode_id = 0 then some ("/", m)
  else
    match collectParts fuel m clk inode_id [] with
    | none => none
    | some (path_parts, m1, _) => some (joinParts path_parts.reverse 0 "/", m1)

/-! ## find -/

/-- Whether the pattern `pat` occurs in `text` at position 0. -/
def startsWith : List Char → List Char → Bool
  | _, [] => true
  | [], _ :: _ => false
  | c :: t, p :: ps => c == p && startsWith t ps

/-- Mirror of `text.find(pat) != string::npos`: whether `pat` occurs in `text` at some
position (the empty pattern occurs at position 0 of every text). -/
def containsStr : List Char → List Char → Bool
  | [], pat => startsWith [] pat
  | c :: t, pat => startsWith (c :: t) pat || containsStr t pat

/-- Mirror of `getAbsolutePath` as `find` calls it: the path together with the store and the
clock left by the `operator[]` accesses of the walk, with which the caller goes on. -/
def getAbsolutePathClk (fuel : Nat) (m : Store) (clk : Clock) (inode_id : Int) :
    Option (String × Store × Clock) :=
  if inode_id = 0 then some ("/", m, clk)
  else
    match collectParts fuel m clk inode_id [] with
    | none => none
    | some (path_parts, m1, clk1) => some (joinParts path_parts.reverse 0 "/", m1, clk1)

/-- The loop `while (!to_search.empty())` of `find`; the head of the list is the top of the
stack, `out` the lines printed so far.  One unit of `fuel` per iteration, `g` the fuel given
to each call of `getAbsolutePath`; `none` when a fuel runs out. -/
def findLoop (g : Nat) (name : String) :
    Nat → List Int → Store → Clock → List String → Bool →
      Option (List String × Bool × Store × Clock)
  | _, [], m, clk, out, found => some (out, found, m, clk)
  | 0, _ :: _, _, _, _, _ => none
  | fuel + 1, id :: st, m, clk, out, found =>
    match subscript m clk id with
    | (node, m1, clk1) =>
      if containsStr node.name.data name.data then
        match getAbsolutePathClk g m1 clk1 id with
        | none => none
        | some (path, m2, clk2) =>
          findLoop g name fuel
            (if node.is_directory then node.children.reverse ++ st else st)
            m2 clk2 (out ++ [path]) true
      else
        findLoop g name fuel
          (if node.is_directory then node.children.reverse ++ st else st) m1 clk1 out found

/-- Mirror of `SimpleFileSystem::find`: the paths printed, in order, whether the no-match
message is printed, and the state. -/
def find (fuel : Nat) (s : FS) (clk : Clock) (name : String) :
    Option (List String × Bool × FS) :=
  match findLoop fuel name fuel [s.current_inode] s.inodes clk [] false with
  | none => none
  | some (out, found, m, _) => some (out, !found, { s with inodes := m })

/-! ## Persistence codec

Layout of the host (LP64, little endian): `int` 4 bytes two's complement, `size_t` and
`time_t` 8 bytes, `bool` 1 byte.  A byte is a natural number below 256. -/

/-- The `w` low-order bytes of `x`, least significant first. -/
def leBytes : Nat → Nat → List Nat
  | 0, _ => []
  | w + 1, x => x % 256 :: leBytes w (x / 256)

/-- Value of a little-endian byte sequence. -/
def ofLeBytes : List Nat → Nat
  | [] => 0
  | b :: bs => b + 256 * ofLeBytes bs

/-- Bytes of `out.write(&x, sizeof(size_t))`. -/
def writeSizeT (n : Nat) : List Nat := leBytes 8 n

/-- Bytes of `out.write(&x, sizeof(int))`. -/
def writeInt (x : Int) : List Nat := leBytes 4 (x % 4294967296).toNat

/-- Bytes of `out.write(&x, sizeof(time_t))`. -/
def writeTimeT (x : Int) : List Nat := leBytes 8 (x % 18446744073709551616).toNat

/-- Bytes of `out.write(&b, sizeof(bool))`. -/
def writeBool (b : Bool) : List Nat := [if b then 1 else 0]

/-- Bytes of a length-prefixed string: `size()` then the `char`s. -/
def writeString (s : String) : List Nat :=
  writeSizeT s.length ++ s.data.map fun c => c.toNat % 256

/-- Record written for one node by the body of the loop of `saveToDisk`. -/
def writeNode (node : INode) : List Nat :=
  writeInt node.id ++ writeString node.name ++ writeBool node.is_directory ++
  writeInt node.size ++ writeTimeT node.creation_time ++ writeTimeT node.modification_time ++
  writeString node.permissions ++
  (writeSizeT node.children.length ++ (node.children.map writeInt).flatten) ++
  writeInt node.parent

/-- Mirror of `SimpleFileSystem::saveToDisk`: the bytes written when the file opens. -/
def saveToDisk (m : Store) : List Nat :=
  writeSizeT m.length ++ (m.map fun kv => writeNode kv.2).flatten

/-- Mirror of `in.read(p, n)` on the unread bytes: the `n` bytes read and the rest.  A short
read leaves the target unspecified and fails the stream: `none`. -/
def readBytes (n : Nat) (bs : List Nat) : Option (List Nat × List Nat) :=
  if n ≤ bs.length then some (bs.take n, bs.drop n) else none

/-- Read of a `size_t`. -/
def readSizeT (bs : List Nat) : Option (Nat × List Nat) :=
  match readBytes 8 bs with
  | none => none
  | some (b, rest) => some (ofLeBytes b, rest)

/-- Read of an `int`. -/
def readInt (bs : List Nat) : Option (Int × List Nat) :=
  match readBytes 4 bs with
  | none => none
  | some (b, rest) =>
    some (if ofLeBytes b < 2147483648 then (ofLeBytes b : Int)
          else (ofLeBytes b : Int) - 4294967296, rest)

/-- Read of a `time_t`. -/
def readTimeT (bs : List Nat) : Option (Int × List Nat) :=
  match readBytes 8 bs with
  | none => none
  | some (b, rest) =>
    some (if ofLeBytes b < 9223372036854775808 then (ofLeBytes b : Int)
          else (ofLeBytes b : Int) - 18446744073709551616, rest)

/-- Read of a `bool`. -/
def readBool (bs : List Nat) : Option (Bool × List Nat) :=
  match readBytes 1 bs with
  | none => none
  | some (b, rest) => some (decide (ofLeBytes b ≠ 0), rest)

/-- Read of a length-prefixed string: `resize(len)` then `in.read(&s[0], len)`. -/
def readString (bs : List Nat) : Option (String × List Nat) :=
  match readSizeT bs with
  | none => none
  | some (len, rest) =>
    match readBytes len rest with
    | none => none
    | some (b, rest1) => some (String.mk (b.map Char.ofNat), rest1)

/-- The loop `for (size_t j = 0; j < len; ++j)` reading the child ids. -/
def readChildren : Nat → List Nat → Option (List Int × List Nat)
  | 0, bs => some ([], bs)
  | len + 1, bs =>
    match readInt bs with
    | none => none
    | some (c, rest) =>
      match readChildren len rest with
      | none => none
      | some (cs, rest1) => some (c :: cs, rest1)

/-- Read of one record into a node built by `INode()` at clock reading `t`. -/
def readNode (t : Int) (bs : List Nat) : Option (INode × List Nat) :=
  match readInt bs with
  | none => none
  | some (id, r1) =>
  match readString r1 with
  | none => none
  | some (name, r2) =>
  match readBool r2 with
  | none => none
  | some (is_directory, r3) =>
  match readInt r3 with
  | none => none
  | some (size, r4) =>
  match readTimeT r4 with
  | none => none
  | some (creation_time, r5) =>
  match readTimeT r5 with
  | none => none
  | some (modification_time, r6) =>
  match readString r6 with
  | none => none
  | some (permissions, r7) =>
  match readSizeT r7 with
  | none => none
  | some (len, r8) =>
  match readChildren len r8 with
  | none => none
  | some (children, r9) =>
  match readInt r9 with
  | none => none
  | some (parent, r10) =>
    some ({ INode.new t with
            id := id, name := name, is_directory := is_directory, size := size,
            creation_time := creation_time, modification_time := modification_time,
            permissions := permissions, children := children, parent := parent }, r10)

/-- The loop `for (size_t i = 0; i < count; ++i)` of `loadFromDisk`, on the store and the
counter. -/
def loadLoop : Nat → List Nat → Store → Int → Clock → Option (Store × Int)
  | 0, _, m, next, _ => some (m, next)
  | count + 1, bs, m, next, clk =>
    match readNode clk.now bs with
    | none => none
    | some (node, rest) =>
      match subscript m clk.tick node.id with
      | (_, m1, clk1) =>
        loadLoop count rest (Store.update m1 node.id fun _ => node)
          (if node.id ≥ next then wrapInt32 (node.id + 1) else next) clk1

/-- Mirror of `SimpleFileSystem::loadFromDisk`; `file` is the content of the backing file,
`none` when it cannot be opened.  The result is `none` when the file ends before the records
that it announces: the code does not test the stream there and goes on with unspecified
values, a case that no property below relies on (they read complete files only). -/
def loadFromDisk (s : FS) (clk : Clock) (file : Option (List Nat)) : Option FS :=
  match file with
  | none => some s
  | some bs =>
    match readSizeT bs with
    | none => none
    | some (count, rest) =>
      match loadLoop count rest [] s.next_inode_id clk with
      | none => none
      | some (m, next) => some { s with inodes := m, next_inode_id := next }

/-! ## Predicates used to state the properties -/

/-- The cursor has a node in the store and every id of its children list is present. -/
def ChildrenPresent (s : FS) (cur : INode) : Prop :=
  Store.find s.inodes s.current_inode = some cur ∧
  ∀ c ∈ cur.children, ∃ n, Store.find s.inodes c = some n

/-- Some id of the list bears the name. -/
def SomeNamed (m : Store) (children : List Int) (name : String) : Prop :=
  ∃ c ∈ children, ∃ n, Store.find m c = some n ∧ n.name = name

/-- The id `c` is the first of the list whose node bears the name. -/
def FirstNamed (m : Store) (children : List Int) (name : String) (c : Int) : Prop :=
  ∃ pre post, children = pre ++ c :: post ∧
    (∀ d ∈ pre, ∀ n, Store.find m d = some n → n.name ≠ name) ∧
    ∃ n, Store.find m c = some n ∧ n.name = name

/-- No two distinct ids of the list bear the same name. -/
def UniqueNames (m : Store) (children : List Int) : Prop :=
  ∀ d1 ∈ children, ∀ d2 ∈ children, ∀ n1 n2,
    Store.find m d1 = some n1 → Store.find m d2 = some n2 → n1.name = n2.name → d1 = d2

/-- Node stored under `k` after a rename: the child `c` gets the name `new` and the clock
reading `t0`, then the cursor gets the clock reading `t1`; the other nodes are as before. -/
def renamedNode (c cursor : Int) (new : String) (t0 t1 : Int) (k : Int) (n : INode) : INode :=
  let n1 := if k = c then { n with name := new, modification_time := t0 } else n
  if k = cursor then { n1 with modification_time := t1 } else n1

/-- Node stored under `k` when only modification times moved: `t0` for the child `c`, then
`t1` for the cursor. -/
def bumpedNode (c cursor : Int) (t0 t1 : Int) (k : Int) (n : INode) : INode :=
  let n1 := if k = c then { n with modification_time := t0 } else n
  if k = cursor then { n1 with modification_time := t1 } else n1

/-- Postcondition of a creation (`mkdir` with `isDir = true`, `touch` with `isDir = false`)
from state `s` with cursor node `cur` and clock `clk`, on the result `r`: cursor as before,
counter one more, one more node in the store, the new node stored under the old counter value
with the given name and kind, the cursor as parent and no children, the new id appended to
the children of the cursor, whose modification time is the third clock reading, and every
other node as before. -/
def Created (s : FS) (cur : INode) (clk : Clock) (name : String) (isDir : Bool) (r : FS) :
    Prop :=
  r.current_inode = s.current_inode ∧
  r.next_inode_id = s.next_inode_id + 1 ∧
  r.inodes.length = s.inodes.length + 1 ∧
  Store.find r.inodes s.next_inode_id =
    some { INode.new clk.now with
           id := s.next_inode_id, name := name, is_directory := isDir,
           parent := s.current_inode, children := [] } ∧
  Store.find r.inodes s.current_inode =
    some { cur with children := cur.children ++ [s.next_inode_id],
                    modification_time := clk.tick.tick.now } ∧
  ∀ k, k ≠ s.next_inode_id → k ≠ s.current_inode →
    Store.find r.inodes k = Store.find s.inodes k

/-- Ids reachable from the root 0 through children lists whose members name, as their
parent, the node that lists them. -/
inductive Reachable (m : Store) : Int → Prop
  | root : Reachable m 0
  | child {p c : Int} {pe ce : INode} :
      Reachable m p → Store.find m p = some pe → c ∈ pe.children →
      Store.find m c = some ce → ce.parent = p → Reachable m c

/-- The names met by the parent walk from `k` up to, not including, the root. -/
inductive ParentChain (m : Store) : Int → List String → Prop
  | root : ParentChain m 0 []
  | step {k : Int} {e : INode} {ps : List String} :
      k ≠ 0 → Store.find m k = some e → ParentChain m e.parent ps →
      ParentChain m k (e.name :: ps)

/-- The value fits the 32-bit `int`. -/
def IsInt32 (x : Int) : Prop := -2147483648 ≤ x ∧ x < 2147483648

/-- The value fits the 64-bit `time_t`. -/
def IsInt64 (x : Int) : Prop := -9223372036854775808 ≤ x ∧ x < 9223372036854775808

/-- The string is a `std::string`: every character is one byte and the size fits `size_t`. -/
def IsByteString (s : String) : Prop :=
  (∀ c ∈ s.data, c.toNat < 256) ∧ s.length < 18446744073709551616

/-- Every field of the node has a value of its C++ type. -/
def Representable (e : INode) : Prop :=
  IsInt32 e.id ∧ IsByteString e.name ∧ IsInt32 e.size ∧ IsInt64 e.creation_time ∧
  IsInt64 e.modification_time ∧ IsByteString e.permissions ∧
  e.children.length < 18446744073709551616 ∧ (∀ c ∈ e.children, IsInt32 c) ∧
  IsInt32 e.parent

/-- Every node is stored under its own id. -/
def KeyedById (m : Store) : Prop := ∀ kv ∈ m, kv.2.id = kv.1

/-- The id `c` is the first of the list whose node is a Directory bearing the name. -/
def FirstDirNamed (m : Store) (children : List Int) (name : String) (c : Int) : Prop :=
  ∃ pre post, children = pre ++ c :: post ∧
    (∀ d ∈ pre, ∀ n, Store.find m d = some n → ¬ (n.name = name ∧ n.is_directory = true)) ∧
    ∃ n, Store.find m c = some n ∧ n.name = name ∧ n.is_directory = true

/-- Some id of the list is a Directory bearing the name. -/
def SomeDirNamed (m : Store) (children : List Int) (name : String) : Prop :=
  ∃ c ∈ children, ∃ n, Store.find m c = some n ∧ n.name = name ∧ n.is_directory = true

/-- A call of one of the six tree operations, with its arguments. -/
inductive Op where
  | mkdir (name : String)
  | touch (name : String)
  | rm (name : String)
  | mv (old_name new_name : String)
  | chmod (name mode : String)
  | cd (path : String)

/-- State after the call `op` made in state `s` with clock `clk`; `none` when the fuel of the
deletion loop of `rm` runs out. -/
def Op.run (op : Op) (fuel : Nat) (s : FS) (clk : Clock) : Option FS :=
  match op with
  | Op.mkdir name => some (SimpleFS.mkdir s clk name).1
  | Op.touch name => some (SimpleFS.touch s clk name).1
  | Op.rm name => (SimpleFS.rm fuel s clk name).map Prod.fst
  | Op.mv old_name new_name => some (SimpleFS.mv s clk old_name new_name).1
  | Op.chmod name mode => some (SimpleFS.chmod s clk name mode).1
  | Op.cd path => some (SimpleFS.cd s clk path).1

/-- States reached from `s0` by finitely many calls, each one allowed by `ok` in the state in
which it is made. -/
inductive Reach (ok : FS → Op → Prop) (s0 : FS) : FS → Prop
  | start : Reach ok s0 s0
  | step {s s' : FS} (op : Op) (fuel : Nat) (clk : Clock) :
      Reach ok s0 s → ok s op → Op.run op fuel s clk = some s' → Reach ok s0 s'

/-- Every call is allowed. -/
def anyOp : FS → Op → Prop := fun _ _ => True

/-- Every call but `rm` is allowed. -/
def notRm : FS → Op → Prop := fun _ op =>
  match op with
  | Op.rm _ => False
  | _ => True

/-- Characters of the path built from the names `qs`, listed from the root down: each name
preceded by a `/`. -/
def slashed (qs : List String) : List Char :=
  (qs.map fun q => '/' :: q.data).flatten

/-- Children that the traversals of `find` descend into: those of a Directory. -/
def listed (e : INode) : List Int := if e.is_directory then e.children else []

/-- The children and the parent named by the node are below `c`. -/
def NodeBelow (c : Int) (e : INode) : Prop := (∀ x ∈ e.children, x < c) ∧ e.parent < c

/-- Every id of the store, and every id named in one of its nodes, is below `c`. -/
def StoreBelow (c : Int) (m : Store) : Prop := ∀ kv ∈ m, kv.1 < c ∧ NodeBelow c kv.2

/-- The counter is at least 1 and above the cursor, every stored id and every id named in a
stored node. -/
def Bounded (s : FS) : Prop :=
  1 ≤ s.next_inode_id ∧ s.current_inode < s.next_inode_id ∧
  StoreBelow s.next_inode_id s.inodes

/-- Calls allowed while the counter has room: no `mkdir` or `touch` is made once the counter
has reached the largest `int`. -/
def counterRoom : FS → Op → Prop := fun s op =>
  match op with
  | Op.mkdir _ => s.next_inode_id < 2147483647
  | Op.touch _ => s.next_inode_id < 2147483647
  | _ => True

/-- The children and parent fields of every node name ids of the store. -/
def LoadedRefs (m : Store) : Prop :=
  ∀ kv ∈ m, (∀ x ∈ kv.2.children, x ∈ Store.keys m) ∧ kv.2.parent ∈ Store.keys m

/-- Start of a session: the fresh store, or a store that `loadFromDisk` read into a fresh
session, with ids below the largest `int` and references to loaded ids only. -/
def SessionStart (s0 : FS) : Prop :=
  (∃ t, s0 = FS.fresh t) ∨
  (∃ t clk bytes, loadFromDisk (FS.fresh t) clk (some bytes) = some s0 ∧
    LoadedRefs s0.inodes ∧ ∀ k ∈ Store.keys s0.inodes, k < 2147483647)

/-- What the tree invariants read in a node: children, parent, name and kind. -/
structure View where
  children : List Int
  parent : Int
  name : String
  is_directory : Bool
deriving DecidableEq

/-- View of a node. -/
def INode.view (e : INode) : View := ⟨e.children, e.parent, e.name, e.is_directory⟩

/-- View of the node stored under `k`, if any. -/
def view (m : Store) (k : Int) : Option View := (Store.find m k).map INode.view

/-- Invariant of the sessions without `rm`, on the views `V` of the store, the cursor `u` and
the counter `c`; it survives the wrap of the counter.  `ahead`: counting upwards from the
counter with wrap, the id of a node is met before each id that it lists, so the id that the
counter holds is listed nowhere and a node is overwritten before an id that it lists is given
out again. -/
structure WrapInv (V : Int → Option View) (u c : Int) : Prop where
  root : ∃ w, V 0 = some w
  cursor : ∃ w, V u = some w
  listed : ∀ k w, V k = some w → ∀ x ∈ w.children, ∃ wx, V x = some wx
  parent : ∀ k w, V k = some w → ∃ wp, V w.parent = some wp
  counter : IsInt32 c
  ids : ∀ k w, V k = some w → IsInt32 k
  ahead : ∀ k w, V k = some w → ∀ x ∈ w.children,
    (k - c) % 4294967296 < (x - c) % 4294967296
  lister : ∀ k1 w1 k2 w2 x, V k1 = some w1 → V k2 = some w2 →
    x ∈ w1.children → x ∈ w2.children → k1 = k2
  names : ∀ k w, V k = some w → ∀ d1 ∈ w.children, ∀ d2 ∈ w.children, ∀ w1 w2,
    V d1 = some w1 → V d2 = some w2 → w1.name = w2.name → d1 = d2

/-- Views after a creation made with cursor `u` (view `cur`) and counter `c`: the new view
under `c`, the cursor with `c` appended to its children, every other id as before. -/
def createdView (V : Int → Option View) (u c : Int) (cur new : View) (k : Int) : Option View :=
  if k = c then some new
  else if k = u then some { cur with children := cur.children ++ [c] }
  else V k

/-- Views after a rename of `c0` to `new`. -/
def renamedView (V : Int → Option View) (c0 : Int) (new : String) (k : Int) : Option View :=
  (V k).map fun w => if k = c0 then { w with name := new } else w

/-- The invariant `WrapInv` on a session state. -/
def TreeInv (s : FS) : Prop :=
  WrapInv (view s.inodes) s.current_inode s.next_inode_id

/-- Every id listed in a children list is above the id of the node that lists it. -/
def ChildrenAbove (m : Store) : Prop := ∀ kv ∈ m, ∀ x ∈ kv.2.children, kv.1 < x

/-- A stored Directory that a node lists names that node as its parent. -/
def ParentOfDir (m : Store) : Prop :=
  ∀ kv ∈ m, ∀ x ∈ kv.2.children, ∀ xe, (x, xe) ∈ m → xe.is_directory = true →
    xe.parent = kv.1

/-- Store part of the invariant of the sessions with `rm`: ids below the counter `c`,
children above their lister, listed Directories pointing back to their lister. -/
def Tidy (c : Int) (m : Store) : Prop := StoreBelow c m ∧ ChildrenAbove m ∧ ParentOfDir m

/-- The parent walk from `k` meets stored Directories only, with decreasing ids, and ends
at the root 0. -/
inductive UpChain (m : Store) : Int → Prop
  | root {e : INode} : Store.find m 0 = some e → e.is_directory = true → UpChain m 0
  | step {k : Int} {e : INode} :
      0 < k → Store.find m k = some e → e.is_directory = true → e.parent < k →
      UpChain m e.parent → UpChain m k

/-- Every node of `m` is stored unchanged in `m1`. -/
def Extends (m m1 : Store) : Prop := ∀ k e, Store.find m k = some e → Store.find m1 k = some e

/-- Every node of `m` with an id up to `u` is still stored in `m1`, with the same kind and
parent. -/
def Keeps (u : Int) (m m1 : Store) : Prop :=
  ∀ k, k ≤ u → ∀ e, Store.find m k = some e →
    ∃ e1, Store.find m1 k = some e1 ∧ e1.is_directory = e.is_directory ∧ e1.parent = e.parent

/-- Invariant of the sessions in which the counter does not wrap. -/
def Sound (s : FS) : Prop :=
  1 ≤ s.next_inode_id ∧ s.current_inode < s.next_inode_id ∧
  Tidy s.next_inode_id s.inodes ∧ UpChain s.inodes s.current_inode

/-! ## Example states -/

/-- Clock used in the examples: reading `n` is `100 + n`. -/
def exClock : Clock := fun n => 100 + (n : Int)

/-- Session after `mkdir a`. -/
def exA : FS := (mkdir (FS.fresh 7) exClock "a").1

/-- Session after `mkdir a`, `mkdir b`. -/
def exAB : FS := (mkdir exA exClock "b").1

/-- Root node of `exA`. -/
def exARoot : INode :=
  { INode.new 7 with id := 0, name := "/", is_directory := true, parent := 0,
                     children := [1], modification_time := 102 }

/-- Root node of `exAB`. -/
def exABRoot : INode :=
  { INode.new 7 with id := 0, name := "/", is_directory := true, parent := 0,
                     children := [1, 2], modification_time := 102 }

/-- Session after `mkdir a`, `cd a`. -/
def exInA : FS := (cd exA exClock "a").1

/-- A store whose root lists a dangling child id 7 before the directory `a` (id 1). -/
def exDangling : FS :=
  { inodes :=
      [(0, { INode.new 7 with id := 0, name := "/", is_directory := true, parent := 0,
                              children := [7, 1] }),
       (1, { INode.new 8 with id := 1, name := "a", is_directory := true, parent := 0 })],
    current_inode := 0, next_inode_id := 8 }

/-- A store whose counter equals the id of the file `f` already stored. -/
def exCollide : FS :=
  { inodes :=
      [(0, { INode.new 7 with id := 0, name := "/", is_directory := true, parent := 0,
                              children := [1] }),
       (1, { INode.new 8 with id := 1, name := "f", parent := 0 })],
    current_inode := 0, next_inode_id := 1 }

/-- A fresh store whose counter is the largest `int`. -/
def exMaxCounter : FS := { FS.fresh 7 with next_inode_id := 2147483647 }

/-- Session after `mkdir a`, `cd a`, `mkdir b`. -/
def exNested : FS := (mkdir exInA exClock "b").1

/-- Node of `a` (id 1) in `exNested`. -/
def exNestedA : INode :=
  { INode.new 100 with id := 1, name := "a", is_directory := true, parent := 0,
                       children := [2], modification_time := 102 }

/-- Node of `b` (id 2) in `exNested`. -/
def exNestedB : INode :=
  { INode.new 100 with id := 2, name := "b", is_directory := true, parent := 1 }

/-- A store in which the node under id 2 is the one `operator[]` builds for a missing key
(its `id` field is -1). -/
def exMisfiled : Store :=
  [(0, { INode.new 7 with id := 0, name := "/", is_directory := true, parent := 0,
                          children := [2] }),
   (2, INode.new 8)]

/-- Session after `mkdir a`, `cd a`, `mkdir b`, `cd ..`: the root holds the non-empty
directory `a`. -/
def exFull : FS := (cd exNested exClock "..").1

/-- Root node of `exFull`. -/
def exFullRoot : INode := exARoot

/-- Session after `mkdir a`, `mkdir b`, `rm a`. -/
def exBug : FS := ((rm 1 exAB exClock "a").map Prod.fst).getD exAB

/-- Session after `mkdir a`, `mkdir b`, `rm a`, `mkdir c`. -/
def exJunk : FS := (mkdir exBug exClock "c").1

/-- File holding the root and the file `f` with id 2147483646. -/
def exFileMax : List Nat :=
  saveToDisk
    [(0, { INode.new 7 with id := 0, name := "/", is_directory := true, parent := 0,
                            children := [2147483646] }),
     (2147483646, { INode.new 8 with id := 2147483646, name := "f", parent := 0 })]

/-- Session that loaded `exFileMax`. -/
def exLoadedMax : FS := (loadFromDisk (FS.fresh 0) exClock (some exFileMax)).getD (FS.fresh 0)

/-- File holding only the root, whose children list names the id 5. -/
def exFileDangling : List Nat :=
  saveToDisk
    [(0, { INode.new 7 with id := 0, name := "/", is_directory := true, parent := 0,
                            children := [5] })]

/-- Session that loaded `exFileDangling`. -/
def exLoadedDangling : FS :=
  (loadFromDisk (FS.fresh 0) exClock (some exFileDangling)).getD (FS.fresh 0)

/-- Name number `i` of a family of pairwise distinct names: the decimal digits of `i`, the
lowest first. -/
def exName (i : Nat) : String :=
  String.mk ((Nat.digits 10 i).map fun d => Char.ofNat (48 + d))

/-- Session after `n` calls of `touch` in the root of a fresh session, call number `i` with
the name `exName i`. -/
def exFill : Nat → FS
  | 0 => FS.fresh 0
  | n + 1 => (touch (exFill n) exClock (exName (n + 1))).1

/-- File that holds no node: the count 0 and nothing else. -/
def exFileEmpty : List Nat := saveToDisk []

/-- Session that loaded `exFileEmpty`: the store is empty, the cursor is 0. -/
def exLoadedEmpty : FS :=
  (loadFromDisk (FS.fresh 0) exClock (some exFileEmpty)).getD (FS.fresh 0)

/-- A store that holds the root only, with the cursor 3, which has no node. -/
def exNoCursor : FS := { FS.fresh 7 with current_inode := 3 }

/-! ## Lemmas on the store -/

theorem find_update (m : Store) (k : Int) (f : INode → INode) (k' : Int) :
    Store.find (Store.update m k f) k' =
      if k' = k then (Store.find m k).map f else Store.find m k' := by
  induction m with
  | nil => simp [Store.update, Store.find]
  | cons kv t ih =>
    obtain ⟨a, v⟩ := kv
    by_cases ha : a = k
    · subst ha
      by_cases hk : k' = a
      · subst hk; simp [Store.update, Store.find]
      · simp [Store.update, Store.find, hk, ih]
    · have ha' : ¬ k = a := fun h => ha h.symm
      by_cases hk : k' = a
      · subst hk; simp [Store.update, Store.find, ha]
      · by_cases hkk : k' = k
        · subst hkk; simp [Store.update, Store.find, ha, ha', ih]
        · simp [Store.update, Store.find, ha, hk, hkk, ih]

theorem find_update_map (m : Store) (k : Int) (f : INode → INode) (k' : Int) :
    Store.find (Store.update m k f) k' =
      (Store.find m k').map fun n => if k' = k then f n else n := by
  rw [find_update]
  by_cases hk : k' = k
  · subst hk; simp
  · simp [hk]

theorem find_update3 (m : Store) (c cursor : Int) (f1 f2 f3 : INode → INode) (k : Int) :
    Store.find (Store.update (Store.update (Store.update m c f1) c f2) cursor f3) k =
      (Store.find m k).map fun n =>
        if k = cursor then f3 (if k = c then f2 (f1 n) else n)
        else if k = c then f2 (f1 n) else n := by
  simp only [find_update_map]
  cases Store.find m k with
  | none => rfl
  | some v =>
    by_cases e2 : k = c
    · subst e2
      by_cases e1 : k = cursor
      · subst e1; simp
      · simp [e1]
    · by_cases e1 : k = cursor
      · subst e1; simp [e2]
      · simp [e1, e2]

theorem keys_update (m : Store) (k : Int) (f : INode → INode) :
    Store.keys (Store.update m k f) = Store.keys m := by
  induction m with
  | nil => rfl
  | cons kv t ih =>
    obtain ⟨a, v⟩ := kv
    simp only [Store.keys] at ih
    by_cases ha : a = k <;> simp [Store.update, Store.keys, ha, ih]

theorem length_update (m : Store) (k : Int) (f : INode → INode) :
    (Store.update m k f).length = m.length := by
  have h := congrArg List.length (keys_update m k f)
  simpa [Store.keys] using h

theorem find_insert (m : Store) (k : Int) (v : INode) (k' : Int) :
    Store.find (Store.insert m k v) k' = if k' = k then some v else Store.find m k' := by
  induction m with
  | nil => simp [Store.insert, Store.find]
  | cons kv t ih =>
    obtain ⟨a, w⟩ := kv
    simp only [Store.insert]
    by_cases h1 : k < a
    · simp only [h1, if_true]
      by_cases hk : k' = k <;> simp [Store.find, hk]
    · simp only [h1, if_false]
      by_cases h2 : k = a
      · subst h2
        by_cases hk : k' = k <;> simp [Store.find, hk]
      · simp only [h2, if_false]
        by_cases hk : k' = a
        · subst hk
          have h3 : ¬ k' = k := fun h => h2 h.symm
          simp [Store.find, h3]
        · simp [Store.find, hk, ih]

theorem length_insert_absent (m : Store) (k : Int) (v : INode)
    (h : Store.find m k = none) : (Store.insert m k v).length = m.length + 1 := by
  induction m with
  | nil => simp [Store.insert]
  | cons kv t ih =>
    obtain ⟨a, w⟩ := kv
    have hka : ¬ k = a := by
      intro e; subst e; simp [Store.find] at h
    have ht : Store.find t k = none := by simpa [Store.find, hka] using h
    by_cases h1 : k < a
    · simp [Store.insert, h1]
    · simp [Store.insert, h1, hka, ih ht]

theorem subscript_absent {m : Store} {k : Int} (clk : Clock)
    (h : Store.find m k = none) :
    subscript m clk k =
      (INode.new clk.now, Store.insert m k (INode.new clk.now), clk.tick) := by
  simp [subscript, h]

theorem subscript_present {m : Store} {k : Int} {v : INode} (clk : Clock)
    (h : Store.find m k = some v) : subscript m clk k = (v, m, clk) := by
  simp [subscript, h]

/-! ## Lemmas on the search loop -/

theorem scan_none (p : INode → Bool) (m : Store) (clk : Clock) :
    ∀ (cs : List Int) (i : Nat),
      (∀ c ∈ cs, ∃ n, Store.find m c = some n ∧ p n = false) →
      scan p cs i m clk = (none, m, clk) := by
  intro cs
  induction cs with
  | nil => intro i _; rfl
  | cons c cs ih =>
    intro i h
    obtain ⟨n, hn, hp⟩ := h c (List.mem_cons_self _ _)
    simp only [scan, subscript_present clk hn, hp]
    exact ih (i + 1) fun d hd => h d (List.mem_cons_of_mem _ hd)

theorem scan_some (p : INode → Bool) (m : Store) (clk : Clock) (c : Int) (n : INode)
    (post : List Int) (hc : Store.find m c = some n) (hp : p n = true) :
    ∀ (pre : List Int) (i : Nat),
      (∀ d ∈ pre, ∃ e, Store.find m d = some e ∧ p e = false) →
      scan p (pre ++ c :: post) i m clk = (some (i + pre.length, c), m, clk) := by
  intro pre
  induction pre with
  | nil => intro i _; simp [scan, subscript_present clk hc, hp]
  | cons d pre ih =>
    intro i h
    obtain ⟨e, he, hpe⟩ := h d (List.mem_cons_self _ _)
    have h2 := ih (i + 1) fun x hx => h x (List.mem_cons_of_mem _ hx)
    have h3 : i + 1 + pre.length = i + (d :: pre).length := by simp; omega
    rw [h3] at h2
    simpa [scan, subscript_present clk he, hpe] using h2

theorem first_split (q : Int → Prop) [DecidablePred q] :
    ∀ cs : List Int, (∀ c ∈ cs, ¬ q c) ∨
      ∃ pre c post, cs = pre ++ c :: post ∧ (∀ d ∈ pre, ¬ q d) ∧ q c := by
  intro cs
  induction cs with
  | nil => left; simp
  | cons a cs ih =>
    by_cases ha : q a
    · right; exact ⟨[], a, cs, rfl, by simp, ha⟩
    · rcases ih with h | ⟨pre, c, post, h1, h2, h3⟩
      · left
        intro c hc
        rcases List.mem_cons.mp hc with rfl | hc
        · exact ha
        · exact h c hc
      · right
        refine ⟨a :: pre, c, post, by simp [h1], ?_, h3⟩
        intro d hd
        rcases List.mem_cons.mp hd with rfl | hd
        · exact ha
        · exact h2 d hd

theorem scan_name_first {m : Store} {cs : List Int} {name : String} {c : Int} (clk : Clock)
    (hpres : ∀ d ∈ cs, ∃ n, Store.find m d = some n) (hf : FirstNamed m cs name c) :
    ∃ pre post, cs = pre ++ c :: post ∧
      (∀ d ∈ pre, ∀ n, Store.find m d = some n → n.name ≠ name) ∧
      scan (fun n => n.name == name) cs 0 m clk = (some (pre.length, c), m, clk) := by
  obtain ⟨pre, post, hcs, hpre, n, hn, hname⟩ := hf
  refine ⟨pre, post, hcs, hpre, ?_⟩
  have h := scan_some (fun n => n.name == name) m clk c n post hn (by simp [hname]) pre 0
    (by
      intro d hd
      obtain ⟨e, he⟩ := hpres d (by rw [hcs]; exact List.mem_append_left _ hd)
      exact ⟨e, he, by simpa using hpre d hd e he⟩)
  rw [hcs, h]
  simp

theorem firstNamed_of_someNamed {m : Store} {cs : List Int} {name : String}
    (hn : SomeNamed m cs name) : ∃ c, FirstNamed m cs name c := by
  classical
  rcases first_split (fun c => ∃ n, Store.find m c = some n ∧ n.name = name) cs with h | h
  · obtain ⟨c, hc, n, h1, h2⟩ := hn
    exact absurd ⟨n, h1, h2⟩ (h c hc)
  · obtain ⟨pre, c, post, h1, h2, h3⟩ := h
    exact ⟨c, pre, post, h1, fun d hd n hdn hnm => h2 d hd ⟨n, hdn, hnm⟩, h3⟩

theorem scan_name_none {m : Store} {cs : List Int} {name : String} (clk : Clock)
    (hpres : ∀ d ∈ cs, ∃ n, Store.find m d = some n) (hn : ¬ SomeNamed m cs name) :
    scan (fun n => n.name == name) cs 0 m clk = (none, m, clk) := by
  apply scan_none
  intro c hc
  obtain ⟨n, h⟩ := hpres c hc
  refine ⟨n, h, ?_⟩
  have : n.name ≠ name := fun e => hn ⟨c, hc, n, h, e⟩
  simpa using this

theorem updateModificationTime_present {m : Store} {k : Int} {v : INode} (clk : Clock)
    (h : Store.find m k = some v) :
    updateModificationTime m clk k =
      (Store.update m k fun n => { n with modification_time := clk.now }, clk.tick) := by
  simp [updateModificationTime, subscript_present clk h]

theorem find_update_some {m : Store} {k' : Int} {v : INode} (k : Int) (f : INode → INode)
    (h : Store.find m k' = some v) :
    Store.find (Store.update m k f) k' = some (if k' = k then f v else v) := by
  rw [find_update]
  by_cases hk : k' = k
  · subst hk; simp [h]
  · simp [hk, h]

/-! ## Creation under a name that exists -/

/-- C6: when the cursor has a node, its children are all present and `c` is the first of them
bearing `name` (file or directory), `touch name` creates nothing: cursor, counter and the
set of ids are as before, and every node is as before except that the modification time of
`c` is the reading of the clock. -/
theorem touch_existing_name (s : FS) (clk : Clock) (name : String) (cur : INode) (c : Int)
    (hp : ChildrenPresent s cur) (hf : FirstNamed s.inodes cur.children name c) :
    (touch s clk name).2 = Msg.touchUpdated ∧
    (touch s clk name).1.current_inode = s.current_inode ∧
    (touch s clk name).1.next_inode_id = s.next_inode_id ∧
    Store.keys (touch s clk name).1.inodes = Store.keys s.inodes ∧
    ∀ k, Store.find (touch s clk name).1.inodes k =
      (Store.find s.inodes k).map fun n =>
        if k = c then { n with modification_time := clk.now } else n := by
  obtain ⟨pre, post, _, _, hscan⟩ := scan_name_first clk hp.2 hf
  obtain ⟨_, _, _, _, n, hn, _⟩ := hf
  have h : touch s clk name =
      ({ s with inodes := (Store.update s.inodes c
          fun n => { n with modification_time := clk.now }) }, Msg.touchUpdated) := by
    simp [touch, subscript_present clk hp.1, hscan, updateModificationTime,
      subscript_present clk hn]
  rw [h]
  refine ⟨rfl, rfl, rfl, keys_update _ _ _, fun k => ?_⟩
  simp only [find_update]
  by_cases hk : k = c
  · subst hk; simp
  · simp [hk]

/-- Witness of C6: `touch a` after `mkdir a` in a fresh session. -/
theorem touch_existing_name_witness :
    (touch exA exClock "a").2 = Msg.touchUpdated ∧
    (touch exA exClock "a").1.current_inode = exA.current_inode ∧
    (touch exA exClock "a").1.next_inode_id = exA.next_inode_id ∧
    Store.keys (touch exA exClock "a").1.inodes = Store.keys exA.inodes ∧
    ∀ k, Store.find (touch exA exClock "a").1.inodes k =
      (Store.find exA.inodes k).map fun n =>
        if k = 1 then { n with modification_time := exClock.now } else n :=
  touch_existing_name exA exClock "a" exARoot 1
    ⟨by decide, fun c hc => by
      have hc1 : c = 1 := by simpa [exARoot] using hc
      subst hc1; exact ⟨_, rfl⟩⟩
    ⟨[], [], rfl, by simp, _, rfl, by decide⟩

/-! ## rm -/

theorem weight_erase_present : ∀ (m : Store) (k : Int) (v : INode),
    Store.find m k = some v →
    Store.weight (Store.erase m k) + (v.children.length + 1) = Store.weight m := by
  intro m
  induction m with
  | nil => intro k v h; simp [Store.find] at h
  | cons kv t ih =>
    intro k v h
    obtain ⟨a, w⟩ := kv
    by_cases hk : k = a
    · subst hk
      simp only [Store.find, if_true, Option.some.injEq] at h
      subst h
      simp only [Store.erase, if_true, Store.weight]
      omega
    · simp only [Store.find, hk, if_false] at h
      have := ih k v h
      simp only [Store.erase, hk, if_false, Store.weight]
      omega

theorem erase_insert_absent : ∀ (m : Store) (k : Int) (v : INode),
    Store.find m k = none → Store.erase (Store.insert m k v) k = m := by
  intro m
  induction m with
  | nil => intro k v _; simp [Store.insert, Store.erase]
  | cons kv t ih =>
    intro k v h
    obtain ⟨a, w⟩ := kv
    have hk : ¬ k = a := by
      intro e; subst e; simp [Store.find] at h
    have ht : Store.find t k = none := by simpa [Store.find, hk] using h
    by_cases h1 : k < a
    · simp [Store.insert, h1, Store.erase]
    · simp [Store.insert, h1, hk, Store.erase, ih k v ht]

theorem rmLoop_terminates : ∀ (fuel : Nat) (st : List Int) (m : Store) (clk : Clock),
    st.length + Store.weight m ≤ fuel → ∃ r, rmLoop fuel st m clk = some r := by
  intro fuel
  induction fuel with
  | zero =>
    intro st m clk h
    cases st with
    | nil => exact ⟨_, rfl⟩
    | cons a st => simp at h
  | succ f ih =>
    intro st m clk h
    cases st with
    | nil => exact ⟨_, rfl⟩
    | cons a st =>
      simp only [List.length_cons] at h
      cases hf : Store.find m a with
      | none =>
        simp only [rmLoop, subscript_absent clk hf, erase_insert_absent m a _ hf]
        apply ih
        simp [INode.new]
        omega
      | some v =>
        have hw := weight_erase_present m a v hf
        simp only [rmLoop, subscript_present clk hf]
        apply ih
        split
        · simp only [List.length_append, List.length_reverse]; omega
        · omega

theorem rm_terminates (s : FS) (clk : Clock) (name : String) :
    ∃ fuel r, rm fuel s clk name = some r := by
  unfold rm
  split
  rename_i cur m1 clk1 _
  split
  · rename_i i child_id m2 clk2 _
    split
    rename_i node m3 clk3 _
    split
    · exact ⟨0, _, rfl⟩
    · obtain ⟨q, hq⟩ := rmLoop_terminates
        ([derefAfterErase cur.children i child_id].length + Store.weight
          (Store.update m3 s.current_inode fun n =>
            { n with children := n.children.eraseIdx i }))
        [derefAfterErase cur.children i child_id]
        (Store.update m3 s.current_inode fun n =>
            { n with children := n.children.eraseIdx i }) clk3 (le_refl _)
      refine ⟨[derefAfterErase cur.children i child_id].length + Store.weight
          (Store.update m3 s.current_inode fun n =>
            { n with children := n.children.eraseIdx i }), ?_⟩
      simp only [hq]
      exact ⟨_, rfl⟩
  · exact ⟨0, _, rfl⟩

theorem rmLoop_mono : ∀ (fuel : Nat) (st : List Int) (m : Store) (clk : Clock) (r : Store × Clock),
    rmLoop fuel st m clk = some r → ∀ k, rmLoop (fuel + k) st m clk = some r := by
  intro fuel
  induction fuel with
  | zero =>
    intro st m clk r h k
    cases st with
    | nil =>
      cases k <;> simpa [rmLoop] using h
    | cons a st => simp [rmLoop] at h
  | succ f ih =>
    intro st m clk r h k
    cases st with
    | nil =>
      have h1 : rmLoop (f + 1 + k) [] m clk = some (m, clk) := by
        cases hk : f + 1 + k <;> rfl
      rw [h1]
      simpa [rmLoop] using h
    | cons a st =>
      have e : f + 1 + k = (f + k) + 1 := by omega
      rw [e]
      simp only [rmLoop] at h ⊢
      exact ih _ _ _ _ h k

theorem rm_mono (fuel : Nat) (s : FS) (clk : Clock) (name : String) (r : FS × Msg)
    (h : rm fuel s clk name = some r) (k : Nat) : rm (fuel + k) s clk name = some r := by
  unfold rm at h ⊢
  revert h
  split
  rename_i cur m1 clk1 _
  split
  · rename_i i child_id m2 clk2 _
    split
    rename_i node m3 clk3 _
    split
    · exact id
    · intro h
      cases hl : rmLoop fuel [derefAfterErase cur.children i child_id]
          (Store.update m3 s.current_inode fun n =>
            { n with children := n.children.eraseIdx i }) clk3 with
      | none => simp [hl] at h
      | some q =>
        have hk := rmLoop_mono _ _ _ _ _ hl k
        simp only [hl] at h
        simp only [hk]
        exact h
  · exact id

/-- C1 (behaviour of the code at the failing input): in the session `mkdir a`, `mkdir b`
the cursor and its children are present and the empty directory `a` (id 1) is the first child
named `a`; yet `rm a`, with any fuel from 1 on, reports the removal and leaves a store that
still holds id 1, while the node of the next sibling `b` (id 2) is the one erased and the
root lists the erased id 2. -/
theorem rm_first_child_erases_next_sibling :
    Store.find exAB.inodes exAB.current_inode = some exABRoot ∧
    (Store.find exAB.inodes 1).map (fun n => (n.name, n.children)) = some ("a", []) ∧
    (Store.find exAB.inodes 2).map (fun n => n.name) = some "b" ∧
    ∀ fuel, (rm (fuel + 1) exAB exClock "a").map (fun r =>
        (r.2, Store.keys r.1.inodes, (Store.find r.1.inodes 0).map INode.children))
      = some (Msg.removed, [0, 1], some [2]) := by
  refine ⟨by decide, by decide, by decide, fun fuel => ?_⟩
  have h : ∃ r, rm 1 exAB exClock "a" = some r ∧
      (r.2, Store.keys r.1.inodes, (Store.find r.1.inodes 0).map INode.children)
        = (Msg.removed, [0, 1], some [2]) := ⟨_, rfl, by decide⟩
  obtain ⟨r, h1, h2⟩ := h
  rw [Nat.add_comm, rm_mono 1 exAB exClock "a" r h1 fuel]
  simp [h2]

/-! ## cd -/

/-- C10 (counterexample): with the cursor in directory `a` (id 1), `cd ""` leaves the
cursor at 1, not at the root. -/
theorem cd_empty_not_root :
    exInA.current_inode = 1 ∧ (cd exInA exClock "").1.current_inode = 1 := by
  decide

/-- C10 (amended): for every state, `cd "/"` sets the cursor to the root id 0 and changes
nothing else, and `cd ""` returns the state as it was (cursor included). -/
theorem cd_root_and_empty (s : FS) (clk : Clock) :
    cd s clk "/" = ({ s with current_inode := 0 }, Msg.silent) ∧
    cd s clk "" = (s, Msg.silent) := by
  constructor
  · have h : ¬ ("/" = "") := by decide
    simp [cd, h]
  · simp [cd]

/-! ## chmod -/

/-- C9 (counterexample): in `exDangling` the cursor has the child `a` (id 1), but the
children list also holds the id 7, absent from the store.  `chmod a rwx` and the rejected
`chmod a rwxrwxrwxrwx` both leave a store with a new node under id 7. -/
theorem chmod_inserts_dangling_child :
    (Store.find exDangling.inodes 1).map (fun n => n.name) = some "a" ∧
    Store.keys exDangling.inodes = [0, 1] ∧
    (chmod exDangling exClock "a" "rwx").2 = Msg.permsChanged ∧
    Store.keys (chmod exDangling exClock "a" "rwx").1.inodes = [0, 1, 7] ∧
    (chmod exDangling exClock "a" "rwxrwxrwxrwx").2 = Msg.invalidFormat ∧
    Store.keys (chmod exDangling exClock "a" "rwxrwxrwxrwx").1.inodes = [0, 1, 7] := by
  decide

/-- C9 (amended): when the cursor has a node, its children are all present and `c` is the
first of them named `name`: if the length of `mode` is 3 or 9, `chmod name mode` sets the
permissions of `c` to `mode` and its modification time to the clock reading, and changes
nothing else; for every other length it reports InvalidFormat and returns the state as it
was. -/
theorem chmod_spec (s : FS) (clk : Clock) (name mode : String) (cur : INode) (c : Int)
    (hp : ChildrenPresent s cur) (hf : FirstNamed s.inodes cur.children name c) :
    ((mode.length = 3 ∨ mode.length = 9) →
      (chmod s clk name mode).2 = Msg.permsChanged ∧
      (chmod s clk name mode).1.current_inode = s.current_inode ∧
      (chmod s clk name mode).1.next_inode_id = s.next_inode_id ∧
      Store.keys (chmod s clk name mode).1.inodes = Store.keys s.inodes ∧
      ∀ k, Store.find (chmod s clk name mode).1.inodes k =
        (Store.find s.inodes k).map fun n =>
          if k = c then { n with permissions := mode, modification_time := clk.now } else n) ∧
    (¬ (mode.length = 3 ∨ mode.length = 9) →
      chmod s clk name mode = (s, Msg.invalidFormat)) := by
  obtain ⟨pre, post, _, _, hscan⟩ := scan_name_first clk hp.2 hf
  obtain ⟨_, _, _, _, n, hn, _⟩ := hf
  constructor
  · intro hm
    have hm' : mode.length = 9 ∨ mode.length = 3 := hm.symm
    have h1 : Store.find (Store.update s.inodes c fun n => { n with permissions := mode }) c
        = some { n with permissions := mode } := by
      rw [find_update_some c _ hn]; simp
    have h : chmod s clk name mode =
        ({ s with inodes := (Store.update
            (Store.update s.inodes c fun n => { n with permissions := mode }) c
            fun n => { n with modification_time := clk.now }) }, Msg.permsChanged) := by
      simp [chmod, subscript_present clk hp.1, hscan, hm', subscript_present clk hn,
        updateModificationTime_present clk h1]
    rw [h]
    refine ⟨rfl, rfl, rfl, ?_, fun k => ?_⟩
    · simp only [keys_update]
    · simp only [find_update]
      by_cases hk : k = c
      · subst hk; simp [hn]
      · simp [hk]
  · intro hm
    have hm' : ¬ (mode.length = 9 ∨ mode.length = 3) := fun h => hm h.symm
    simp [chmod, subscript_present clk hp.1, hscan, hm']

/-- Witness of C9 (amended): `chmod a rwx` after `mkdir a` in a fresh session. -/
theorem chmod_spec_witness :
    (("rwx".length = 3 ∨ "rwx".length = 9) →
      (chmod exA exClock "a" "rwx").2 = Msg.permsChanged ∧
      (chmod exA exClock "a" "rwx").1.current_inode = exA.current_inode ∧
      (chmod exA exClock "a" "rwx").1.next_inode_id = exA.next_inode_id ∧
      Store.keys (chmod exA exClock "a" "rwx").1.inodes = Store.keys exA.inodes ∧
      ∀ k, Store.find (chmod exA exClock "a" "rwx").1.inodes k =
        (Store.find exA.inodes k).map fun n =>
          if k = 1 then { n with permissions := "rwx", modification_time := exClock.now }
          else n) ∧
    (¬ ("rwx".length = 3 ∨ "rwx".length = 9) →
      chmod exA exClock "a" "rwx" = (exA, Msg.invalidFormat)) :=
  chmod_spec exA exClock "a" "rwx" exARoot 1
    ⟨by decide, fun c hc => by
      have hc1 : c = 1 := by simpa [exARoot] using hc
      subst hc1; exact ⟨_, rfl⟩⟩
    ⟨[], [], rfl, by simp, _, rfl, by decide⟩

/-! ## mv -/

theorem mv_collision {s : FS} {old new : String} {cur : INode} (clk : Clock)
    (hp : ChildrenPresent s cur) (hold : SomeNamed s.inodes cur.children old)
    (hnew : SomeNamed s.inodes cur.children new) :
    mv s clk old new = (s, Msg.alreadyExists) := by
  obtain ⟨c, hf⟩ := firstNamed_of_someNamed hold
  obtain ⟨_, _, _, _, hscan⟩ := scan_name_first clk hp.2 hf
  obtain ⟨c2, hf2⟩ := firstNamed_of_someNamed hnew
  obtain ⟨_, _, _, _, hscan2⟩ := scan_name_first clk hp.2 hf2
  simp [mv, subscript_present clk hp.1, hscan, hscan2]

theorem mv_renames {s : FS} {old new : String} {cur : INode} {c : Int} (clk : Clock)
    (hp : ChildrenPresent s cur) (hf : FirstNamed s.inodes cur.children old c)
    (hnew : ¬ SomeNamed s.inodes cur.children new) :
    (mv s clk old new).2 = Msg.renamed ∧
    (mv s clk old new).1.current_inode = s.current_inode ∧
    (mv s clk old new).1.next_inode_id = s.next_inode_id ∧
    Store.keys (mv s clk old new).1.inodes = Store.keys s.inodes ∧
    ∀ k, Store.find (mv s clk old new).1.inodes k =
      (Store.find s.inodes k).map
        (renamedNode c s.current_inode new clk.now clk.tick.now k) := by
  obtain ⟨_, _, _, _, hscan⟩ := scan_name_first clk hp.2 hf
  obtain ⟨_, _, _, _, n, hn, _⟩ := hf
  have hscan2 := scan_name_none clk hp.2 hnew
  have g1 := find_update_some c (fun n => { n with name := new }) hn
  have g2 := find_update_some c (fun n => { n with name := new }) hp.1
  have g3 := find_update_some c (fun n => { n with modification_time := clk.now }) g2
  have h : mv s clk old new =
      ({ s with inodes := (Store.update (Store.update
          (Store.update s.inodes c fun n => { n with name := new }) c
          fun n => { n with modification_time := clk.now }) s.current_inode
          fun n => { n with modification_time := clk.tick.now }) }, Msg.renamed) := by
    simp only [mv, subscript_present clk hp.1, hscan, hscan2, subscript_present clk hn,
      updateModificationTime_present clk g1, updateModificationTime_present clk.tick g3]
  rw [h]
  refine ⟨rfl, rfl, rfl, ?_, fun k => ?_⟩
  · simp only [keys_update]
  · rw [find_update3]
    cases Store.find s.inodes k with
    | none => rfl
    | some v =>
      simp only [Option.map, renamedNode]

/-- C7 (counterexample): after `mkdir a` the only child of the cursor is `a` (id 1), so no
child other than id 1 is named `a`; yet `mv a a` reports AlreadyExists. -/
theorem mv_same_name_already_exists :
    exARoot.children = [1] ∧
    Store.find exA.inodes exA.current_inode = some exARoot ∧
    (Store.find exA.inodes 1).map (fun n => n.name) = some "a" ∧
    mv exA exClock "a" "a" = (exA, Msg.alreadyExists) := by
  decide

/-- C7 (amended): when the cursor has a node, its children are all present and `c` is the
first of them named `oldName`: `mv oldName newName` reports AlreadyExists exactly when some
child of the cursor, `c` itself included, is named `newName`, and then returns the state as
it was; in every other case it reports the rename, sets the name of `c` to `newName` and
changes nothing else except the modification times of `c` and of the cursor. -/
theorem mv_spec (s : FS) (clk : Clock) (oldName newName : String) (cur : INode) (c : Int)
    (hp : ChildrenPresent s cur) (hf : FirstNamed s.inodes cur.children oldName c) :
    ((mv s clk oldName newName).2 = Msg.alreadyExists ↔
      SomeNamed s.inodes cur.children newName) ∧
    (SomeNamed s.inodes cur.children newName →
      mv s clk oldName newName = (s, Msg.alreadyExists)) ∧
    (¬ SomeNamed s.inodes cur.children newName →
      (mv s clk oldName newName).2 = Msg.renamed ∧
      (mv s clk oldName newName).1.current_inode = s.current_inode ∧
      (mv s clk oldName newName).1.next_inode_id = s.next_inode_id ∧
      Store.keys (mv s clk oldName newName).1.inodes = Store.keys s.inodes ∧
      ∀ k, Store.find (mv s clk oldName newName).1.inodes k =
        (Store.find s.inodes k).map
          (renamedNode c s.current_inode newName clk.now clk.tick.now k)) := by
  have hold : SomeNamed s.inodes cur.children oldName := by
    obtain ⟨pre, post, h1, _, n, h2, h3⟩ := hf
    exact ⟨c, by rw [h1]; simp, n, h2, h3⟩
  refine ⟨⟨fun h => ?_, fun h => ?_⟩, fun h => mv_collision clk hp hold h,
    fun h => mv_renames clk hp hf h⟩
  · by_contra hno
    rw [(mv_renames clk hp hf hno).1] at h
    exact absurd h (by decide)
  · rw [mv_collision clk hp hold h]

/-- Witness of C7 (amended): `mv a b` after `mkdir a` in a fresh session. -/
theorem mv_spec_witness :
    ((mv exA exClock "a" "b").2 = Msg.alreadyExists ↔
      SomeNamed exA.inodes exARoot.children "b") ∧
    (SomeNamed exA.inodes exARoot.children "b" →
      mv exA exClock "a" "b" = (exA, Msg.alreadyExists)) ∧
    (¬ SomeNamed exA.inodes exARoot.children "b" →
      (mv exA exClock "a" "b").2 = Msg.renamed ∧
      (mv exA exClock "a" "b").1.current_inode = exA.current_inode ∧
      (mv exA exClock "a" "b").1.next_inode_id = exA.next_inode_id ∧
      Store.keys (mv exA exClock "a" "b").1.inodes = Store.keys exA.inodes ∧
      ∀ k, Store.find (mv exA exClock "a" "b").1.inodes k =
        (Store.find exA.inodes k).map
          (renamedNode 1 exA.current_inode "b" exClock.now exClock.tick.now k)) :=
  mv_spec exA exClock "a" "b" exARoot 1
    ⟨by decide, fun c hc => by
      have hc1 : c = 1 := by simpa [exARoot] using hc
      subst hc1; exact ⟨_, rfl⟩⟩
    ⟨[], [], rfl, by simp, _, rfl, by decide⟩

theorem renamedNode_children (c cursor : Int) (new : String) (t0 t1 : Int) (k : Int)
    (n : INode) : (renamedNode c cursor new t0 t1 k n).children = n.children := by
  unfold renamedNode
  by_cases e2 : k = c
  · subst e2
    by_cases e1 : k = cursor
    · subst e1; simp
    · simp [e1]
  · by_cases e1 : k = cursor
    · subst e1; simp [e2]
    · simp [e1, e2]

theorem renamedNode_name (c cursor : Int) (new : String) (t0 t1 : Int) (k : Int)
    (n : INode) : (renamedNode c cursor new t0 t1 k n).name = if k = c then new else n.name := by
  unfold renamedNode
  by_cases e2 : k = c
  · subst e2
    by_cases e1 : k = cursor
    · subst e1; simp
    · simp [e1]
  · by_cases e1 : k = cursor
    · subst e1; simp [e2]
    · simp [e1, e2]

theorem renamedNode_back (c cursor : Int) (x y : String) (t0 t1 u0 u1 : Int) (k : Int)
    (n : INode) (hx : k = c → n.name = x) :
    renamedNode c cursor x u0 u1 k (renamedNode c cursor y t0 t1 k n) =
      bumpedNode c cursor u0 u1 k n := by
  unfold renamedNode bumpedNode
  by_cases e2 : k = c
  · have hn := hx e2
    subst e2
    subst hn
    by_cases e1 : k = cursor
    · subst e1; simp
    · simp [e1]
  · by_cases e1 : k = cursor
    · subst e1; simp [e2]
    · simp [e1, e2]

/-- C8 (counterexample): in `exDangling` (no two children bear the same name, the cursor
has the child `a` and none named `y` or with the empty name) the round trip `mv a y`,
`mv y a` ends with a node under id 7 that the original store lacks; and `mv a ""` does not
succeed at all: the node inserted for the dangling id 7 has the empty name. -/
theorem mv_round_trip_dangling_child :
    Store.keys exDangling.inodes = [0, 1] ∧
    (mv exDangling exClock "a" "y").2 = Msg.renamed ∧
    (mv (mv exDangling exClock "a" "y").1 exClock "y" "a").2 = Msg.renamed ∧
    Store.keys (mv (mv exDangling exClock "a" "y").1 exClock "y" "a").1.inodes = [0, 1, 7] ∧
    (mv exDangling exClock "a" "").2 = Msg.alreadyExists := by
  decide

/-- C8 (amended): when the cursor has a node, its children are all present, no two of them
bear the same name, `c` is the child named `x` and no child is named `y`: `mv x y` followed
by `mv y x` both report the rename, and the final state has the cursor, the counter, the
set of ids and every field of every node as in the original state, except the modification
times of `c` and of the cursor, which hold the clock readings of the first call after it and
those of the second call at the end. -/
theorem mv_round_trip (s : FS) (clk1 clk2 : Clock) (x y : String) (cur : INode) (c : Int)
    (hp : ChildrenPresent s cur) (hu : UniqueNames s.inodes cur.children)
    (hf : FirstNamed s.inodes cur.children x c)
    (hny : ¬ SomeNamed s.inodes cur.children y) :
    (mv s clk1 x y).2 = Msg.renamed ∧
    (mv (mv s clk1 x y).1 clk2 y x).2 = Msg.renamed ∧
    (mv (mv s clk1 x y).1 clk2 y x).1.current_inode = s.current_inode ∧
    (mv (mv s clk1 x y).1 clk2 y x).1.next_inode_id = s.next_inode_id ∧
    Store.keys (mv (mv s clk1 x y).1 clk2 y x).1.inodes = Store.keys s.inodes ∧
    (∀ k, Store.find (mv s clk1 x y).1.inodes k =
      (Store.find s.inodes k).map
        (renamedNode c s.current_inode y clk1.now clk1.tick.now k)) ∧
    (∀ k, Store.find (mv (mv s clk1 x y).1 clk2 y x).1.inodes k =
      (Store.find s.inodes k).map
        (bumpedNode c s.current_inode clk2.now clk2.tick.now k)) := by
  obtain ⟨a1, a2, a3, a4, a5⟩ := mv_renames clk1 hp hf hny
  obtain ⟨pre, post, hsplit, hpre, n, hn, hname⟩ := hf
  have hcmem : c ∈ cur.children := by rw [hsplit]; simp
  have hxy : x ≠ y := fun e => hny ⟨c, hcmem, n, hn, by rw [hname, e]⟩
  -- the state after the first call
  have hp1 : ChildrenPresent (mv s clk1 x y).1
      (renamedNode c s.current_inode y clk1.now clk1.tick.now s.current_inode cur) := by
    constructor
    · rw [a2, a5, hp.1]; rfl
    · intro d hd
      rw [renamedNode_children] at hd
      obtain ⟨e, he⟩ := hp.2 d hd
      exact ⟨_, by rw [a5, he]; rfl⟩
  have hf1 : FirstNamed (mv s clk1 x y).1.inodes
      (renamedNode c s.current_inode y clk1.now clk1.tick.now s.current_inode cur).children
      y c := by
    refine ⟨pre, post, by rw [renamedNode_children]; exact hsplit, ?_, ?_⟩
    · intro d hd e he
      have hdm : d ∈ cur.children := by rw [hsplit]; exact List.mem_append_left _ hd
      obtain ⟨e0, he0⟩ := hp.2 d hdm
      have hdc : d ≠ c := by
        intro h; subst h
        rw [hn] at he0
        exact hpre d hd n hn hname
      rw [a5, he0] at he
      simp only [Option.map, Option.some.injEq] at he
      rw [← he, renamedNode_name]
      simp only [hdc, if_false]
      exact fun h => hny ⟨d, hdm, e0, he0, h⟩
    · refine ⟨_, by rw [a5, hn]; rfl, ?_⟩
      rw [renamedNode_name]; simp
  have hnx : ¬ SomeNamed (mv s clk1 x y).1.inodes
      (renamedNode c s.current_inode y clk1.now clk1.tick.now s.current_inode cur).children
      x := by
    rintro ⟨d, hd, e, he, hex⟩
    rw [renamedNode_children] at hd
    obtain ⟨e0, he0⟩ := hp.2 d hd
    rw [a5, he0] at he
    simp only [Option.map, Option.some.injEq] at he
    rw [← he, renamedNode_name] at hex
    by_cases hdc : d = c
    · simp only [hdc, if_true] at hex
      exact hxy hex.symm
    · simp only [hdc, if_false] at hex
      exact hdc (hu d hd c hcmem e0 n he0 hn (by rw [hex, hname]))
  obtain ⟨b1, b2, b3, b4, b5⟩ := mv_renames clk2 hp1 hf1 hnx
  refine ⟨a1, b1, by rw [b2, a2], by rw [b3, a3], by rw [b4, a4], a5, fun k => ?_⟩
  rw [b5, a5, a2]
  cases hk : Store.find s.inodes k with
  | none => rfl
  | some v =>
    simp only [Option.map]
    rw [renamedNode_back]
    intro e
    subst e
    rw [hn] at hk
    simp only [Option.some.injEq] at hk
    rw [← hk]; exact hname

/-- Witness of C8 (amended): `mv a b`, `mv b a` after `mkdir a` in a fresh session. -/
theorem mv_round_trip_witness :
    (mv exA exClock "a" "b").2 = Msg.renamed ∧
    (mv (mv exA exClock "a" "b").1 exClock "b" "a").2 = Msg.renamed ∧
    (mv (mv exA exClock "a" "b").1 exClock "b" "a").1.current_inode = exA.current_inode ∧
    (mv (mv exA exClock "a" "b").1 exClock "b" "a").1.next_inode_id = exA.next_inode_id ∧
    Store.keys (mv (mv exA exClock "a" "b").1 exClock "b" "a").1.inodes
      = Store.keys exA.inodes ∧
    (∀ k, Store.find (mv exA exClock "a" "b").1.inodes k =
      (Store.find exA.inodes k).map
        (renamedNode 1 exA.current_inode "b" exClock.now exClock.tick.now k)) ∧
    (∀ k, Store.find (mv (mv exA exClock "a" "b").1 exClock "b" "a").1.inodes k =
      (Store.find exA.inodes k).map
        (bumpedNode 1 exA.current_inode exClock.now exClock.tick.now k)) :=
  mv_round_trip exA exClock exClock "a" "b" exARoot 1
    ⟨by decide, fun c hc => by
      have hc1 : c = 1 := by simpa [exARoot] using hc
      subst hc1; exact ⟨_, rfl⟩⟩
    (fun d1 h1 d2 h2 _ _ _ _ _ => by
      have e1 : d1 = 1 := by simpa [exARoot] using h1
      have e2 : d2 = 1 := by simpa [exARoot] using h2
      rw [e1, e2])
    ⟨[], [], rfl, by simp, _, rfl, by decide⟩
    (by
      rintro ⟨d, hd, n, hn, hname⟩
      have e1 : d = 1 := by simpa [exARoot] using hd
      subst e1
      have h : Store.find exA.inodes 1 = some { INode.new 100 with
          id := 1, name := "a", is_directory := true, parent := 0 } := by decide
      rw [h] at hn
      simp only [Option.some.injEq] at hn
      rw [← hn] at hname
      exact absurd hname (by decide))

/-! ## Creation under a new name -/

/-- The store left by the tail of `mkdir` / `touch` once the name was found free. -/
theorem create_store_facts (m : Store) (cursor newid : Int) (cur new d : INode) (t : Int)
    (hcur : Store.find m cursor = some cur) (hnew : Store.find m newid = none) :
    let r := Store.update (Store.update (Store.insert (Store.update m cursor
        fun n => { n with children := n.children ++ [newid] }) newid d) newid fun _ => new)
        cursor fun n => { n with modification_time := t }
    r.length = m.length + 1 ∧
    Store.find r newid = some new ∧
    Store.find r cursor =
      some { cur with children := cur.children ++ [newid], modification_time := t } ∧
    ∀ k, k ≠ newid → k ≠ cursor → Store.find r k = Store.find m k := by
  have hne : newid ≠ cursor := by
    intro e; rw [e, hcur] at hnew; exact absurd hnew (by simp)
  have hne' : cursor ≠ newid := fun e => hne e.symm
  have h4 : Store.find (Store.update m cursor
      fun n => { n with children := n.children ++ [newid] }) newid = none := by
    rw [find_update_map, hnew]; rfl
  refine ⟨?_, ?_, ?_, ?_⟩
  · rw [length_update, length_update, length_insert_absent _ _ _ h4, length_update]
  · rw [find_update_map, find_update_map, find_insert]
    simp [hne]
  · rw [find_update_map, find_update_map, find_insert, find_update_map, hcur]
    simp [hne']
  · intro k h1 h2
    rw [find_update_map, find_update_map, find_insert, find_update_map]
    cases Store.find m k <;> simp [h1, h2]

/-- C5 (counterexample): (1) in `exCollide` the counter 1 is the id of the stored file `f`;
`mkdir g` (no child is named `g`) leaves two nodes in the store, not three, and the node
under id 1 is now the directory `g`.  (2) In `exMaxCounter` the counter is 2147483647 and
`mkdir g` wraps it to -2147483648 instead of adding 1. -/
theorem create_collision_and_overflow :
    (exCollide.inodes.length = 2 ∧
     (Store.find exCollide.inodes 1).map (fun n => n.name) = some "f" ∧
     (mkdir exCollide exClock "g").2 = Msg.mkdirCreated ∧
     (mkdir exCollide exClock "g").1.inodes.length = 2 ∧
     (Store.find (mkdir exCollide exClock "g").1.inodes 1).map (fun n => n.name) = some "g") ∧
    (exMaxCounter.next_inode_id = 2147483647 ∧
     (mkdir exMaxCounter exClock "g").2 = Msg.mkdirCreated ∧
     (mkdir exMaxCounter exClock "g").1.next_inode_id = -2147483648) := by
  decide

/-- C5 (amended): when the cursor has a node, its children are all present, none of them
bears `name`, and the counter is an `int` below the largest one that is not the id of a stored
node: `mkdir name` (respectively `touch name`) adds exactly one node, stored under the previous
value of the counter, with that id, the name `name`, kind Directory (respectively File), the
cursor as parent and no children; appends the id at the end of the children of the cursor;
adds exactly 1 to the counter; and leaves every other node as it was, the cursor keeping all
its fields but the children list and the modification time. -/
theorem create_spec (s : FS) (clk : Clock) (name : String) (cur : INode)
    (hp : ChildrenPresent s cur) (hn : ¬ SomeNamed s.inodes cur.children name)
    (hfree : Store.find s.inodes s.next_inode_id = none)
    (hlo : -2147483648 ≤ s.next_inode_id) (hhi : s.next_inode_id < 2147483647) :
    ((mkdir s clk name).2 = Msg.mkdirCreated ∧
      Created s cur clk name true (mkdir s clk name).1) ∧
    ((touch s clk name).2 = Msg.touchCreated ∧
      Created s cur clk name false (touch s clk name).1) := by
  have hscan := scan_name_none clk hp.2 hn
  have hw : wrapInt32 (s.next_inode_id + 1) = s.next_inode_id + 1 := by
    unfold wrapInt32; omega
  have h4 : Store.find (Store.update s.inodes s.current_inode
      fun n => { n with children := n.children ++ [s.next_inode_id] }) s.next_inode_id
      = none := by
    rw [find_update_map, hfree]; rfl
  have hex : ∀ (new d : INode), ∃ v, Store.find (Store.update (Store.insert
      (Store.update s.inodes s.current_inode
        fun n => { n with children := n.children ++ [s.next_inode_id] })
      s.next_inode_id d) s.next_inode_id fun _ => new) s.current_inode = some v := by
    intro new d
    rw [find_update_map, find_insert, find_update_map, hp.1]
    by_cases e : s.current_inode = s.next_inode_id <;> simp [e]
  constructor
  · obtain ⟨v, hv⟩ := hex
      { INode.new clk.now with
        id := s.next_inode_id, name := name, is_directory := true,
        parent := s.current_inode } (INode.new clk.tick.now)
    obtain ⟨f1, f2, f3, f4⟩ := create_store_facts s.inodes s.current_inode s.next_inode_id cur
      { INode.new clk.now with
        id := s.next_inode_id, name := name, is_directory := true,
        parent := s.current_inode } (INode.new clk.tick.now) clk.tick.tick.now hp.1 hfree
    simp only [Created, mkdir, subscript_present clk hp.1, hscan, subscript_present clk.tick hp.1,
      subscript_absent clk.tick h4, updateModificationTime_present clk.tick.tick hv, hw]
    exact ⟨trivial, trivial, trivial, f1, f2, f3, f4⟩
  · obtain ⟨v, hv⟩ := hex
      { INode.new clk.now with
        id := s.next_inode_id, name := name, is_directory := false,
        parent := s.current_inode } (INode.new clk.tick.now)
    obtain ⟨f1, f2, f3, f4⟩ := create_store_facts s.inodes s.current_inode s.next_inode_id cur
      { INode.new clk.now with
        id := s.next_inode_id, name := name, is_directory := false,
        parent := s.current_inode } (INode.new clk.tick.now) clk.tick.tick.now hp.1 hfree
    simp only [Created, touch, subscript_present clk hp.1, hscan, subscript_present clk.tick hp.1,
      subscript_absent clk.tick h4, updateModificationTime_present clk.tick.tick hv, hw]
    exact ⟨trivial, trivial, trivial, f1, f2, f3, f4⟩

/-- Witness of C5 (amended): `mkdir b` and `touch b` after `mkdir a` in a fresh session. -/
theorem create_spec_witness :
    ((mkdir exA exClock "b").2 = Msg.mkdirCreated ∧
      Created exA exARoot exClock "b" true (mkdir exA exClock "b").1) ∧
    ((touch exA exClock "b").2 = Msg.touchCreated ∧
      Created exA exARoot exClock "b" false (touch exA exClock "b").1) :=
  create_spec exA exClock "b" exARoot
    ⟨by decide, fun c hc => by
      have hc1 : c = 1 := by simpa [exARoot] using hc
      subst hc1; exact ⟨_, rfl⟩⟩
    (by
      rintro ⟨d, hd, n, hn, hname⟩
      have e1 : d = 1 := by simpa [exARoot] using hd
      subst e1
      have h : Store.find exA.inodes 1 = some { INode.new 100 with
          id := 1, name := "a", is_directory := true, parent := 0 } := by decide
      rw [h] at hn
      simp only [Option.some.injEq] at hn
      rw [← hn] at hname
      exact absurd hname (by decide))
    (by decide) (by decide) (by decide)

/-! ## Path resolver -/

theorem reachable_chain {m : Store} {k : Int} (h : Reachable m k) :
    ∃ ps, ParentChain m k ps := by
  induction h with
  | root => exact ⟨[], ParentChain.root⟩
  | @child p c pe ce _ _ _ hc hpar ih =>
    obtain ⟨ps, hps⟩ := ih
    by_cases h0 : c = 0
    · subst h0; exact ⟨[], ParentChain.root⟩
    · exact ⟨ce.name :: ps, ParentChain.step h0 hc (hpar ▸ hps)⟩

theorem chain_collect {m : Store} {k : Int} {ps : List String} (h : ParentChain m k ps) :
    ∀ (fuel : Nat), ps.length + 1 ≤ fuel → ∀ (clk : Clock) (acc : List String),
      collectParts fuel m clk k acc = some (acc ++ ps, m, clk) := by
  induction h with
  | root =>
    intro fuel hf clk acc
    obtain ⟨f, rfl⟩ : ∃ f, fuel = f + 1 := ⟨fuel - 1, by omega⟩
    simp [collectParts]
  | @step k e ps hk he _ ih =>
    intro fuel hf clk acc
    obtain ⟨f, rfl⟩ : ∃ f, fuel = f + 1 := ⟨fuel - 1, by omega⟩
    simp only [List.length_cons] at hf
    simp only [collectParts, hk, if_false, subscript_present clk he]
    rw [ih f (by omega)]
    simp

theorem chain_root {m : Store} {ps : List String} (h : ParentChain m 0 ps) : ps = [] := by
  cases h with
  | root => rfl
  | step hk _ _ => exact absurd rfl hk

theorem chain_step {m : Store} {k : Int} {e : INode} {ps : List String} (hk : k ≠ 0)
    (he : Store.find m k = some e) (h : ParentChain m k ps) :
    ∃ ps', ps = e.name :: ps' ∧ ParentChain m e.parent ps' := by
  cases h with
  | root => exact absurd rfl hk
  | @step _ e' ps' _ he' hps =>
    rw [he] at he'
    simp only [Option.some.injEq] at he'
    subst he'
    exact ⟨ps', rfl, hps⟩

theorem chain_path {m : Store} {k : Int} {ps : List String} (h : ParentChain m k ps)
    (fuel : Nat) (hf : ps.length + 1 ≤ fuel) (clk : Clock) :
    getAbsolutePath fuel m clk k = some (joinParts ps.reverse 0 "/", m) := by
  by_cases hk : k = 0
  · subst hk
    rw [chain_root h]
    simp [getAbsolutePath, joinParts]
  · simp [getAbsolutePath, hk, chain_collect h fuel hf clk []]

theorem length_leBytes : ∀ (w x : Nat), (leBytes w x).length = w := by
  intro w
  induction w with
  | zero => intro x; rfl
  | succ w ih => intro x; simp [leBytes, ih]

theorem ofLeBytes_leBytes : ∀ (w x : Nat), x < 256 ^ w → ofLeBytes (leBytes w x) = x := by
  intro w
  induction w with
  | zero => intro x hx; simp at hx; subst hx; rfl
  | succ w ih =>
    intro x hx
    have h1 : x / 256 < 256 ^ w := by
      rw [Nat.div_lt_iff_lt_mul (by norm_num)]
      rw [pow_succ] at hx
      exact hx
    simp only [leBytes, ofLeBytes, ih _ h1]
    omega

theorem readBytes_append (a rest : List Nat) :
    readBytes a.length (a ++ rest) = some (a, rest) := by
  simp [readBytes]

theorem readSizeT_write (n : Nat) (rest : List Nat) (h : n < 18446744073709551616) :
    readSizeT (writeSizeT n ++ rest) = some (n, rest) := by
  have h1 := readBytes_append (leBytes 8 n) rest
  rw [length_leBytes] at h1
  simp only [readSizeT, writeSizeT, h1]
  rw [ofLeBytes_leBytes 8 n (by norm_num; exact h)]

theorem readInt_write (x : Int) (rest : List Nat) (h : IsInt32 x) :
    readInt (writeInt x ++ rest) = some (x, rest) := by
  have h1 := readBytes_append (leBytes 4 (x % 4294967296).toNat) rest
  rw [length_leBytes] at h1
  have h2 : ((x % 4294967296).toNat : Int) = x % 4294967296 :=
    Int.toNat_of_nonneg (Int.emod_nonneg _ (by norm_num))
  have h3 : (x % 4294967296).toNat < 256 ^ 4 := by
    have : x % 4294967296 < 4294967296 := Int.emod_lt_of_pos _ (by norm_num)
    norm_num
    omega
  simp only [readInt, writeInt, h1, ofLeBytes_leBytes 4 _ h3]
  obtain ⟨hlo, hhi⟩ := h
  split_ifs with hc
  · congr 2; omega
  · congr 2; omega

theorem readTimeT_write (x : Int) (rest : List Nat) (h : IsInt64 x) :
    readTimeT (writeTimeT x ++ rest) = some (x, rest) := by
  have h1 := readBytes_append (leBytes 8 (x % 18446744073709551616).toNat) rest
  rw [length_leBytes] at h1
  have h2 : ((x % 18446744073709551616).toNat : Int) = x % 18446744073709551616 :=
    Int.toNat_of_nonneg (Int.emod_nonneg _ (by norm_num))
  have h3 : (x % 18446744073709551616).toNat < 256 ^ 8 := by
    have : x % 18446744073709551616 < 18446744073709551616 :=
      Int.emod_lt_of_pos _ (by norm_num)
    norm_num
    omega
  simp only [readTimeT, writeTimeT, h1, ofLeBytes_leBytes 8 _ h3]
  obtain ⟨hlo, hhi⟩ := h
  split_ifs with hc
  · congr 2; omega
  · congr 2; omega

theorem readBool_write (b : Bool) (rest : List Nat) :
    readBool (writeBool b ++ rest) = some (b, rest) := by
  cases b <;> simp [readBool, writeBool, readBytes, ofLeBytes]

theorem readString_write (s : String) (rest : List Nat) (h : IsByteString s) :
    readString (writeString s ++ rest) = some (s, rest) := by
  obtain ⟨hb, hl⟩ := h
  have h1 := readBytes_append (s.data.map fun c => c.toNat % 256) rest
  rw [List.length_map] at h1
  have h2 : (s.data.map fun c => c.toNat % 256).map Char.ofNat = s.data := by
    rw [List.map_map]
    conv_rhs => rw [← List.map_id s.data]
    apply List.map_congr_left
    intro c hc
    simp only [Function.comp, id]
    rw [Nat.mod_eq_of_lt (hb c hc)]
    exact Char.ofNat_toNat c
  have h3 : s.data.length = s.length := rfl
  rw [h3] at h1
  simp only [readString, writeString, List.append_assoc, readSizeT_write _ _ hl, h1, h2]

theorem readChildren_write : ∀ (cs : List Int) (rest : List Nat), (∀ c ∈ cs, IsInt32 c) →
    readChildren cs.length ((cs.map writeInt).flatten ++ rest) = some (cs, rest) := by
  intro cs
  induction cs with
  | nil => intro rest _; rfl
  | cons c cs ih =>
    intro rest h
    have hc := h c (List.mem_cons_self _ _)
    have ht := ih rest fun d hd => h d (List.mem_cons_of_mem _ hd)
    simp only [List.map_cons, List.flatten_cons, List.length_cons, readChildren,
      List.append_assoc, readInt_write _ _ hc, ht]

theorem readNode_write (t : Int) (e : INode) (rest : List Nat) (h : Representable e) :
    readNode t (writeNode e ++ rest) = some ({ e with blocks := [] }, rest) := by
  obtain ⟨h1, h2, h3, h4, h5, h6, h7, h8, h9⟩ := h
  simp only [readNode, writeNode, List.append_assoc, readInt_write _ _ h1,
    readString_write _ _ h2, readBool_write, readInt_write _ _ h3, readTimeT_write _ _ h4,
    readTimeT_write _ _ h5, readString_write _ _ h6, readSizeT_write _ _ h7,
    readChildren_write _ _ h8, readInt_write _ _ h9]
  rfl

theorem find_none_of_lt (m : Store) (k : Int) (h : ∀ kv ∈ m, kv.1 < k) :
    Store.find m k = none := by
  induction m with
  | nil => rfl
  | cons kv t ih =>
    obtain ⟨a, w⟩ := kv
    have h1 : a < k := h (a, w) (List.mem_cons_self _ _)
    have h2 : ¬ k = a := by omega
    simp only [Store.find, h2, if_false]
    exact ih fun x hx => h x (List.mem_cons_of_mem _ hx)

theorem insert_append_max (m : Store) (k : Int) (v : INode) (h : ∀ kv ∈ m, kv.1 < k) :
    Store.insert m k v = m ++ [(k, v)] := by
  induction m with
  | nil => rfl
  | cons kv t ih =>
    obtain ⟨a, w⟩ := kv
    have h1 : a < k := h (a, w) (List.mem_cons_self _ _)
    have h2 : ¬ k < a := by omega
    have h3 : ¬ k = a := by omega
    simp only [Store.insert, h2, h3, if_false, List.cons_append]
    rw [ih fun x hx => h x (List.mem_cons_of_mem _ hx)]

theorem update_append_last (m : Store) (k : Int) (d : INode) (f : INode → INode)
    (h : ∀ kv ∈ m, kv.1 < k) :
    Store.update (m ++ [(k, d)]) k f = m ++ [(k, f d)] := by
  induction m with
  | nil => simp [Store.update]
  | cons kv t ih =>
    obtain ⟨a, w⟩ := kv
    have h1 : a < k := h (a, w) (List.mem_cons_self _ _)
    have h2 : ¬ a = k := by omega
    simp only [List.cons_append, Store.update, h2, if_false]
    exact congrArg _ (ih fun x hx => h x (List.mem_cons_of_mem _ hx))

theorem loadLoop_saved : ∀ (l m0 : Store) (next : Int) (clk : Clock) (rest : List Nat),
    (∀ kv ∈ l, kv.2.id = kv.1) → (∀ kv ∈ l, Representable kv.2) →
    List.Pairwise (fun a b => a < b) (Store.keys l) →
    (∀ a ∈ m0, ∀ b ∈ l, a.1 < b.1) →
    ∃ next', loadLoop l.length ((l.map fun kv => writeNode kv.2).flatten ++ rest) m0 next clk
      = some (m0 ++ l.map (fun kv => (kv.1, { kv.2 with blocks := [] })), next') := by
  intro l
  induction l with
  | nil => intro m0 next clk rest _ _ _ _; exact ⟨next, by simp [loadLoop]⟩
  | cons kv l ih =>
    intro m0 next clk rest hid hrep hsort hlt
    obtain ⟨a, w⟩ := kv
    have hida : w.id = a := hid (a, w) (List.mem_cons_self _ _)
    subst hida
    have hm0 : ∀ x ∈ m0, x.1 < w.id :=
      fun x hx => hlt x hx (w.id, w) (List.mem_cons_self _ _)
    simp only [Store.keys, List.map_cons, List.pairwise_cons] at hsort
    have hlt' : ∀ x ∈ m0 ++ [(w.id, ({ w with blocks := [] } : INode))], ∀ b ∈ l,
        x.1 < b.1 := by
      intro x hx b hb
      rcases List.mem_append.mp hx with hx | hx
      · exact hlt x hx b (List.mem_cons_of_mem _ hb)
      · simp only [List.mem_singleton] at hx
        subst hx
        exact hsort.1 b.1 (List.mem_map_of_mem _ hb)
    obtain ⟨next', hn⟩ := ih (m0 ++ [(w.id, { w with blocks := [] })])
      (if w.id ≥ next then wrapInt32 (w.id + 1) else next) clk.tick.tick rest
      (fun x hx => hid x (List.mem_cons_of_mem _ hx))
      (fun x hx => hrep x (List.mem_cons_of_mem _ hx)) hsort.2 hlt'
    refine ⟨next', ?_⟩
    simp only [List.map_cons, List.flatten_cons, List.length_cons, loadLoop, List.append_assoc,
      readNode_write _ _ _ (hrep (w.id, w) (List.mem_cons_self _ _)),
      subscript_absent clk.tick (find_none_of_lt m0 w.id hm0), insert_append_max m0 w.id _ hm0,
      update_append_last m0 w.id _ _ hm0]
    rw [hn]
    simp

theorem find_map_loaded (m : Store) (k : Int) :
    Store.find (m.map fun kv => (kv.1, { kv.2 with blocks := [] })) k =
      (Store.find m k).map fun e => { e with blocks := [] } := by
  induction m with
  | nil => rfl
  | cons kv t ih =>
    obtain ⟨a, w⟩ := kv
    by_cases h : k = a
    · simp [Store.find, h]
    · simp [Store.find, h, ih]

set_option maxRecDepth 100000 in
/-- C3 (counterexample): in `exMisfiled` the node stored under id 2 has the `id` field -1
(the node `operator[]` builds for a missing key).  Saving writes the field, loading files the
node under it: the reloaded store has the ids -1 and 0, not 0 and 2. -/
theorem save_load_moves_misfiled_node :
    Store.keys exMisfiled = [0, 2] ∧
    (loadFromDisk (FS.fresh 0) exClock (some (saveToDisk exMisfiled))).map
      (fun s => Store.keys s.inodes) = some [-1, 0] := by
  decide

/-- C3 (amended): for every store with ascending keys in which every node is stored under
its own id and holds values of its C++ field types, `loadFromDisk` applied to the bytes that
`saveToDisk` writes succeeds and yields a store with the same ids in which each id has the
same node (id, name, is_directory, size, creation time, modification time, permissions,
children in order, parent), the unsaved `blocks` vector being empty; the cursor is
untouched. -/
theorem save_load_round_trip (m : Store) (s : FS) (clk : Clock)
    (hwf : Store.WF m) (hid : KeyedById m) (hrep : ∀ kv ∈ m, Representable kv.2)
    (hlen : m.length < 18446744073709551616) :
    ∃ s', loadFromDisk s clk (some (saveToDisk m)) = some s' ∧
      s'.current_inode = s.current_inode ∧
      Store.keys s'.inodes = Store.keys m ∧
      ∀ k e, Store.find m k = some e →
        Store.find s'.inodes k = some { e with blocks := [] } := by
  obtain ⟨next', hn⟩ := loadLoop_saved m [] s.next_inode_id clk [] hid hrep hwf
    (fun a ha => by simp at ha)
  rw [List.append_nil, List.nil_append] at hn
  refine ⟨{ s with inodes := m.map (fun kv => (kv.1, { kv.2 with blocks := [] })),
                   next_inode_id := next' }, ?_, rfl, ?_, ?_⟩
  · simp only [loadFromDisk, saveToDisk, readSizeT_write _ _ hlen, hn]
  · simp [Store.keys, List.map_map, Function.comp]
  · intro k e he
    simp only [find_map_loaded, he, Option.map]

set_option maxRecDepth 100000 in
/-- Witness of C3 (amended): the store of the session `mkdir a`, `mkdir b`, reloaded into a
fresh session. -/
theorem save_load_round_trip_witness :
    ∃ s', loadFromDisk (FS.fresh 0) exClock (some (saveToDisk exAB.inodes)) = some s' ∧
      s'.current_inode = (FS.fresh 0).current_inode ∧
      Store.keys s'.inodes = Store.keys exAB.inodes ∧
      ∀ k e, Store.find exAB.inodes k = some e →
        Store.find s'.inodes k = some { e with blocks := [] } :=
  save_load_round_trip exAB.inodes (FS.fresh 0) exClock
    (by unfold Store.WF; decide)
    (by unfold KeyedById; decide)
    (by unfold Representable IsInt32 IsInt64 IsByteString; decide)
    (by decide)

/-! ## Error paths that leave the state as it was -/

/-- C12: when the cursor has a node, its children are all present and the first child `c`
bearing `name` is a Directory with at least one child, `rm name` (whatever the fuel: the
deletion loop is not entered) reports NotEmpty and returns the state as it was: store,
cursor and counter. -/
theorem rm_not_empty (s : FS) (clk : Clock) (name : String) (cur n : INode) (c : Int)
    (hp : ChildrenPresent s cur) (hf : FirstNamed s.inodes cur.children name c)
    (hn : Store.find s.inodes c = some n) (hd : n.is_directory = true)
    (hne : n.children ≠ []) :
    ∀ fuel, rm fuel s clk name = some (s, Msg.notEmpty) := by
  intro fuel
  obtain ⟨pre, post, _, _, hscan⟩ := scan_name_first clk hp.2 hf
  have hemp : n.children.isEmpty = false := by
    cases hc : n.children with
    | nil => exact absurd hc hne
    | cons a t => rfl
  simp [rm, subscript_present clk hp.1, hscan, subscript_present clk hn, hd, hemp]

/-- Witness of C12: `rm a` in the session `mkdir a`, `cd a`, `mkdir b`, `cd ..`, with no
fuel at all. -/
theorem rm_not_empty_witness :
    rm 0 exFull exClock "a" = some (exFull, Msg.notEmpty) :=
  rm_not_empty exFull exClock "a" exFullRoot exNestedA 1
    ⟨by decide, fun c hc => by
      have hc1 : c = 1 := by simpa [exFullRoot, exARoot] using hc
      subst hc1; exact ⟨_, rfl⟩⟩
    ⟨[], [], rfl, by simp, _, rfl, by decide⟩
    (by decide) (by decide) (by decide) 0

set_option maxRecDepth 100000 in
/-- C17 (counterexample): in the session that loaded a file holding no node, the cursor 0
has no node, so no id of a children list of the cursor is absent and no child bears `zz`;
yet `rm zz`, `mv zz m`, `chmod zz rwx` and `cd zz`, which report NotFound, each leave a store
that holds a node under 0, where the store held none. -/
theorem not_found_inserts_cursor_node :
    exLoadedEmpty.inodes = [] ∧ exLoadedEmpty.current_inode = 0 ∧
    (rm 0 exLoadedEmpty exClock "zz").map (fun r => (r.2, Store.keys r.1.inodes))
      = some (Msg.notFound, [0]) ∧
    ((mv exLoadedEmpty exClock "zz" "m").2,
      Store.keys (mv exLoadedEmpty exClock "zz" "m").1.inodes) = (Msg.notFound, [0]) ∧
    ((chmod exLoadedEmpty exClock "zz" "rwx").2,
      Store.keys (chmod exLoadedEmpty exClock "zz" "rwx").1.inodes) = (Msg.notFound, [0]) ∧
    ((cd exLoadedEmpty exClock "zz").2,
      Store.keys (cd exLoadedEmpty exClock "zz").1.inodes) = (Msg.notFound, [0]) := by
  decide

/-- C17 (amended): when the cursor has a node, its children are all present and none of them
bears the name `n`: `rm n` (whatever the fuel), `mv n m` for every `m`, `chmod n mode` for every
`mode`, and `cd n` for `n` other than the empty string, `/` and `..` each report NotFound and
return the state as it was: store, cursor and counter. -/
theorem not_found_no_effect (s : FS) (clk : Clock) (n : String) (cur : INode)
    (hp : ChildrenPresent s cur) (hn : ¬ SomeNamed s.inodes cur.children n) :
    (∀ fuel, rm fuel s clk n = some (s, Msg.notFound)) ∧
    (∀ m, mv s clk n m = (s, Msg.notFound)) ∧
    (∀ mode, chmod s clk n mode = (s, Msg.notFound)) ∧
    (n ≠ "" → n ≠ "/" → n ≠ ".." → cd s clk n = (s, Msg.notFound)) := by
  have hscan := scan_name_none clk hp.2 hn
  refine ⟨fun fuel => ?_, fun m => ?_, fun mode => ?_, fun h1 h2 h3 => ?_⟩
  · simp [rm, subscript_present clk hp.1, hscan]
  · simp [mv, subscript_present clk hp.1, hscan]
  · simp [chmod, subscript_present clk hp.1, hscan]
  · have hs : scan (fun e => e.name == n && e.is_directory) cur.children 0 s.inodes clk
        = (none, s.inodes, clk) := by
      apply scan_none
      intro c hc
      obtain ⟨e, he⟩ := hp.2 c hc
      refine ⟨e, he, ?_⟩
      have : e.name ≠ n := fun h => hn ⟨c, hc, e, he, h⟩
      simp [this]
    simp [cd, h1, h2, h3, subscript_present clk hp.1, hs]

/-- Witness of C17 (amended): the name `zz` after `mkdir a` in a fresh session. -/
theorem not_found_no_effect_witness :
    (∀ fuel, rm fuel exA exClock "zz" = some (exA, Msg.notFound)) ∧
    (∀ m, mv exA exClock "zz" m = (exA, Msg.notFound)) ∧
    (∀ mode, chmod exA exClock "zz" mode = (exA, Msg.notFound)) ∧
    ("zz" ≠ "" → "zz" ≠ "/" → "zz" ≠ ".." → cd exA exClock "zz" = (exA, Msg.notFound)) :=
  not_found_no_effect exA exClock "zz" exARoot
    ⟨by decide, fun c hc => by
      have hc1 : c = 1 := by simpa [exARoot] using hc
      subst hc1; exact ⟨_, rfl⟩⟩
    (by
      rintro ⟨d, hd, n, hn, hname⟩
      have e1 : d = 1 := by simpa [exARoot] using hd
      subst e1
      have h : Store.find exA.inodes 1 = some { INode.new 100 with
          id := 1, name := "a", is_directory := true, parent := 0 } := by decide
      rw [h] at hn
      simp only [Option.some.injEq] at hn
      rw [← hn] at hname
      exact absurd hname (by decide))

/-! ## cd into a parent or a child -/

theorem firstDirNamed_of_someDirNamed {m : Store} {cs : List Int} {name : String}
    (hn : SomeDirNamed m cs name) : ∃ c, FirstDirNamed m cs name c := by
  classical
  rcases first_split
    (fun c => ∃ n, Store.find m c = some n ∧ n.name = name ∧ n.is_directory = true) cs
    with h | h
  · obtain ⟨c, hc, n, h1, h2⟩ := hn
    exact absurd ⟨n, h1, h2⟩ (h c hc)
  · obtain ⟨pre, c, post, h1, h2, h3⟩ := h
    exact ⟨c, pre, post, h1, fun d hd n hdn hnm => h2 d hd ⟨n, hdn, hnm⟩, h3⟩

set_option maxRecDepth 100000 in
/-- C18 (counterexample): (1) in `exNoCursor` the cursor 3 has no node, so no id of a children
list of the cursor is absent; `cd ..` stores a node under 3 and sets the cursor to -1, the
parent field of that node.  (2) In the session that loaded a file holding no node, `cd zz`
stores a node under the cursor 0, where the store held none. -/
theorem cd_inserts_cursor_node :
    (Store.find exNoCursor.inodes exNoCursor.current_inode = none ∧
     Store.keys exNoCursor.inodes = [0] ∧
     Store.keys (cd exNoCursor exClock "..").1.inodes = [0, 3] ∧
     (cd exNoCursor exClock "..").1.current_inode = -1) ∧
    (exLoadedEmpty.inodes = [] ∧ exLoadedEmpty.current_inode = 0 ∧
     Store.keys (cd exLoadedEmpty exClock "zz").1.inodes = [0] ∧
     (cd exLoadedEmpty exClock "zz").1.current_inode = 0) := by
  decide

/-- C18 (amended): when the cursor has a node and its children are all present: `cd ..` sets
the cursor to the parent recorded in the cursor node when the cursor is not the root, and leaves
it at 0 when it is; `cd p` for `p` other than the empty string, `/` and `..` sets the cursor
to the first id of the children list whose node is a Directory named `p` (a File named `p` is
passed over), and reports NotFound with the cursor as it was when there is none; in every
case the store and the counter are as before. -/
theorem cd_spec (s : FS) (clk : Clock) (cur : INode) (hp : ChildrenPresent s cur) :
    (s.current_inode ≠ 0 →
      cd s clk ".." = ({ s with current_inode := cur.parent }, Msg.silent)) ∧
    (s.current_inode = 0 → cd s clk ".." = (s, Msg.silent)) ∧
    (∀ p c, p ≠ "" → p ≠ "/" → p ≠ ".." → FirstDirNamed s.inodes cur.children p c →
      cd s clk p = ({ s with current_inode := c }, Msg.silent)) ∧
    (∀ p, p ≠ "" → p ≠ "/" → p ≠ ".." → ¬ SomeDirNamed s.inodes cur.children p →
      cd s clk p = (s, Msg.notFound)) := by
  have e1 : ¬ (".." = "") := by decide
  have e2 : ¬ (".." = "/") := by decide
  refine ⟨fun h => ?_, fun h => ?_, fun p c h1 h2 h3 hf => ?_, fun p h1 h2 h3 hno => ?_⟩
  · simp [cd, e1, e2, h, subscript_present clk hp.1]
  · simp [cd, e1, e2, h]
  · obtain ⟨pre, post, hcs, hpre, n, hn, hname, hdir⟩ := hf
    have hs := scan_some (fun e => e.name == p && e.is_directory) s.inodes clk c n post hn
      (by simp [hname, hdir]) pre 0
      (by
        intro d hd
        obtain ⟨e, he⟩ := hp.2 d (by rw [hcs]; exact List.mem_append_left _ hd)
        refine ⟨e, he, ?_⟩
        have := hpre d hd e he
        show (e.name == p && e.is_directory) = false
        cases hb : (e.name == p && e.is_directory) with
        | false => rfl
        | true =>
          simp only [Bool.and_eq_true, beq_iff_eq] at hb
          exact absurd hb this)
    rw [← hcs] at hs
    simp [cd, h1, h2, h3, subscript_present clk hp.1, hs]
  · have hs : scan (fun e => e.name == p && e.is_directory) cur.children 0 s.inodes clk
        = (none, s.inodes, clk) := by
      apply scan_none
      intro c hc
      obtain ⟨e, he⟩ := hp.2 c hc
      refine ⟨e, he, ?_⟩
      show (e.name == p && e.is_directory) = false
      cases hb : (e.name == p && e.is_directory) with
      | false => rfl
      | true =>
        simp only [Bool.and_eq_true, beq_iff_eq] at hb
        exact absurd ⟨c, hc, e, he, hb.1, hb.2⟩ hno
    simp [cd, h1, h2, h3, subscript_present clk hp.1, hs]

/-- Witness of C18 (amended): the cursor in `a`, which holds the directory `b`, in the
session `mkdir a`, `cd a`, `mkdir b`. -/
theorem cd_spec_witness :
    (exNested.current_inode ≠ 0 →
      cd exNested exClock ".." = ({ exNested with current_inode := exNestedA.parent },
        Msg.silent)) ∧
    (exNested.current_inode = 0 → cd exNested exClock ".." = (exNested, Msg.silent)) ∧
    (∀ p c, p ≠ "" → p ≠ "/" → p ≠ ".." →
      FirstDirNamed exNested.inodes exNestedA.children p c →
      cd exNested exClock p = ({ exNested with current_inode := c }, Msg.silent)) ∧
    (∀ p, p ≠ "" → p ≠ "/" → p ≠ ".." →
      ¬ SomeDirNamed exNested.inodes exNestedA.children p →
      cd exNested exClock p = (exNested, Msg.notFound)) :=
  cd_spec exNested exClock exNestedA
    ⟨by decide, fun c hc => by
      have hc1 : c = 2 := by simpa [exNestedA] using hc
      subst hc1; exact ⟨_, rfl⟩⟩

/-! ## Reachable states after `rm` -/

theorem reach_exAB : Reach anyOp (FS.fresh 7) exAB :=
  Reach.step (Op.mkdir "b") 0 exClock
    (Reach.step (Op.mkdir "a") 0 exClock Reach.start trivial rfl) trivial rfl

theorem reach_exBug : Reach anyOp (FS.fresh 7) exBug :=
  Reach.step (Op.rm "a") 1 exClock reach_exAB trivial (by decide)

/-- C13 (behaviour of the code at the failing input): the state after `mkdir a`, `mkdir b`,
`rm a` is reachable from the fresh store; its root lists the child id 2, which is absent from
the store, and the entry 1 (`a`) names the root as its parent while the root's children list
does not hold 1. -/
theorem rm_breaks_tree_invariant :
    Reach anyOp (FS.fresh 7) exBug ∧
    (Store.find exBug.inodes 0).map INode.children = some [2] ∧
    Store.find exBug.inodes 2 = none ∧
    (Store.find exBug.inodes 1).map (fun n => (n.name, n.parent)) = some ("a", 0) :=
  ⟨reach_exBug, by decide, by decide, by decide⟩

theorem collectParts_stuck : ∀ (fuel : Nat) (m : Store) (clk : Clock) (acc : List String)
    (e : INode), Store.find m (-1) = some e → e.parent = -1 →
    collectParts fuel m clk (-1) acc = none := by
  intro fuel
  induction fuel with
  | zero => intro m clk acc e _ _; rfl
  | succ f ih =>
    intro m clk acc e he hpar
    have h0 : ¬ ((-1 : Int) = 0) := by decide
    simp only [collectParts, h0, if_false, subscript_present clk he, hpar]
    exact ih m clk _ e he hpar

/-- C16 (behaviour of the code at the failing input): the state after `mkdir a`, `mkdir b`,
`rm a`, `mkdir c` is reachable from the fresh store; the store holds under id 2 the node that
`operator[]` built for the dangling child id, with parent -1; the parent walk of
`getAbsolutePath(2)` never reaches 0: it fails for every fuel. -/
theorem getAbsolutePath_diverges_after_rm :
    Reach anyOp (FS.fresh 7) exJunk ∧
    (Store.find exJunk.inodes 2).map (fun n => (n.name, n.parent)) = some ("", -1) ∧
    ∀ fuel (clk : Clock), getAbsolutePath fuel exJunk.inodes clk 2 = none := by
  refine ⟨Reach.step (Op.mkdir "c") 0 exClock reach_exBug trivial rfl, by decide, ?_⟩
  intro fuel clk
  have h2 : Store.find exJunk.inodes 2 = some (INode.new 100) := by decide
  have hm : Store.find exJunk.inodes (-1) = none := by decide
  have h20 : ¬ ((2 : Int) = 0) := by decide
  have h10 : ¬ ((-1 : Int) = 0) := by decide
  simp only [getAbsolutePath, h20, if_false]
  cases fuel with
  | zero => rfl
  | succ f =>
    simp only [collectParts, h20, if_false, subscript_present clk h2]
    cases f with
    | zero => rfl
    | succ g =>
      have hpar : (INode.new 100).parent = -1 := rfl
      simp only [hpar, collectParts, h10, if_false, subscript_absent clk hm]
      have hpar2 : (INode.new clk.now).parent = -1 := rfl
      have hf : Store.find (Store.insert exJunk.inodes (-1) (INode.new clk.now)) (-1)
          = some (INode.new clk.now) := by
        rw [find_insert]; simp
      rw [hpar2, collectParts_stuck g _ _ _ (INode.new clk.now) hf rfl]

/-! ## Injectivity of the path resolver -/

theorem joinParts_data (qs : List String) (i : Nat) (path : String) (hi : i ≠ 0) :
    (joinParts qs i path).data = path.data ++ slashed qs := by
  induction qs generalizing i path with
  | nil => simp [joinParts, slashed]
  | cons q qs ih =>
    simp only [joinParts, hi, if_true, ne_eq, not_false_eq_true]
    rw [ih (i + 1) _ (by omega)]
    simp [slashed, String.data_append]

theorem joinParts_root_data (qs : List String) (h : qs ≠ []) :
    (joinParts qs 0 "/").data = slashed qs := by
  cases qs with
  | nil => exact absurd rfl h
  | cons q qs =>
    simp only [joinParts, ne_eq, not_true_eq_false, if_false]
    rw [joinParts_data qs 1 _ (by omega)]
    simp [slashed, String.data_append]

theorem slashed_head (qs : List String) : slashed qs = [] ∨ ∃ t, slashed qs = '/' :: t := by
  cases qs with
  | nil => left; rfl
  | cons q qs => right; exact ⟨q.data ++ slashed qs, by simp [slashed]⟩

theorem append_split_slash : ∀ (a b x y : List Char), '/' ∉ a → '/' ∉ b →
    (x = [] ∨ ∃ t, x = '/' :: t) → (y = [] ∨ ∃ t, y = '/' :: t) →
    a ++ x = b ++ y → a = b ∧ x = y := by
  intro a
  induction a with
  | nil =>
    intro b x y _ hb hx _ h
    cases b with
    | nil => exact ⟨rfl, by simpa using h⟩
    | cons c b =>
      exfalso
      simp only [List.nil_append, List.cons_append] at h
      rcases hx with hx | ⟨t, hx⟩
      · rw [hx] at h; simp at h
      · rw [hx] at h
        simp only [List.cons.injEq] at h
        exact hb (by rw [← h.1]; simp)
  | cons c a ih =>
    intro b x y ha hb hx hy h
    cases b with
    | nil =>
      exfalso
      simp only [List.nil_append, List.cons_append] at h
      rcases hy with hy | ⟨t, hy⟩
      · rw [hy] at h; simp at h
      · rw [hy] at h
        simp only [List.cons.injEq] at h
        exact ha (by rw [h.1]; simp)
    | cons c' b =>
      simp only [List.cons_append, List.cons.injEq] at h
      have ha' : '/' ∉ a := fun hm => ha (List.mem_cons_of_mem _ hm)
      have hb' : '/' ∉ b := fun hm => hb (List.mem_cons_of_mem _ hm)
      obtain ⟨e1, e2⟩ := ih b x y ha' hb' hx hy h.2
      exact ⟨by rw [h.1, e1], e2⟩

theorem string_eq_of_data {a b : String} (h : a.data = b.data) : a = b := by
  cases a; cases b; simp_all

theorem slashed_injective : ∀ (qs rs : List String), (∀ q ∈ qs, '/' ∉ q.data) →
    (∀ r ∈ rs, '/' ∉ r.data) → slashed qs = slashed rs → qs = rs := by
  intro qs
  induction qs with
  | nil =>
    intro rs _ _ h
    cases rs with
    | nil => rfl
    | cons r rs => simp [slashed] at h
  | cons q qs ih =>
    intro rs hq hr h
    cases rs with
    | nil => simp [slashed] at h
    | cons r rs =>
      have h' : q.data ++ slashed qs = r.data ++ slashed rs := by
        simpa [slashed] using h
      obtain ⟨e1, e2⟩ := append_split_slash _ _ _ _ (hq q (List.mem_cons_self _ _))
        (hr r (List.mem_cons_self _ _)) (slashed_head qs) (slashed_head rs) h'
      rw [string_eq_of_data e1, ih rs (fun x hx => hq x (List.mem_cons_of_mem _ hx))
        (fun x hx => hr x (List.mem_cons_of_mem _ hx)) e2]

theorem chain_names {m : Store} {k : Int} {ps : List String} (P : String → Prop)
    (h : ParentChain m k ps) (hP : ∀ k e, Store.find m k = some e → k ≠ 0 → P e.name) :
    ∀ n ∈ ps, P n := by
  induction h with
  | root => intro n hn; simp at hn
  | @step k e ps hk he _ ih =>
    intro n hn
    rcases List.mem_cons.mp hn with rfl | hn
    · exact hP k e he hk
    · exact ih n hn

theorem reachable_inv {m : Store} {k : Int} (h : Reachable m k) (hk : k ≠ 0) :
    ∃ e pe, Store.find m k = some e ∧ Store.find m e.parent = some pe ∧
      k ∈ pe.children ∧ Reachable m e.parent := by
  cases h with
  | root => exact absurd rfl hk
  | @child p _ pe ce hp hpe hc hce hpar =>
    exact ⟨ce, pe, hce, by rw [hpar]; exact hpe, hc, by rw [hpar]; exact hp⟩

theorem chain_determines_id {m : Store}
    (hu : ∀ k e, Store.find m k = some e → UniqueNames m e.children) :
    ∀ (ps : List String) (k1 k2 : Int), Reachable m k1 → Reachable m k2 →
      ParentChain m k1 ps → ParentChain m k2 ps → k1 = k2 := by
  intro ps
  induction ps with
  | nil =>
    intro k1 k2 _ _ c1 c2
    cases c1 with
    | root =>
      cases c2 with
      | root => rfl
  | cons n ps ih =>
    intro k1 k2 r1 r2 c1 c2
    have hk1 : k1 ≠ 0 := by
      intro h; subst h; exact absurd (chain_root c1) (by simp)
    have hk2 : k2 ≠ 0 := by
      intro h; subst h; exact absurd (chain_root c2) (by simp)
    obtain ⟨e1, pe1, he1, hpe1, hc1, rp1⟩ := reachable_inv r1 hk1
    obtain ⟨e2, pe2, he2, hpe2, hc2, rp2⟩ := reachable_inv r2 hk2
    obtain ⟨ps1, hps1, cp1⟩ := chain_step hk1 he1 c1
    obtain ⟨ps2, hps2, cp2⟩ := chain_step hk2 he2 c2
    simp only [List.cons.injEq] at hps1 hps2
    obtain ⟨hn1, rfl⟩ := hps1
    obtain ⟨hn2, rfl⟩ := hps2
    have hpar : e1.parent = e2.parent := ih _ _ rp1 rp2 cp1 cp2
    rw [← hpar, hpe1] at hpe2
    simp only [Option.some.injEq] at hpe2
    subst hpe2
    exact hu e1.parent pe1 hpe1 k1 hc1 k2 hc2 e1 e2 he1 he2 (by rw [← hn1, ← hn2])

/-- C20: in a store where no two children of a node bear the same name and the name of
every entry other than the root is non-empty and holds no `/`, two distinct ids that are
reachable from the root through children lists with consistent parent links have distinct
absolute paths: both parent walks end (every fuel from some bound on gives the results, the
store unchanged) and the two paths differ. -/
theorem getAbsolutePath_injective (m : Store) (k1 k2 : Int)
    (hu : ∀ k e, Store.find m k = some e → UniqueNames m e.children)
    (hnames : ∀ k e, Store.find m k = some e → k ≠ 0 → e.name ≠ "" ∧ '/' ∉ e.name.data)
    (h1 : Reachable m k1) (h2 : Reachable m k2) (hne : k1 ≠ k2) :
    ∃ n, ∀ fuel, n ≤ fuel → ∀ clk : Clock, ∃ p1 p2,
      getAbsolutePath fuel m clk k1 = some (p1, m) ∧
      getAbsolutePath fuel m clk k2 = some (p2, m) ∧ p1 ≠ p2 := by
  obtain ⟨ps1, c1⟩ := reachable_chain h1
  obtain ⟨ps2, c2⟩ := reachable_chain h2
  refine ⟨ps1.length + 1 + (ps2.length + 1), fun fuel hf clk => ?_⟩
  refine ⟨_, _, chain_path c1 fuel (by omega) clk, chain_path c2 fuel (by omega) clk, ?_⟩
  intro heq
  have hd := congrArg String.data heq
  have hs1 : ∀ n ∈ ps1.reverse, '/' ∉ n.data := fun n hn =>
    chain_names (fun x => '/' ∉ x.data) c1 (fun k e he hk => (hnames k e he hk).2) n
      (List.mem_reverse.mp hn)
  have hs2 : ∀ n ∈ ps2.reverse, '/' ∉ n.data := fun n hn =>
    chain_names (fun x => '/' ∉ x.data) c2 (fun k e he hk => (hnames k e he hk).2) n
      (List.mem_reverse.mp hn)
  have hnonempty : ∀ (ps : List String) (k : Int), ParentChain m k ps → ps ≠ [] →
      (joinParts ps.reverse 0 "/").data ≠ ['/'] := by
    intro ps k c hps hj
    have hrev : ps.reverse ≠ [] := by simpa using hps
    rw [joinParts_root_data _ hrev] at hj
    cases hr : ps.reverse with
    | nil => exact hrev hr
    | cons q qs =>
      rw [hr] at hj
      have hq : q ∈ ps := List.mem_reverse.mp (by rw [hr]; simp)
      have hqne : q ≠ "" :=
        chain_names (fun x => x ≠ "") c (fun k e he hk => (hnames k e he hk).1) q hq
      simp only [slashed, List.map_cons, List.flatten_cons, List.cons_append,
        List.cons.injEq, true_and, List.append_eq_nil] at hj
      exact hqne (string_eq_of_data hj.1)
  by_cases e1 : ps1 = []
  · by_cases e2 : ps2 = []
    · subst e1; subst e2
      exact hne (chain_determines_id hu [] k1 k2 h1 h2 c1 c2)
    · subst e1
      exact hnonempty ps2 k2 c2 e2 (by rw [← hd]; rfl)
  · by_cases e2 : ps2 = []
    · subst e2
      exact hnonempty ps1 k1 c1 e1 (by rw [hd]; rfl)
    · have r1 : ps1.reverse ≠ [] := by simpa using e1
      have r2 : ps2.reverse ≠ [] := by simpa using e2
      rw [joinParts_root_data _ r1, joinParts_root_data _ r2] at hd
      have hrev := slashed_injective _ _ hs1 hs2 hd
      have hps : ps1 = ps2 := List.reverse_injective hrev
      subst hps
      exact hne (chain_determines_id hu ps1 k1 k2 h1 h2 c1 c2)

theorem uniqueNames_short (m : Store) (cs : List Int) (h : cs.length ≤ 1) :
    UniqueNames m cs := by
  intro d1 h1 d2 h2 _ _ _ _ _
  match cs, h, h1, h2 with
  | [x], _, h1, h2 =>
    rw [List.mem_singleton] at h1 h2
    rw [h1, h2]

theorem exNested_nodes (k : Int) (e : INode) (h : Store.find exNested.inodes k = some e) :
    (k = 0 ∧ e = exARoot) ∨ (k = 1 ∧ e = exNestedA) ∨ (k = 2 ∧ e = exNestedB) := by
  have hs : exNested.inodes = [(0, exARoot), (1, exNestedA), (2, exNestedB)] := by decide
  rw [hs] at h
  simp only [Store.find] at h
  split_ifs at h with h0 h1 h2
  · exact Or.inl ⟨h0, (Option.some.inj h).symm⟩
  · exact Or.inr (Or.inl ⟨h1, (Option.some.inj h).symm⟩)
  · exact Or.inr (Or.inr ⟨h2, (Option.some.inj h).symm⟩)

/-- Witness of C20: the directories `a` (id 1) and `b` (id 2, inside `a`) after `mkdir a`,
`cd a`, `mkdir b`. -/
theorem getAbsolutePath_injective_witness :
    ∃ n, ∀ fuel, n ≤ fuel → ∀ clk : Clock, ∃ p1 p2,
      getAbsolutePath fuel exNested.inodes clk 1 = some (p1, exNested.inodes) ∧
      getAbsolutePath fuel exNested.inodes clk 2 = some (p2, exNested.inodes) ∧ p1 ≠ p2 :=
  getAbsolutePath_injective exNested.inodes 1 2
    (fun k e h => by
      rcases exNested_nodes k e h with ⟨_, rfl⟩ | ⟨_, rfl⟩ | ⟨_, rfl⟩ <;>
        exact uniqueNames_short _ _ (by decide))
    (fun k e h hk => by
      rcases exNested_nodes k e h with ⟨h0, _⟩ | ⟨_, rfl⟩ | ⟨_, rfl⟩
      · exact absurd h0 hk
      · exact ⟨by decide, by decide⟩
      · exact ⟨by decide, by decide⟩)
    (@Reachable.child exNested.inodes 0 1 exARoot exNestedA
      Reachable.root (by decide) (by decide) (by decide) (by decide))
    (@Reachable.child exNested.inodes 1 2 exNestedA exNestedB
      (@Reachable.child exNested.inodes 0 1 exARoot exNestedA
        Reachable.root (by decide) (by decide) (by decide) (by decide))
      (by decide) (by decide) (by decide) (by decide))
    (by decide)

/-! ## find -/

theorem getAbsolutePath_eq_clk (fuel : Nat) (m : Store) (clk : Clock) (k : Int) :
    getAbsolutePath fuel m clk k =
      (getAbsolutePathClk fuel m clk k).map fun r => (r.1, r.2.1) := by
  unfold getAbsolutePath getAbsolutePathClk
  by_cases h : k = 0
  · simp [h]
  · simp only [h, if_false]
    cases collectParts fuel m clk k [] with
    | none => rfl
    | some r => rfl

theorem mem_of_find : ∀ (m : Store) (k : Int) (e : INode),
    Store.find m k = some e → (k, e) ∈ m := by
  intro m
  induction m with
  | nil => intro k e h; simp [Store.find] at h
  | cons kv t ih =>
    intro k e h
    obtain ⟨a, w⟩ := kv
    by_cases hk : k = a
    · subst hk
      simp only [Store.find, if_true, Option.some.injEq] at h
      subst h
      exact List.mem_cons_self _ _
    · simp only [Store.find, hk, if_false] at h
      exact List.mem_cons_of_mem _ (ih k e h)

theorem mem_insert : ∀ (m : Store) (k : Int) (v : INode) (kv : Int × INode),
    kv ∈ Store.insert m k v → kv = (k, v) ∨ kv ∈ m := by
  intro m
  induction m with
  | nil => intro k v kv h; simp [Store.insert] at h; exact Or.inl h
  | cons hd t ih =>
    intro k v kv h
    obtain ⟨a, w⟩ := hd
    by_cases h1 : k < a
    · simp only [Store.insert, h1, if_true, List.mem_cons] at h
      rcases h with h | h | h
      · exact Or.inl h
      · exact Or.inr (by rw [h]; exact List.mem_cons_self _ _)
      · exact Or.inr (List.mem_cons_of_mem _ h)
    · by_cases h2 : k = a
      · subst h2
        simp only [Store.insert, h1, if_true, if_false, List.mem_cons] at h
        rcases h with h | h
        · exact Or.inl h
        · exact Or.inr (List.mem_cons_of_mem _ h)
      · simp only [Store.insert, h1, h2, if_false, List.mem_cons] at h
        rcases h with h | h
        · exact Or.inr (by rw [h]; exact List.mem_cons_self _ _)
        · rcases ih k v kv h with h | h
          · exact Or.inl h
          · exact Or.inr (List.mem_cons_of_mem _ h)

theorem mem_update : ∀ (m : Store) (k : Int) (f : INode → INode) (kv : Int × INode),
    kv ∈ Store.update m k f →
    ∃ e, (kv.1, e) ∈ m ∧ ((kv.1 ≠ k ∧ kv.2 = e) ∨ (kv.1 = k ∧ kv.2 = f e)) := by
  intro m
  induction m with
  | nil => intro k f kv h; simp [Store.update] at h
  | cons hd t ih =>
    intro k f kv h
    obtain ⟨a, w⟩ := hd
    by_cases ha : a = k
    · simp only [Store.update, ha, if_true, List.mem_cons] at h
      rcases h with h | h
      · subst h
        exact ⟨w, by simp [ha], Or.inr ⟨rfl, rfl⟩⟩
      · obtain ⟨e, h1, h2⟩ := ih k f kv h
        exact ⟨e, List.mem_cons_of_mem _ h1, h2⟩
    · simp only [Store.update, ha, if_false, List.mem_cons] at h
      rcases h with h | h
      · subst h
        exact ⟨w, List.mem_cons_self _ _, Or.inl ⟨ha, rfl⟩⟩
      · obtain ⟨e, h1, h2⟩ := ih k f kv h
        exact ⟨e, List.mem_cons_of_mem _ h1, h2⟩

theorem mem_erase : ∀ (m : Store) (k : Int) (kv : Int × INode),
    kv ∈ Store.erase m k → kv ∈ m := by
  intro m
  induction m with
  | nil => intro k kv h; simp [Store.erase] at h
  | cons hd t ih =>
    intro k kv h
    obtain ⟨a, w⟩ := hd
    by_cases hk : k = a
    · simp only [Store.erase, hk, if_true] at h
      exact List.mem_cons_of_mem _ h
    · simp only [Store.erase, hk, if_false, List.mem_cons] at h
      rcases h with h | h
      · rw [h]; exact List.mem_cons_self _ _
      · exact List.mem_cons_of_mem _ (ih k kv h)

/-! ## The counter stays above the ids -/

theorem nodeBelow_new (c t : Int) (hc : 0 ≤ c) : NodeBelow c (INode.new t) := by
  constructor
  · intro x hx; simp [INode.new] at hx
  · show (-1 : Int) < c; omega

theorem below_mono {c c' : Int} {m : Store} (h : StoreBelow c m) (hc : c ≤ c') :
    StoreBelow c' m := by
  intro kv hkv
  obtain ⟨h1, h2, h3⟩ := h kv hkv
  exact ⟨by omega, fun x hx => by have := h2 x hx; omega, by omega⟩

theorem below_insert {c : Int} {m : Store} (k : Int) (v : INode) (h : StoreBelow c m)
    (hk : k < c) (hv : NodeBelow c v) : StoreBelow c (Store.insert m k v) := by
  intro kv hkv
  rcases mem_insert m k v kv hkv with rfl | h1
  · exact ⟨hk, hv⟩
  · exact h kv h1

theorem below_update {c : Int} {m : Store} (k : Int) (f : INode → INode)
    (h : StoreBelow c m) (hf : ∀ e, NodeBelow c e → NodeBelow c (f e)) :
    StoreBelow c (Store.update m k f) := by
  intro kv hkv
  obtain ⟨e, h1, h2⟩ := mem_update m k f kv hkv
  obtain ⟨h3, h4⟩ := h (kv.1, e) h1
  rcases h2 with ⟨_, h2⟩ | ⟨_, h2⟩
  · rw [h2]; exact ⟨h3, h4⟩
  · rw [h2]; exact ⟨h3, hf e h4⟩

theorem below_erase {c : Int} {m : Store} (k : Int) (h : StoreBelow c m) :
    StoreBelow c (Store.erase m k) :=
  fun kv hkv => h kv (mem_erase m k kv hkv)

theorem below_subscript {c : Int} {m m1 : Store} {clk clk1 : Clock} {k : Int} {node : INode}
    (h : StoreBelow c m) (hk : k < c) (hc : 0 ≤ c)
    (hs : subscript m clk k = (node, m1, clk1)) :
    StoreBelow c m1 ∧ NodeBelow c node ∧ Store.find m1 k = some node := by
  unfold subscript at hs
  cases hf : Store.find m k with
  | none =>
    simp only [hf, Prod.mk.injEq] at hs
    obtain ⟨rfl, rfl, _⟩ := hs
    exact ⟨below_insert k _ h hk (nodeBelow_new c _ hc), nodeBelow_new c _ hc,
      by rw [find_insert]; simp⟩
  | some v =>
    simp only [hf, Prod.mk.injEq] at hs
    obtain ⟨rfl, rfl, _⟩ := hs
    exact ⟨h, (h (k, v) (mem_of_find m k v hf)).2, hf⟩

theorem below_scan (p : INode → Bool) {c : Int} (hc : 0 ≤ c) :
    ∀ (cs : List Int) (i : Nat) (m m1 : Store) (clk clk1 : Clock) (r : Option (Nat × Int)),
      StoreBelow c m → (∀ x ∈ cs, x < c) → scan p cs i m clk = (r, m1, clk1) →
      StoreBelow c m1 ∧ ∀ j x, r = some (j, x) → x ∈ cs ∧ ∃ e, Store.find m1 x = some e := by
  intro cs
  induction cs with
  | nil =>
    intro i m m1 clk clk1 r h _ hs
    simp only [scan, Prod.mk.injEq] at hs
    obtain ⟨rfl, rfl, _⟩ := hs
    exact ⟨h, fun j x hx => by simp at hx⟩
  | cons a cs ih =>
    intro i m m1 clk clk1 r h hcs hs
    rcases hsub : subscript m clk a with ⟨node, m2, clk2⟩
    obtain ⟨h2, _, hfa⟩ := below_subscript h (hcs a (List.mem_cons_self _ _)) hc hsub
    simp only [scan, hsub] at hs
    by_cases hp : p node = true
    · simp only [hp, if_true, Prod.mk.injEq] at hs
      obtain ⟨rfl, rfl, _⟩ := hs
      refine ⟨h2, fun j x hx => ?_⟩
      simp only [Option.some.injEq, Prod.mk.injEq] at hx
      obtain ⟨_, rfl⟩ := hx
      exact ⟨List.mem_cons_self _ _, node, hfa⟩
    · simp only [hp, if_false] at hs
      obtain ⟨h3, h4⟩ := ih (i + 1) m2 m1 clk2 clk1 r h2
        (fun x hx => hcs x (List.mem_cons_of_mem _ hx)) hs
      exact ⟨h3, fun j x hx => ⟨List.mem_cons_of_mem _ (h4 j x hx).1, (h4 j x hx).2⟩⟩

theorem below_uMT {c : Int} {m : Store} (clk : Clock) {k : Int} (h : StoreBelow c m)
    (hk : k < c) (hc : 0 ≤ c) : StoreBelow c (updateModificationTime m clk k).1 := by
  rcases hsub : subscript m clk k with ⟨node, m1, clk1⟩
  obtain ⟨h1, _, _⟩ := below_subscript h hk hc hsub
  simp only [updateModificationTime, hsub]
  exact below_update k _ h1 fun e he => he

theorem below_rmLoop {c : Int} (hc : 0 ≤ c) :
    ∀ (fuel : Nat) (st : List Int) (m : Store) (clk : Clock) (r : Store × Clock),
      StoreBelow c m → (∀ x ∈ st, x < c) → rmLoop fuel st m clk = some r →
      StoreBelow c r.1 := by
  intro fuel
  induction fuel with
  | zero =>
    intro st m clk r h _ hr
    cases st with
    | nil =>
      simp only [rmLoop, Option.some.injEq] at hr
      rw [← hr]; exact h
    | cons a st => simp [rmLoop] at hr
  | succ f ih =>
    intro st m clk r h hst hr
    cases st with
    | nil =>
      simp only [rmLoop, Option.some.injEq] at hr
      rw [← hr]; exact h
    | cons a st =>
      rcases hsub : subscript m clk a with ⟨node, m1, clk1⟩
      obtain ⟨h1, h2, _⟩ := below_subscript h (hst a (List.mem_cons_self _ _)) hc hsub
      simp only [rmLoop, hsub] at hr
      refine ih _ _ _ r (below_erase a h1) ?_ hr
      intro x hx
      split at hx
      · rcases List.mem_append.mp hx with hx | hx
        · exact h2.1 x (List.mem_reverse.mp hx)
        · exact hst x (List.mem_cons_of_mem _ hx)
      · exact hst x (List.mem_cons_of_mem _ hx)

theorem wrapInt32_succ {c : Int} (h1 : 1 ≤ c) (h2 : c < 2147483647) :
    wrapInt32 (c + 1) = c + 1 := by
  unfold wrapInt32; omega

theorem bounded_mkdir (s : FS) (clk : Clock) (name : String) (h : Bounded s)
    (hroom : s.next_inode_id < 2147483647) :
    Bounded (mkdir s clk name).1 ∧ s.next_inode_id ≤ (mkdir s clk name).1.next_inode_id := by
  obtain ⟨hc1, hu, hb⟩ := h
  have hc0 : 0 ≤ s.next_inode_id := by omega
  rcases hsub1 : subscript s.inodes clk s.current_inode with ⟨cur, m1, clk1⟩
  obtain ⟨hb1, hcur, _⟩ := below_subscript hb hu hc0 hsub1
  rcases hscan : scan (fun n => n.name == name) cur.children 0 m1 clk1 with ⟨r, m2, clk2⟩
  obtain ⟨hb2, _⟩ := below_scan _ hc0 _ _ _ _ _ _ _ hb1 hcur.1 hscan
  cases r with
  | some ic =>
    simp only [mkdir, hsub1, hscan]
    exact ⟨⟨hc1, hu, hb2⟩, le_refl _⟩
  | none =>
    have hw := wrapInt32_succ hc1 hroom
    have hc0' : 0 ≤ s.next_inode_id + 1 := by omega
    have hb2' : StoreBelow (s.next_inode_id + 1) m2 := below_mono hb2 (by omega)
    rcases hsub3 : subscript m2 clk2.tick s.current_inode with ⟨n3, m3, clk3⟩
    obtain ⟨hb3, _, _⟩ := below_subscript hb2' (by omega) hc0' hsub3
    have hb4 := below_update s.current_inode
      (fun n => { n with children := n.children ++ [s.next_inode_id] }) hb3
      (fun e he => ⟨fun x hx => by
        rcases List.mem_append.mp hx with hx | hx
        · exact he.1 x hx
        · simp only [List.mem_singleton] at hx; omega, he.2⟩)
    rcases hsub5 : subscript (Store.update m3 s.current_inode
      (fun n => { n with children := n.children ++ [s.next_inode_id] })) clk3
      s.next_inode_id with ⟨n5, m5, clk4⟩
    obtain ⟨hb5, _, _⟩ := below_subscript hb4 (by omega) hc0' hsub5
    have hb6 := below_update s.next_inode_id (fun _ => ({ INode.new clk2.now with
        id := s.next_inode_id, name := name, is_directory := true,
        parent := s.current_inode } : INode)) hb5
      (fun _ _ => ⟨fun x hx => by simp [INode.new] at hx, by show s.current_inode < _; omega⟩)
    have hb7 := below_uMT clk4 hb6 (show s.current_inode < s.next_inode_id + 1 by omega) hc0'
    simp only [mkdir, hsub1, hscan, hsub3, hsub5, hw]
    exact ⟨⟨by show (1 : Int) ≤ s.next_inode_id + 1; omega,
      by show s.current_inode < s.next_inode_id + 1; omega, hb7⟩,
      by show s.next_inode_id ≤ s.next_inode_id + 1; omega⟩

theorem bounded_touch (s : FS) (clk : Clock) (name : String) (h : Bounded s)
    (hroom : s.next_inode_id < 2147483647) :
    Bounded (touch s clk name).1 ∧ s.next_inode_id ≤ (touch s clk name).1.next_inode_id := by
  obtain ⟨hc1, hu, hb⟩ := h
  have hc0 : 0 ≤ s.next_inode_id := by omega
  rcases hsub1 : subscript s.inodes clk s.current_inode with ⟨cur, m1, clk1⟩
  obtain ⟨hb1, hcur, _⟩ := below_subscript hb hu hc0 hsub1
  rcases hscan : scan (fun n => n.name == name) cur.children 0 m1 clk1 with ⟨r, m2, clk2⟩
  obtain ⟨hb2, hr⟩ := below_scan _ hc0 _ _ _ _ _ _ _ hb1 hcur.1 hscan
  cases r with
  | some ic =>
    obtain ⟨i, child⟩ := ic
    have hch : child < s.next_inode_id := hcur.1 child (hr i child rfl).1
    simp only [touch, hsub1, hscan]
    exact ⟨⟨hc1, hu, below_uMT clk2 hb2 hch hc0⟩, le_refl _⟩
  | none =>
    have hw := wrapInt32_succ hc1 hroom
    have hc0' : 0 ≤ s.next_inode_id + 1 := by omega
    have hb2' : StoreBelow (s.next_inode_id + 1) m2 := below_mono hb2 (by omega)
    rcases hsub3 : subscript m2 clk2.tick s.current_inode with ⟨n3, m3, clk3⟩
    obtain ⟨hb3, _, _⟩ := below_subscript hb2' (by omega) hc0' hsub3
    have hb4 := below_update s.current_inode
      (fun n => { n with children := n.children ++ [s.next_inode_id] }) hb3
      (fun e he => ⟨fun x hx => by
        rcases List.mem_append.mp hx with hx | hx
        · exact he.1 x hx
        · simp only [List.mem_singleton] at hx; omega, he.2⟩)
    rcases hsub5 : subscript (Store.update m3 s.current_inode
      (fun n => { n with children := n.children ++ [s.next_inode_id] })) clk3
      s.next_inode_id with ⟨n5, m5, clk4⟩
    obtain ⟨hb5, _, _⟩ := below_subscript hb4 (by omega) hc0' hsub5
    have hb6 := below_update s.next_inode_id (fun _ => ({ INode.new clk2.now with
        id := s.next_inode_id, name := name, is_directory := false,
        parent := s.current_inode } : INode)) hb5
      (fun _ _ => ⟨fun x hx => by simp [INode.new] at hx, by show s.current_inode < _; omega⟩)
    have hb7 := below_uMT clk4 hb6 (show s.current_inode < s.next_inode_id + 1 by omega) hc0'
    simp only [touch, hsub1, hscan, hsub3, hsub5, hw]
    exact ⟨⟨by show (1 : Int) ≤ s.next_inode_id + 1; omega,
      by show s.current_inode < s.next_inode_id + 1; omega, hb7⟩,
      by show s.next_inode_id ≤ s.next_inode_id + 1; omega⟩

theorem mem_eraseIdx_self {x : Int} {l : List Int} (i : Nat) (h : x ∈ l.eraseIdx i) : x ∈ l :=
  (List.eraseIdx_sublist l i).subset h

theorem derefAfterErase_mem (cs : List Int) (i : Nat) (c : Int) (hc : c ∈ cs) :
    derefAfterErase cs i c ∈ cs := by
  unfold derefAfterErase
  rw [List.getD_eq_getElem?_getD]
  cases h : (cs.eraseIdx i)[i]? with
  | none => simpa using hc
  | some v =>
    simp only [Option.getD_some]
    exact mem_eraseIdx_self i (List.getElem?_mem h)

theorem bounded_rm (fuel : Nat) (s : FS) (clk : Clock) (name : String) (r : FS × Msg)
    (h : Bounded s) (hr : rm fuel s clk name = some r) :
    Bounded r.1 ∧ s.next_inode_id ≤ r.1.next_inode_id := by
  obtain ⟨hc1, hu, hb⟩ := h
  have hc0 : 0 ≤ s.next_inode_id := by omega
  rcases hsub1 : subscript s.inodes clk s.current_inode with ⟨cur, m1, clk1⟩
  obtain ⟨hb1, hcur, _⟩ := below_subscript hb hu hc0 hsub1
  rcases hscan : scan (fun n => n.name == name) cur.children 0 m1 clk1 with ⟨q, m2, clk2⟩
  obtain ⟨hb2, hq⟩ := below_scan _ hc0 _ _ _ _ _ _ _ hb1 hcur.1 hscan
  cases q with
  | none =>
    simp only [rm, hsub1, hscan, Option.some.injEq] at hr
    rw [← hr]
    exact ⟨⟨hc1, hu, hb2⟩, le_refl _⟩
  | some ic =>
    obtain ⟨i, child⟩ := ic
    have hmem : child ∈ cur.children := (hq i child rfl).1
    have hch : child < s.next_inode_id := hcur.1 child hmem
    rcases hsub3 : subscript m2 clk2 child with ⟨node, m3, clk3⟩
    obtain ⟨hb3, _, _⟩ := below_subscript hb2 hch hc0 hsub3
    simp only [rm, hsub1, hscan, hsub3] at hr
    split at hr
    · simp only [Option.some.injEq] at hr
      rw [← hr]
      exact ⟨⟨hc1, hu, hb3⟩, le_refl _⟩
    · have hb4 := below_update s.current_inode
        (fun n => { n with children := n.children.eraseIdx i }) hb3
        (fun e he => ⟨fun x hx => he.1 x (mem_eraseIdx_self i hx), he.2⟩)
      cases hl : rmLoop fuel [derefAfterErase cur.children i child]
          (Store.update m3 s.current_inode
            fun n => { n with children := n.children.eraseIdx i }) clk3 with
      | none => simp [hl] at hr
      | some w =>
        have hb5 := below_rmLoop hc0 _ _ _ _ w hb4
          (by
            intro x hx
            simp only [List.mem_singleton] at hx
            rw [hx]
            exact hcur.1 _ (derefAfterErase_mem _ _ _ hmem)) hl
        simp only [hl, Option.some.injEq] at hr
        rw [← hr]
        exact ⟨⟨hc1, hu, below_uMT _ hb5 hu hc0⟩, le_refl _⟩

theorem bounded_mv (s : FS) (clk : Clock) (a b : String) (h : Bounded s) :
    Bounded (mv s clk a b).1 ∧ s.next_inode_id ≤ (mv s clk a b).1.next_inode_id := by
  obtain ⟨hc1, hu, hb⟩ := h
  have hc0 : 0 ≤ s.next_inode_id := by omega
  rcases hsub1 : subscript s.inodes clk s.current_inode with ⟨cur, m1, clk1⟩
  obtain ⟨hb1, hcur, _⟩ := below_subscript hb hu hc0 hsub1
  rcases hscan : scan (fun n => n.name == a) cur.children 0 m1 clk1 with ⟨q, m2, clk2⟩
  obtain ⟨hb2, hq⟩ := below_scan _ hc0 _ _ _ _ _ _ _ hb1 hcur.1 hscan
  cases q with
  | none =>
    simp only [mv, hsub1, hscan]
    exact ⟨⟨hc1, hu, hb2⟩, le_refl _⟩
  | some ic =>
    obtain ⟨i, child⟩ := ic
    have hch : child < s.next_inode_id := hcur.1 child (hq i child rfl).1
    rcases hsub3 : subscript m2 clk2 s.current_inode with ⟨cur2, m3, clk3⟩
    obtain ⟨hb3, hcur2, _⟩ := below_subscript hb2 hu hc0 hsub3
    rcases hscan2 : scan (fun n => n.name == b) cur2.children 0 m3 clk3 with ⟨q2, m4, clk4⟩
    obtain ⟨hb4, _⟩ := below_scan _ hc0 _ _ _ _ _ _ _ hb3 hcur2.1 hscan2
    cases q2 with
    | some ic2 =>
      simp only [mv, hsub1, hscan, hsub3, hscan2]
      exact ⟨⟨hc1, hu, hb4⟩, le_refl _⟩
    | none =>
      rcases hsub5 : subscript m4 clk4 child with ⟨n5, m5, clk5⟩
      obtain ⟨hb5, _, _⟩ := below_subscript hb4 hch hc0 hsub5
      have hb6 := below_update child (fun n => { n with name := b }) hb5 (fun e he => he)
      rcases hu7 : updateModificationTime (Store.update m5 child
        (fun n => { n with name := b })) clk5 child with ⟨m7, clk6⟩
      have hb7 : StoreBelow s.next_inode_id m7 := by
        have := below_uMT clk5 hb6 hch hc0
        rw [hu7] at this
        exact this
      simp only [mv, hsub1, hscan, hsub3, hscan2, hsub5, hu7]
      exact ⟨⟨hc1, hu, below_uMT _ hb7 hu hc0⟩, le_refl _⟩

theorem bounded_chmod (s : FS) (clk : Clock) (a b : String) (h : Bounded s) :
    Bounded (chmod s clk a b).1 ∧ s.next_inode_id ≤ (chmod s clk a b).1.next_inode_id := by
  obtain ⟨hc1, hu, hb⟩ := h
  have hc0 : 0 ≤ s.next_inode_id := by omega
  rcases hsub1 : subscript s.inodes clk s.current_inode with ⟨cur, m1, clk1⟩
  obtain ⟨hb1, hcur, _⟩ := below_subscript hb hu hc0 hsub1
  rcases hscan : scan (fun n => n.name == a) cur.children 0 m1 clk1 with ⟨q, m2, clk2⟩
  obtain ⟨hb2, hq⟩ := below_scan _ hc0 _ _ _ _ _ _ _ hb1 hcur.1 hscan
  cases q with
  | none =>
    simp only [chmod, hsub1, hscan]
    exact ⟨⟨hc1, hu, hb2⟩, le_refl _⟩
  | some ic =>
    obtain ⟨i, child⟩ := ic
    have hch : child < s.next_inode_id := hcur.1 child (hq i child rfl).1
    simp only [chmod, hsub1, hscan]
    split
    · rcases hsub3 : subscript m2 clk2 child with ⟨n3, m3, clk3⟩
      obtain ⟨hb3, _, _⟩ := below_subscript hb2 hch hc0 hsub3
      have hb4 := below_update child (fun n => { n with permissions := b }) hb3
        (fun e he => he)
      exact ⟨⟨hc1, hu, below_uMT _ hb4 hch hc0⟩, le_refl _⟩
    · exact ⟨⟨hc1, hu, hb2⟩, le_refl _⟩

theorem bounded_cd (s : FS) (clk : Clock) (path : String) (h : Bounded s) :
    Bounded (cd s clk path).1 ∧ s.next_inode_id ≤ (cd s clk path).1.next_inode_id := by
  obtain ⟨hc1, hu, hb⟩ := h
  have hc0 : 0 ≤ s.next_inode_id := by omega
  rcases hsub1 : subscript s.inodes clk s.current_inode with ⟨cur, m1, clk1⟩
  obtain ⟨hb1, hcur, _⟩ := below_subscript hb hu hc0 hsub1
  by_cases h1 : path = ""
  · simp only [cd, h1, if_true]
    exact ⟨⟨hc1, hu, hb⟩, le_refl _⟩
  · by_cases h2 : path = "/"
    · simp only [cd, h1, h2, if_true, if_false]
      exact ⟨⟨hc1, by show (0 : Int) < s.next_inode_id; omega, hb⟩, le_refl _⟩
    · by_cases h3 : path = ".."
      · by_cases h4 : s.current_inode = 0
        · simp only [cd, h1, h2, h3, h4, if_true, if_false, ne_eq, not_true_eq_false]
          exact ⟨⟨hc1, hu, hb⟩, le_refl _⟩
        · simp only [cd, h1, h2, h3, h4, if_true, if_false, ne_eq, not_false_eq_true, hsub1]
          exact ⟨⟨hc1, hcur.2, hb1⟩, le_refl _⟩
      · rcases hscan : scan (fun n => n.name == path && n.is_directory) cur.children 0 m1
          clk1 with ⟨q, m2, clk2⟩
        obtain ⟨hb2, hq⟩ := below_scan _ hc0 _ _ _ _ _ _ _ hb1 hcur.1 hscan
        cases q with
        | none =>
          simp only [cd, h1, h2, h3, if_false, hsub1, hscan]
          exact ⟨⟨hc1, hu, hb2⟩, le_refl _⟩
        | some ic =>
          obtain ⟨i, child⟩ := ic
          simp only [cd, h1, h2, h3, if_false, hsub1, hscan]
          exact ⟨⟨hc1, hcur.1 child (hq i child rfl).1, hb2⟩, le_refl _⟩

theorem bounded_step {s s' : FS} (op : Op) (fuel : Nat) (clk : Clock) (h : Bounded s)
    (hok : counterRoom s op) (hrun : Op.run op fuel s clk = some s') :
    Bounded s' ∧ s.next_inode_id ≤ s'.next_inode_id := by
  cases op with
  | mkdir name =>
    simp only [Op.run, Option.some.injEq] at hrun
    rw [← hrun]; exact bounded_mkdir s clk name h hok
  | touch name =>
    simp only [Op.run, Option.some.injEq] at hrun
    rw [← hrun]; exact bounded_touch s clk name h hok
  | rm name =>
    simp only [Op.run, Option.map_eq_some'] at hrun
    obtain ⟨r, hr, rfl⟩ := hrun
    exact bounded_rm fuel s clk name r h hr
  | mv a b =>
    simp only [Op.run, Option.some.injEq] at hrun
    rw [← hrun]; exact bounded_mv s clk a b h
  | chmod a b =>
    simp only [Op.run, Option.some.injEq] at hrun
    rw [← hrun]; exact bounded_chmod s clk a b h
  | cd path =>
    simp only [Op.run, Option.some.injEq] at hrun
    rw [← hrun]; exact bounded_cd s clk path h

theorem bounded_reach {s0 s : FS} (hr : Reach counterRoom s0 s) (h0 : Bounded s0) :
    Bounded s ∧ s0.next_inode_id ≤ s.next_inode_id := by
  induction hr with
  | start => exact ⟨h0, le_refl _⟩
  | step op fuel clk _ hok hrun ih =>
    obtain ⟨h1, h2⟩ := bounded_step op fuel clk ih.1 hok hrun
    exact ⟨h1, le_trans ih.2 h2⟩

theorem mem_keys_iff (m : Store) (k : Int) : k ∈ Store.keys m ↔ ∃ e, (k, e) ∈ m := by
  unfold Store.keys
  simp [List.mem_map]

theorem keys_insert : ∀ (m : Store) (k : Int) (v : INode) (k' : Int),
    k' ∈ Store.keys (Store.insert m k v) ↔ k' = k ∨ k' ∈ Store.keys m := by
  intro m
  induction m with
  | nil => intro k v k'; simp [Store.insert, Store.keys]
  | cons hd t ih =>
    intro k v k'
    obtain ⟨a, w⟩ := hd
    have ih' := ih k v k'
    simp only [Store.keys] at ih' ⊢
    by_cases h1 : k < a
    · simp [Store.insert, h1]
    · by_cases h2 : k = a
      · subst h2
        simp [Store.insert]
      · simp only [Store.insert, h1, h2, if_false, List.map_cons, List.mem_cons, ih']
        constructor
        · rintro (h | h | h)
          · exact Or.inr (Or.inl h)
          · exact Or.inl h
          · exact Or.inr (Or.inr h)
        · rintro (h | h | h)
          · exact Or.inr (Or.inl h)
          · exact Or.inl h
          · exact Or.inr (Or.inr h)

theorem keys_subscript {m m1 : Store} {clk clk1 : Clock} {k : Int} {node : INode}
    (hs : subscript m clk k = (node, m1, clk1)) (k' : Int) :
    k' ∈ Store.keys m1 ↔ k' = k ∨ k' ∈ Store.keys m := by
  unfold subscript at hs
  cases hf : Store.find m k with
  | none =>
    simp only [hf, Prod.mk.injEq] at hs
    obtain ⟨_, rfl, _⟩ := hs
    exact keys_insert m k _ k'
  | some v =>
    simp only [hf, Prod.mk.injEq] at hs
    obtain ⟨_, rfl, _⟩ := hs
    constructor
    · exact Or.inr
    · rintro (h | h)
      · rw [h, mem_keys_iff]; exact ⟨v, mem_of_find m k v hf⟩
      · exact h

theorem loadLoop_keys : ∀ (count : Nat) (bs : List Nat) (m : Store) (next : Int)
    (clk : Clock) (m' : Store) (next' : Int),
    loadLoop count bs m next clk = some (m', next') →
    ∀ k ∈ Store.keys m, k ∈ Store.keys m' := by
  intro count
  induction count with
  | zero =>
    intro bs m next clk m' next' h k hk
    simp only [loadLoop, Option.some.injEq, Prod.mk.injEq] at h
    rw [← h.1]; exact hk
  | succ n ih =>
    intro bs m next clk m' next' h k hk
    cases hrd : readNode clk.now bs with
    | none => simp [loadLoop, hrd] at h
    | some nr =>
      obtain ⟨node, rest⟩ := nr
      rcases hsub : subscript m clk.tick node.id with ⟨v, m1, clk1⟩
      simp only [loadLoop, hrd, hsub] at h
      refine ih _ _ _ _ _ _ h k ?_
      rw [keys_update, keys_subscript hsub]
      exact Or.inr hk

theorem loadLoop_counter : ∀ (count : Nat) (bs : List Nat) (m : Store) (next : Int)
    (clk : Clock) (m' : Store) (next' : Int),
    loadLoop count bs m next clk = some (m', next') → 1 ≤ next →
    (∀ k ∈ Store.keys m', k < 2147483647) → (∀ k ∈ Store.keys m, k < next) →
    1 ≤ next' ∧ ∀ k ∈ Store.keys m', k < next' := by
  intro count
  induction count with
  | zero =>
    intro bs m next clk m' next' h h1 _ hk
    simp only [loadLoop, Option.some.injEq, Prod.mk.injEq] at h
    rw [← h.1, ← h.2]; exact ⟨h1, hk⟩
  | succ n ih =>
    intro bs m next clk m' next' h h1 hmax hk
    cases hrd : readNode clk.now bs with
    | none => simp [loadLoop, hrd] at h
    | some nr =>
      obtain ⟨node, rest⟩ := nr
      rcases hsub : subscript m clk.tick node.id with ⟨v, m1, clk1⟩
      simp only [loadLoop, hrd, hsub] at h
      have hin : node.id ∈ Store.keys (Store.update m1 node.id fun _ => node) := by
        rw [keys_update, keys_subscript hsub]; exact Or.inl rfl
      have hid : node.id < 2147483647 := hmax _ (loadLoop_keys _ _ _ _ _ _ _ h _ hin)
      refine ih _ _ _ _ _ _ h ?_ hmax ?_
      · split
        · rename_i hge
          rw [wrapInt32_succ (by omega) hid]; omega
        · exact h1
      · intro k hk'
        rw [keys_update, keys_subscript hsub] at hk'
        split
        · rename_i hge
          rw [wrapInt32_succ (by omega) hid]
          rcases hk' with rfl | hk'
          · omega
          · have := hk k hk'; omega
        · rename_i hge
          rcases hk' with rfl | hk'
          · omega
          · exact hk k hk'

theorem bounded_start {s0 : FS} (h : SessionStart s0) : Bounded s0 := by
  rcases h with ⟨t, rfl⟩ | ⟨t, clk, bytes, hload, hrefs, hmax⟩
  · refine ⟨le_refl _, by show (0 : Int) < 1; omega, ?_⟩
    intro kv hkv
    simp only [FS.fresh, List.mem_singleton] at hkv
    subst hkv
    exact ⟨by show (0 : Int) < 1; omega, fun x hx => by simp [INode.new] at hx,
      by show (0 : Int) < 1; omega⟩
  · simp only [loadFromDisk] at hload
    cases hrd : readSizeT bytes with
    | none => simp [hrd] at hload
    | some cr =>
      obtain ⟨count, rest⟩ := cr
      simp only [hrd] at hload
      cases hl : loadLoop count rest [] (FS.fresh t).next_inode_id clk with
      | none => simp [hl] at hload
      | some mn =>
        obtain ⟨m, next⟩ := mn
        simp only [hl, Option.some.injEq] at hload
        subst hload
        obtain ⟨h1, h2⟩ := loadLoop_counter _ _ _ _ _ _ _ hl (le_refl _) hmax
          (fun k hk => by simp [Store.keys] at hk)
        refine ⟨h1, by show (0 : Int) < next; omega, ?_⟩
        intro kv hkv
        obtain ⟨hr1, hr2⟩ := hrefs kv hkv
        exact ⟨h2 kv.1 ((mem_keys_iff m kv.1).mpr ⟨kv.2, hkv⟩),
          fun x hx => h2 x (hr1 x hx), h2 _ hr2⟩

theorem keys_below_of_bounded {s : FS} (h : Bounded s) :
    ∀ k ∈ Store.keys s.inodes, k < s.next_inode_id := by
  intro k hk
  obtain ⟨e, he⟩ := (mem_keys_iff s.inodes k).mp hk
  exact (h.2.2 (k, e) he).1

set_option maxRecDepth 100000 in
/-- C15 (counterexample): (1) `exLoadedMax` is the session that loaded a file whose ids are 0
and 2147483646 (non-negative and below the largest `int`); its counter is 2147483647, and
after `mkdir x` the counter is -2147483648: it decreased and is below the stored ids.
(2) `exLoadedDangling` is the session that loaded a file whose root names the child id 5, of
which the file has no record; its counter is 1, and after `mkdir x` the store holds the id 5
while the counter is 2. -/
theorem counter_wraps_or_is_overtaken :
    (loadFromDisk (FS.fresh 0) exClock (some exFileMax) = some exLoadedMax ∧
     Store.keys exLoadedMax.inodes = [0, 2147483646] ∧
     exLoadedMax.next_inode_id = 2147483647 ∧
     (mkdir exLoadedMax exClock "x").1.next_inode_id = -2147483648 ∧
     Store.keys (mkdir exLoadedMax exClock "x").1.inodes = [0, 2147483646, 2147483647]) ∧
    (loadFromDisk (FS.fresh 0) exClock (some exFileDangling) = some exLoadedDangling ∧
     Store.keys exLoadedDangling.inodes = [0] ∧
     exLoadedDangling.next_inode_id = 1 ∧
     (mkdir exLoadedDangling exClock "x").1.next_inode_id = 2 ∧
     Store.keys (mkdir exLoadedDangling exClock "x").1.inodes = [0, 1, 5]) := by
  decide

/-- C15 (amended): starting from the fresh store, or from a store that `loadFromDisk` read
into a fresh session with ids below the largest `int` and with children and parent fields
naming loaded ids only, and after any finite sequence of calls in which no `mkdir` or `touch`
is made once the counter has reached the largest `int`: the counter is above every id in the
store, and in every state reached later the counter is not smaller and differs from every id
that was in the store, so the id that a later `mkdir` or `touch` gives to a new entry (the
value of the counter) is none of them. -/
theorem counter_above_ids (s0 s : FS) (h0 : SessionStart s0)
    (hr : Reach counterRoom s0 s) :
    (∀ k ∈ Store.keys s.inodes, k < s.next_inode_id) ∧
    ∀ s', Reach counterRoom s s' →
      s.next_inode_id ≤ s'.next_inode_id ∧
      ∀ k ∈ Store.keys s.inodes, k < s'.next_inode_id ∧ k ≠ s'.next_inode_id := by
  have hb := (bounded_reach hr (bounded_start h0)).1
  refine ⟨keys_below_of_bounded hb, fun s' hr' => ?_⟩
  have hb' := bounded_reach hr' hb
  refine ⟨hb'.2, fun k hk => ?_⟩
  have := keys_below_of_bounded hb k hk
  exact ⟨by omega, by omega⟩

/-- Witness of C15 (amended): the fresh store, the state after `mkdir a`, `mkdir b`. -/
theorem counter_above_ids_witness :
    (∀ k ∈ Store.keys exAB.inodes, k < exAB.next_inode_id) ∧
    ∀ s', Reach counterRoom exAB s' →
      exAB.next_inode_id ≤ s'.next_inode_id ∧
      ∀ k ∈ Store.keys exAB.inodes, k < s'.next_inode_id ∧ k ≠ s'.next_inode_id :=
  counter_above_ids (FS.fresh 7) exAB (Or.inl ⟨7, rfl⟩)
    (Reach.step (Op.mkdir "b") 0 exClock
      (Reach.step (Op.mkdir "a") 0 exClock Reach.start
        (show (FS.fresh 7).next_inode_id < 2147483647 by decide) rfl)
      (show (mkdir (FS.fresh 7) exClock "a").1.next_inode_id < 2147483647 by decide) rfl)

/-! ## Views of the store after the operations -/

theorem find_subscript {m m1 : Store} {clk clk1 : Clock} {k : Int} {node : INode}
    (hs : subscript m clk k = (node, m1, clk1)) (k' : Int) :
    Store.find m1 k' = if k' = k then some node else Store.find m k' := by
  unfold subscript at hs
  cases h : Store.find m k with
  | none =>
    rw [h] at hs
    simp only [Prod.mk.injEq] at hs
    obtain ⟨h1, h2, _⟩ := hs
    rw [← h2, ← h1, find_insert]
  | some v =>
    rw [h] at hs
    simp only [Prod.mk.injEq] at hs
    obtain ⟨h1, h2, _⟩ := hs
    rw [← h2, ← h1]
    by_cases hk : k' = k
    · subst hk; simp [h]
    · simp [hk]

theorem view_update (m : Store) (k : Int) (f : INode → INode) (k' : Int) :
    view (Store.update m k f) k' =
      (Store.find m k').map fun n => if k' = k then (f n).view else n.view := by
  unfold view
  rw [find_update_map]
  cases Store.find m k' with
  | none => rfl
  | some v => by_cases hk : k' = k <;> simp [hk]

theorem view_update_same (m : Store) (k : Int) (f : INode → INode)
    (hf : ∀ n, (f n).view = n.view) (k' : Int) :
    view (Store.update m k f) k' = view m k' := by
  rw [view_update]
  unfold view
  cases Store.find m k' with
  | none => rfl
  | some v => by_cases hk : k' = k <;> simp [hk, hf]

theorem view_uMT {m : Store} {u : Int} {v : INode} (clk : Clock)
    (h : Store.find m u = some v) (k : Int) :
    view (updateModificationTime m clk u).1 k = view m k := by
  rw [updateModificationTime_present clk h]
  exact view_update_same m u (fun n => { n with modification_time := clk.now })
    (fun _ => rfl) k

/-- Views of the store left by the tail of `mkdir` / `touch` once the name was found free,
whether or not the counter is the id of a stored node. -/
theorem created_view {m m5 : Store} {u c : Int} {cur new n5 : INode} {clk3 clk4 : Clock}
    (hcur : Store.find m u = some cur)
    (h5 : subscript (Store.update m u fun n => { n with children := n.children ++ [c] })
      clk3 c = (n5, m5, clk4)) (k : Int) :
    view (updateModificationTime (Store.update m5 c fun _ => new) clk4 u).1 k =
      createdView (view m) u c cur.view new.view k := by
  have h6 : ∀ k', Store.find (Store.update m5 c fun _ => new) k' =
      if k' = c then some new
      else (Store.find m k').map fun n =>
        if k' = u then { n with children := n.children ++ [c] } else n := by
    intro k'
    rw [find_update_map, find_subscript h5, find_update_map]
    by_cases hk : k' = c
    · simp [hk]
    · simp only [hk, if_false]
      cases Store.find m k' <;> rfl
  have hu : ∃ v, Store.find (Store.update m5 c fun _ => new) u = some v := by
    rw [h6, hcur]
    by_cases hk : u = c
    · exact ⟨new, by simp [hk]⟩
    · exact ⟨{ cur with children := cur.children ++ [c] }, by simp [hk]⟩
  obtain ⟨v, hv⟩ := hu
  rw [view_uMT clk4 hv]
  unfold view createdView
  rw [h6]
  by_cases hk : k = c
  · simp [hk]
  · by_cases hku : k = u
    · subst hku
      simp [hk, hcur, INode.view]
    · simp only [hk, hku, if_false]
      cases Store.find m k <;> rfl

theorem mkdir_view {s : FS} {name : String} {cur : INode} (clk : Clock)
    (hp : ChildrenPresent s cur) (hn : ¬ SomeNamed s.inodes cur.children name) :
    (mkdir s clk name).1.current_inode = s.current_inode ∧
    (mkdir s clk name).1.next_inode_id = wrapInt32 (s.next_inode_id + 1) ∧
    ∀ k, view (mkdir s clk name).1.inodes k =
      createdView (view s.inodes) s.current_inode s.next_inode_id cur.view
        ⟨[], s.current_inode, name, true⟩ k := by
  have hscan := scan_name_none clk hp.2 hn
  rcases h5 : subscript (Store.update s.inodes s.current_inode
    fun n => { n with children := n.children ++ [s.next_inode_id] }) clk.tick s.next_inode_id
    with ⟨n5, m5, clk4⟩
  simp only [mkdir, subscript_present clk hp.1, hscan, subscript_present clk.tick hp.1, h5]
  exact ⟨trivial, trivial, fun k => created_view hp.1 h5 k⟩

theorem touch_view {s : FS} {name : String} {cur : INode} (clk : Clock)
    (hp : ChildrenPresent s cur) (hn : ¬ SomeNamed s.inodes cur.children name) :
    (touch s clk name).1.current_inode = s.current_inode ∧
    (touch s clk name).1.next_inode_id = wrapInt32 (s.next_inode_id + 1) ∧
    ∀ k, view (touch s clk name).1.inodes k =
      createdView (view s.inodes) s.current_inode s.next_inode_id cur.view
        ⟨[], s.current_inode, name, false⟩ k := by
  have hscan := scan_name_none clk hp.2 hn
  rcases h5 : subscript (Store.update s.inodes s.current_inode
    fun n => { n with children := n.children ++ [s.next_inode_id] }) clk.tick s.next_inode_id
    with ⟨n5, m5, clk4⟩
  simp only [touch, subscript_present clk hp.1, hscan, subscript_present clk.tick hp.1, h5]
  exact ⟨trivial, trivial, fun k => created_view hp.1 h5 k⟩

/-! ## The invariant of the sessions without `rm` -/

theorem createdView_cases {V : Int → Option View} {u c : Int} {cur new w : View} {k : Int}
    (h : createdView V u c cur new k = some w) :
    (k = c ∧ w = new) ∨
    (k ≠ c ∧ k = u ∧ w = { cur with children := cur.children ++ [c] }) ∨
    (k ≠ c ∧ k ≠ u ∧ V k = some w) := by
  unfold createdView at h
  by_cases h1 : k = c
  · left
    simp only [h1, if_true, Option.some.injEq] at h
    exact ⟨h1, h.symm⟩
  · right
    by_cases h2 : k = u
    · left
      subst h2
      simp only [h1, if_true, if_false, Option.some.injEq] at h
      exact ⟨h1, rfl, h.symm⟩
    · right
      simp only [h1, h2, if_false] at h
      exact ⟨h1, h2, h⟩

theorem createdView_old {V : Int → Option View} {u c : Int} {cur new w : View} {k : Int}
    (hu : V u = some cur) (hk : k ≠ c) (h : createdView V u c cur new k = some w) :
    ∃ w0, V k = some w0 ∧ w0.name = w.name ∧ w0.parent = w.parent := by
  rcases createdView_cases h with ⟨h1, _⟩ | ⟨_, h2, h3⟩ | ⟨_, _, h3⟩
  · exact absurd h1 hk
  · subst h2; subst h3; exact ⟨cur, hu, rfl, rfl⟩
  · exact ⟨w, h3, rfl, rfl⟩

theorem createdView_present {V : Int → Option View} {u c : Int} {cur new w : View} {k : Int}
    (h : V k = some w) : ∃ w1, createdView V u c cur new k = some w1 := by
  unfold createdView
  by_cases h1 : k = c
  · exact ⟨new, by simp [h1]⟩
  · by_cases h2 : k = u
    · subst h2
      exact ⟨{ cur with children := cur.children ++ [c] }, by simp [h1]⟩
    · exact ⟨w, by simp [h1, h2, h]⟩

theorem wrapInv_unlisted {V : Int → Option View} {u c : Int} (hI : WrapInv V u c)
    {k : Int} {w : View} (hk : V k = some w) : c ∉ w.children := by
  intro hc
  have h := hI.ahead k w hk c hc
  omega

theorem ahead_step {k x c : Int} (hk : IsInt32 k) (hx : IsInt32 x) (hc : IsInt32 c)
    (hne : k ≠ c) (h : (k - c) % 4294967296 < (x - c) % 4294967296) :
    (k - wrapInt32 (c + 1)) % 4294967296 < (x - wrapInt32 (c + 1)) % 4294967296 := by
  unfold IsInt32 at hk hx hc
  unfold wrapInt32
  omega

theorem ahead_new {k c : Int} (hk : IsInt32 k) (hc : IsInt32 c) (hne : k ≠ c) :
    (k - wrapInt32 (c + 1)) % 4294967296 < (c - wrapInt32 (c + 1)) % 4294967296 := by
  unfold IsInt32 at hk hc
  unfold wrapInt32
  omega

theorem isInt32_wrap (x : Int) : IsInt32 (wrapInt32 x) := by
  unfold IsInt32 wrapInt32
  omega

/-- A creation keeps the invariant, whether or not the counter is the id of a stored node:
the node stored under the counter, if any, is listed nowhere, and it is replaced by a node
without children. -/
theorem wrapInv_created {V : Int → Option View} {u c : Int} {cur new : View}
    (hI : WrapInv V u c) (hu : V u = some cur) (hch : new.children = [])
    (hpar : new.parent = u)
    (hname : ∀ x ∈ cur.children, ∀ wx, V x = some wx → wx.name ≠ new.name) :
    WrapInv (createdView V u c cur new) u (wrapInt32 (c + 1)) := by
  have hun : ∀ {k w}, V k = some w → c ∉ w.children := fun h => wrapInv_unlisted hI h
  have hne : ∀ {k w d}, V k = some w → d ∈ w.children → d ≠ c :=
    fun h hd e => hun h (e ▸ hd)
  have hcu : ∃ w1, createdView V u c cur new u = some w1 := createdView_present hu
  refine ⟨?_, hcu, ?_, ?_, isInt32_wrap _, ?_, ?_, ?_, ?_⟩
  · obtain ⟨w, hw⟩ := hI.root
    exact createdView_present hw
  · intro k w hk x hx
    rcases createdView_cases hk with ⟨_, h2⟩ | ⟨_, h2, h3⟩ | ⟨_, _, h3⟩
    · rw [h2, hch] at hx; exact absurd hx (List.not_mem_nil _)
    · subst h3
      rcases List.mem_append.mp hx with hx | hx
      · obtain ⟨wx, hwx⟩ := hI.listed u cur hu x hx
        exact createdView_present hwx
      · have e : x = c := by simpa using hx
        subst e
        exact ⟨new, by simp [createdView]⟩
    · obtain ⟨wx, hwx⟩ := hI.listed k w h3 x hx
      exact createdView_present hwx
  · intro k w hk
    rcases createdView_cases hk with ⟨_, h2⟩ | ⟨_, h2, h3⟩ | ⟨_, _, h3⟩
    · rw [h2, hpar]; exact hcu
    · subst h3
      obtain ⟨wp, hwp⟩ := hI.parent u cur hu
      exact createdView_present hwp
    · obtain ⟨wp, hwp⟩ := hI.parent k w h3
      exact createdView_present hwp
  · intro k w hk
    rcases createdView_cases hk with ⟨h1, _⟩ | ⟨_, h2, _⟩ | ⟨_, _, h3⟩
    · rw [h1]; exact hI.counter
    · rw [h2]; exact hI.ids u cur hu
    · exact hI.ids k w h3
  · intro k w hk x hx
    rcases createdView_cases hk with ⟨_, h2⟩ | ⟨h1, h2, h3⟩ | ⟨h1, _, h3⟩
    · rw [h2, hch] at hx; exact absurd hx (List.not_mem_nil _)
    · subst h3
      subst h2
      rcases List.mem_append.mp hx with hx | hx
      · obtain ⟨wx, hwx⟩ := hI.listed k cur hu x hx
        exact ahead_step (hI.ids k cur hu) (hI.ids x wx hwx) hI.counter h1
          (hI.ahead k cur hu x hx)
      · have e : x = c := by simpa using hx
        subst e
        exact ahead_new (hI.ids k cur hu) hI.counter h1
    · obtain ⟨wx, hwx⟩ := hI.listed k w h3 x hx
      exact ahead_step (hI.ids k w h3) (hI.ids x wx hwx) hI.counter h1
        (hI.ahead k w h3 x hx)
  · intro k1 w1 k2 w2 x hk1 hk2 hx1 hx2
    have key : ∀ {k w}, createdView V u c cur new k = some w → x ∈ w.children →
        (x = c ∧ k = u) ∨ (x ≠ c ∧ ∃ w0, V k = some w0 ∧ x ∈ w0.children) := by
      intro k w hk hx
      rcases createdView_cases hk with ⟨_, h2⟩ | ⟨_, h2, h3⟩ | ⟨_, _, h3⟩
      · rw [h2, hch] at hx; exact absurd hx (List.not_mem_nil _)
      · subst h3
        subst h2
        rcases List.mem_append.mp hx with hx | hx
        · right
          exact ⟨fun e => hun hu (e ▸ hx), cur, hu, hx⟩
        · left
          exact ⟨by simpa using hx, rfl⟩
      · right
        exact ⟨fun e => hun h3 (e ▸ hx), w, h3, hx⟩
    rcases key hk1 hx1 with ⟨a1, a2⟩ | ⟨a1, v1, a2, a3⟩
    · rcases key hk2 hx2 with ⟨b1, b2⟩ | ⟨b1, _⟩
      · rw [a2, b2]
      · exact absurd a1 b1
    · rcases key hk2 hx2 with ⟨b1, _⟩ | ⟨_, v2, b2, b3⟩
      · exact absurd b1 a1
      · exact hI.lister k1 v1 k2 v2 x a2 b2 a3 b3
  · intro k w hk d1 hd1 d2 hd2 w1 w2 h1 h2 hnm
    have inner : ∀ (k0 : Int) (w0 : View), V k0 = some w0 →
        ∀ d1 ∈ w0.children, ∀ d2 ∈ w0.children,
        createdView V u c cur new d1 = some w1 → createdView V u c cur new d2 = some w2 →
        d1 = d2 := by
      intro k0 w0 hk0 d1 hd1 d2 hd2 h1 h2
      obtain ⟨v1, g1, g2, _⟩ := createdView_old hu (hne hk0 hd1) h1
      obtain ⟨v2, g3, g4, _⟩ := createdView_old hu (hne hk0 hd2) h2
      exact hI.names k0 w0 hk0 d1 hd1 d2 hd2 v1 v2 g1 g3 (by rw [g2, g4, hnm])
    have fresh : ∀ d ∈ cur.children, ∀ wd wc,
        createdView V u c cur new d = some wd → createdView V u c cur new c = some wc →
        wd.name ≠ wc.name := by
      intro d hd wd wc g1 g2 e
      obtain ⟨v1, g3, g4, _⟩ := createdView_old hu (hne hu hd) g1
      have g5 : wc = new := by
        simp only [createdView, if_true, Option.some.injEq] at g2
        exact g2.symm
      exact hname d hd v1 g3 (by rw [g4, e, g5])
    rcases createdView_cases hk with ⟨_, g2⟩ | ⟨_, g2, g3⟩ | ⟨_, _, g3⟩
    · rw [g2, hch] at hd1; exact absurd hd1 (List.not_mem_nil _)
    · subst g3
      rcases List.mem_append.mp hd1 with a | a
      · rcases List.mem_append.mp hd2 with b | b
        · exact inner u cur hu d1 a d2 b h1 h2
        · have e : d2 = c := by simpa using b
          subst e
          exact absurd hnm (fresh d1 a w1 w2 h1 h2)
      · have e : d1 = c := by simpa using a
        subst e
        rcases List.mem_append.mp hd2 with b | b
        · exact absurd hnm.symm (fresh d2 b w2 w1 h2 h1)
        · have e : d2 = d1 := by simpa using b
          exact e.symm
    · exact inner k w g3 d1 hd1 d2 hd2 h1 h2

theorem renamedView_inv {V : Int → Option View} {c0 : Int} {new : String} {k : Int} {w : View}
    (h : renamedView V c0 new k = some w) :
    ∃ w0, V k = some w0 ∧ w0.children = w.children ∧ w0.parent = w.parent ∧
      w.name = if k = c0 then new else w0.name := by
  unfold renamedView at h
  cases hv : V k with
  | none => rw [hv] at h; exact absurd h (by simp)
  | some w0 =>
    rw [hv] at h
    simp only [Option.map, Option.some.injEq] at h
    subst h
    by_cases hk : k = c0
    · exact ⟨w0, rfl, by simp [hk], by simp [hk], by simp [hk]⟩
    · exact ⟨w0, rfl, by simp [hk], by simp [hk], by simp [hk]⟩

theorem renamedView_present {V : Int → Option View} {c0 : Int} {new : String} {k : Int}
    {w : View} (h : V k = some w) : ∃ w1, renamedView V c0 new k = some w1 := by
  unfold renamedView
  rw [h]
  exact ⟨_, rfl⟩

/-- A rename of a child of the cursor to a name that none of its children bears keeps the
invariant. -/
theorem wrapInv_renamed {V : Int → Option View} {u c c0 : Int} {cur : View} {new : String}
    (hI : WrapInv V u c) (hu : V u = some cur) (hc0 : c0 ∈ cur.children)
    (hname : ∀ x ∈ cur.children, ∀ wx, V x = some wx → wx.name ≠ new) :
    WrapInv (renamedView V c0 new) u c := by
  refine ⟨?_, ?_, ?_, ?_, hI.counter, ?_, ?_, ?_, ?_⟩
  · obtain ⟨w, hw⟩ := hI.root
    exact renamedView_present hw
  · exact renamedView_present hu
  · intro k w hk x hx
    obtain ⟨w0, h1, h2, _, _⟩ := renamedView_inv hk
    obtain ⟨wx, hwx⟩ := hI.listed k w0 h1 x (h2 ▸ hx)
    exact renamedView_present hwx
  · intro k w hk
    obtain ⟨w0, h1, _, h3, _⟩ := renamedView_inv hk
    obtain ⟨wp, hwp⟩ := hI.parent k w0 h1
    rw [← h3]
    exact renamedView_present hwp
  · intro k w hk
    obtain ⟨w0, h1, _, _, _⟩ := renamedView_inv hk
    exact hI.ids k w0 h1
  · intro k w hk x hx
    obtain ⟨w0, h1, h2, _, _⟩ := renamedView_inv hk
    exact hI.ahead k w0 h1 x (h2 ▸ hx)
  · intro k1 w1 k2 w2 x hk1 hk2 hx1 hx2
    obtain ⟨v1, a1, a2, _, _⟩ := renamedView_inv hk1
    obtain ⟨v2, b1, b2, _, _⟩ := renamedView_inv hk2
    exact hI.lister k1 v1 k2 v2 x a1 b1 (a2 ▸ hx1) (b2 ▸ hx2)
  · intro k w hk d1 hd1 d2 hd2 w1 w2 h1 h2 hnm
    obtain ⟨w0, g1, g2, _, _⟩ := renamedView_inv hk
    obtain ⟨v1, a1, _, _, a4⟩ := renamedView_inv h1
    obtain ⟨v2, b1, _, _, b4⟩ := renamedView_inv h2
    have hd1' : d1 ∈ w0.children := g2 ▸ hd1
    have hd2' : d2 ∈ w0.children := g2 ▸ hd2
    by_cases e1 : d1 = c0
    · by_cases e2 : d2 = c0
      · rw [e1, e2]
      · exfalso
        have hk' : k = u := hI.lister k w0 u cur c0 g1 hu (e1 ▸ hd1') hc0
        subst hk'
        rw [hu] at g1
        simp only [Option.some.injEq] at g1
        subst g1
        simp only [e1, e2, if_true, if_false] at a4 b4
        exact hname d2 hd2' v2 b1 (by rw [← b4, ← hnm, a4])
    · by_cases e2 : d2 = c0
      · exfalso
        have hk' : k = u := hI.lister k w0 u cur c0 g1 hu (e2 ▸ hd2') hc0
        subst hk'
        rw [hu] at g1
        simp only [Option.some.injEq] at g1
        subst g1
        simp only [e1, e2, if_true, if_false] at a4 b4
        exact hname d1 hd1' v1 a1 (by rw [← a4, hnm, b4])
      · simp only [e1, e2, if_false] at a4 b4
        exact hI.names k w0 g1 d1 hd1' d2 hd2' v1 v2 a1 b1 (by rw [← a4, ← b4, hnm])

theorem view_some {m : Store} {k : Int} {w : View} (h : view m k = some w) :
    ∃ e, Store.find m k = some e ∧ e.view = w := by
  unfold view at h
  cases hf : Store.find m k with
  | none => rw [hf] at h; exact absurd h (by simp)
  | some e =>
    rw [hf] at h
    simp only [Option.map, Option.some.injEq] at h
    exact ⟨e, rfl, h⟩

theorem view_of_find {m : Store} {k : Int} {e : INode} (h : Store.find m k = some e) :
    view m k = some e.view := by
  unfold view
  rw [h]
  rfl

theorem inv_childrenPresent {s : FS} (hI : TreeInv s) : ∃ cur, ChildrenPresent s cur := by
  obtain ⟨w, hw⟩ := hI.cursor
  obtain ⟨cur, h1, h2⟩ := view_some hw
  refine ⟨cur, h1, fun c hc => ?_⟩
  obtain ⟨wx, hwx⟩ := hI.listed _ _ (view_of_find h1) c hc
  obtain ⟨n, hn, _⟩ := view_some hwx
  exact ⟨n, hn⟩

theorem inv_of_view {s s' : FS} (hI : TreeInv s)
    (h1 : s'.current_inode = s.current_inode) (h2 : s'.next_inode_id = s.next_inode_id)
    (h3 : ∀ k, view s'.inodes k = view s.inodes k) : TreeInv s' := by
  unfold TreeInv
  rw [h1, h2, funext h3]
  exact hI

theorem inv_cursor {s s' : FS} (hI : TreeInv s)
    (h1 : s'.inodes = s.inodes) (h2 : s'.next_inode_id = s.next_inode_id)
    (h3 : ∃ w, view s.inodes s'.current_inode = some w) : TreeInv s' := by
  unfold TreeInv
  rw [h1, h2]
  exact { hI with cursor := h3 }

theorem notNamed_view {m : Store} {cs : List Int} {name : String}
    (hn : ¬ SomeNamed m cs name) :
    ∀ x ∈ cs, ∀ wx, view m x = some wx → wx.name ≠ name := by
  intro x hx wx hwx e
  obtain ⟨n, h1, h2⟩ := view_some hwx
  exact hn ⟨x, hx, n, h1, by rw [← e, ← h2]; rfl⟩

theorem scan_present (p : INode → Bool) (m : Store) (clk : Clock) :
    ∀ (cs : List Int) (i : Nat), (∀ c ∈ cs, ∃ n, Store.find m c = some n) →
      ∃ r, scan p cs i m clk = (r, m, clk) ∧ ∀ j c, r = some (j, c) → c ∈ cs := by
  intro cs
  induction cs with
  | nil => intro i _; exact ⟨none, rfl, fun j c h => absurd h (by simp)⟩
  | cons a cs ih =>
    intro i h
    obtain ⟨n, hn⟩ := h a (List.mem_cons_self _ _)
    by_cases hp : p n = true
    · refine ⟨some (i, a), by simp [scan, subscript_present clk hn, hp], fun j c e => ?_⟩
      simp only [Option.some.injEq, Prod.mk.injEq] at e
      rw [← e.2]
      exact List.mem_cons_self _ _
    · obtain ⟨r, h1, h2⟩ := ih (i + 1) fun d hd => h d (List.mem_cons_of_mem _ hd)
      refine ⟨r, by simp [scan, subscript_present clk hn, hp, h1], fun j c e => ?_⟩
      exact List.mem_cons_of_mem _ (h2 j c e)

theorem inv_mkdir {s : FS} (clk : Clock) (name : String) (hI : TreeInv s) :
    TreeInv (mkdir s clk name).1 := by
  obtain ⟨cur, hp⟩ := inv_childrenPresent hI
  by_cases hn : SomeNamed s.inodes cur.children name
  · obtain ⟨c, hf⟩ := firstNamed_of_someNamed hn
    obtain ⟨pre, post, _, _, hscan⟩ := scan_name_first clk hp.2 hf
    have h : mkdir s clk name = (s, Msg.alreadyExists) := by
      simp [mkdir, subscript_present clk hp.1, hscan]
    rw [h]
    exact hI
  · obtain ⟨h1, h2, h3⟩ := mkdir_view clk hp hn
    unfold TreeInv
    rw [h1, h2, funext h3]
    exact wrapInv_created hI (view_of_find hp.1) rfl rfl (notNamed_view hn)

theorem inv_touch {s : FS} (clk : Clock) (name : String) (hI : TreeInv s) :
    TreeInv (touch s clk name).1 := by
  obtain ⟨cur, hp⟩ := inv_childrenPresent hI
  by_cases hn : SomeNamed s.inodes cur.children name
  · obtain ⟨c, hf⟩ := firstNamed_of_someNamed hn
    obtain ⟨pre, post, _, _, hscan⟩ := scan_name_first clk hp.2 hf
    obtain ⟨_, _, _, _, n, hc, _⟩ := hf
    have h : touch s clk name =
        ({ s with inodes := (updateModificationTime s.inodes clk c).1 },
          Msg.touchUpdated) := by
      simp [touch, subscript_present clk hp.1, hscan]
    rw [h]
    exact inv_of_view hI rfl rfl fun k => view_uMT clk hc k
  · obtain ⟨h1, h2, h3⟩ := touch_view clk hp hn
    unfold TreeInv
    rw [h1, h2, funext h3]
    exact wrapInv_created hI (view_of_find hp.1) rfl rfl (notNamed_view hn)

theorem renamedNode_view (c u : Int) (new : String) (t0 t1 : Int) (k : Int) (n : INode) :
    (renamedNode c u new t0 t1 k n).view =
      if k = c then { n.view with name := new } else n.view := by
  unfold renamedNode INode.view
  by_cases h1 : k = c
  · subst h1
    by_cases h2 : k = u
    · subst h2; simp
    · simp [h2]
  · by_cases h2 : k = u
    · subst h2; simp [h1]
    · simp [h1, h2]

theorem inv_mv {s : FS} (clk : Clock) (old new : String) (hI : TreeInv s) :
    TreeInv (mv s clk old new).1 := by
  obtain ⟨cur, hp⟩ := inv_childrenPresent hI
  by_cases hold : SomeNamed s.inodes cur.children old
  · by_cases hnew : SomeNamed s.inodes cur.children new
    · rw [mv_collision clk hp hold hnew]
      exact hI
    · obtain ⟨c0, hf⟩ := firstNamed_of_someNamed hold
      obtain ⟨_, h1, h2, _, h4⟩ := mv_renames clk hp hf hnew
      obtain ⟨pre, post, hcs, _, _⟩ := hf
      have h5 : ∀ k, view (mv s clk old new).1.inodes k =
          renamedView (view s.inodes) c0 new k := by
        intro k
        rcases hfk : Store.find s.inodes k with _ | v
        · simp only [view, renamedView, h4, hfk, Option.map]
        · simp only [view, renamedView, h4, hfk, Option.map, renamedNode_view]
      unfold TreeInv
      rw [h1, h2, funext h5]
      exact wrapInv_renamed hI (view_of_find hp.1)
        (by show c0 ∈ cur.children; rw [hcs]; simp) (notNamed_view hnew)
  · have hscan := scan_name_none clk hp.2 hold
    have h : mv s clk old new = (s, Msg.notFound) := by
      simp [mv, subscript_present clk hp.1, hscan]
    rw [h]
    exact hI

theorem inv_chmod {s : FS} (clk : Clock) (name mode : String) (hI : TreeInv s) :
    TreeInv (chmod s clk name mode).1 := by
  obtain ⟨cur, hp⟩ := inv_childrenPresent hI
  obtain ⟨r, hscan, hr⟩ := scan_present (fun n => n.name == name) s.inodes clk cur.children 0
    hp.2
  rcases r with _ | ⟨j, c⟩
  · have h : chmod s clk name mode = (s, Msg.notFound) := by
      simp [chmod, subscript_present clk hp.1, hscan]
    rw [h]
    exact hI
  · obtain ⟨n, hn⟩ := hp.2 c (hr j c rfl)
    by_cases hm : mode.length = 9 ∨ mode.length = 3
    · have g1 := find_update_some c (fun n => { n with permissions := mode }) hn
      have h : chmod s clk name mode =
          ({ s with inodes := (updateModificationTime
              (Store.update s.inodes c fun n => { n with permissions := mode }) clk c).1 },
            Msg.permsChanged) := by
        simp [chmod, subscript_present clk hp.1, hscan, hm, subscript_present clk hn]
      rw [h]
      refine inv_of_view hI rfl rfl fun k => ?_
      show view (updateModificationTime
        (Store.update s.inodes c fun n => { n with permissions := mode }) clk c).1 k = _
      rw [view_uMT clk g1]
      exact view_update_same s.inodes c (fun n => { n with permissions := mode })
        (fun _ => rfl) k
    · have h : chmod s clk name mode = (s, Msg.invalidFormat) := by
        simp [chmod, subscript_present clk hp.1, hscan, hm]
      rw [h]
      exact hI

theorem inv_cd {s : FS} (clk : Clock) (path : String) (hI : TreeInv s) :
    TreeInv (cd s clk path).1 := by
  obtain ⟨cur, hp⟩ := inv_childrenPresent hI
  by_cases h1 : path = ""
  · simp only [cd, h1, if_true]
    exact hI
  · by_cases h2 : path = "/"
    · simp only [cd, h1, h2, if_true, if_false]
      exact inv_cursor hI rfl rfl hI.root
    · by_cases h3 : path = ".."
      · by_cases h4 : s.current_inode = 0
        · simp only [cd, h1, h2, h3, h4, if_true, if_false, ne_eq, not_true_eq_false]
          exact hI
        · simp only [cd, h1, h2, h3, h4, if_true, if_false, ne_eq, not_false_eq_true,
            subscript_present clk hp.1]
          exact inv_cursor hI rfl rfl (hI.parent _ _ (view_of_find hp.1))
      · obtain ⟨r, hscan, hr⟩ := scan_present (fun n => n.name == path && n.is_directory)
          s.inodes clk cur.children 0 hp.2
        rcases r with _ | ⟨j, c⟩
        · simp only [cd, h1, h2, h3, if_false, subscript_present clk hp.1, hscan]
          exact hI
        · simp only [cd, h1, h2, h3, if_false, subscript_present clk hp.1, hscan]
          exact inv_cursor hI rfl rfl (hI.listed _ _ (view_of_find hp.1) c (hr j c rfl))

theorem inv_fresh (t : Int) : TreeInv (FS.fresh t) := by
  have hv : ∀ k w, view (FS.fresh t).inodes k = some w →
      k = 0 ∧ w = ⟨[], 0, "/", true⟩ := by
    intro k w h
    by_cases hk : k = 0
    · subst hk
      simp only [view, FS.fresh, Store.find, if_true, Option.map, Option.some.injEq] at h
      exact ⟨rfl, h.symm⟩
    · simp [view, FS.fresh, Store.find, hk] at h
  have h0 : view (FS.fresh t).inodes 0 = some ⟨[], 0, "/", true⟩ := rfl
  refine ⟨⟨_, h0⟩, ⟨_, h0⟩, ?_, ?_, ?_, ?_, ?_, ?_, ?_⟩
  · intro k w hk x hx
    rw [(hv k w hk).2] at hx
    exact absurd hx (List.not_mem_nil _)
  · intro k w hk
    rw [(hv k w hk).2]
    exact ⟨_, h0⟩
  · show IsInt32 1
    unfold IsInt32; omega
  · intro k w hk
    rw [(hv k w hk).1]
    unfold IsInt32; omega
  · intro k w hk x hx
    rw [(hv k w hk).2] at hx
    exact absurd hx (List.not_mem_nil _)
  · intro k1 w1 k2 w2 x hk1 hk2 _ _
    rw [(hv k1 w1 hk1).1, (hv k2 w2 hk2).1]
  · intro k w hk d1 hd1
    rw [(hv k w hk).2] at hd1
    exact absurd hd1 (List.not_mem_nil _)

theorem inv_reach {t : Int} {s : FS} (hr : Reach notRm (FS.fresh t) s) : TreeInv s := by
  induction hr with
  | start => exact inv_fresh t
  | step op fuel clk _ hok hrun ih =>
    cases op with
    | mkdir name =>
      simp only [Op.run, Option.some.injEq] at hrun
      rw [← hrun]; exact inv_mkdir clk name ih
    | touch name =>
      simp only [Op.run, Option.some.injEq] at hrun
      rw [← hrun]; exact inv_touch clk name ih
    | rm name => exact absurd hok (by simp [notRm])
    | mv old new =>
      simp only [Op.run, Option.some.injEq] at hrun
      rw [← hrun]; exact inv_mv clk old new ih
    | chmod name mode =>
      simp only [Op.run, Option.some.injEq] at hrun
      rw [← hrun]; exact inv_chmod clk name mode ih
    | cd path =>
      simp only [Op.run, Option.some.injEq] at hrun
      rw [← hrun]; exact inv_cd clk path ih

/-- C14: in every state reached from the fresh store by finitely many `mkdir`, `touch`, `mv`,
`chmod` and `cd` calls with arbitrary arguments, every id listed in a children list is
stored, and no children list holds two distinct ids whose nodes bear the same name.  The
counter may wrap on the way: the node it then overwrites is listed by no other node. -/
theorem sibling_names_unique (t : Int) (s : FS) (hr : Reach notRm (FS.fresh t) s) :
    ∀ k e, Store.find s.inodes k = some e →
      (∀ x ∈ e.children, ∃ n, Store.find s.inodes x = some n) ∧
      UniqueNames s.inodes e.children := by
  intro k e hk
  have hI := inv_reach hr
  refine ⟨fun x hx => ?_, fun d1 hd1 d2 hd2 n1 n2 h1 h2 hnm => ?_⟩
  · obtain ⟨wx, hwx⟩ := hI.listed k e.view (view_of_find hk) x hx
    obtain ⟨n, hn, _⟩ := view_some hwx
    exact ⟨n, hn⟩
  · exact hI.names k e.view (view_of_find hk) d1 hd1 d2 hd2 n1.view n2.view
      (view_of_find h1) (view_of_find h2) hnm

/-- Witness of C14: the session `mkdir a`, `mkdir b`, in which the root lists two ids. -/
theorem sibling_names_unique_witness :
    Reach notRm (FS.fresh 7) exAB ∧
    ∀ k e, Store.find exAB.inodes k = some e →
      (∀ x ∈ e.children, ∃ n, Store.find exAB.inodes x = some n) ∧
      UniqueNames exAB.inodes e.children :=
  have h : Reach notRm (FS.fresh 7) exAB :=
    Reach.step (Op.mkdir "b") 0 exClock
      (Reach.step (Op.mkdir "a") 0 exClock Reach.start trivial rfl) trivial rfl
  ⟨h, sibling_names_unique 7 exAB h⟩

/-! ## The cursor stays on a stored Directory -/

theorem find_erase_ne : ∀ (m : Store) (k k' : Int), k' ≠ k →
    Store.find (Store.erase m k) k' = Store.find m k' := by
  intro m
  induction m with
  | nil => intro k k' _; rfl
  | cons kv t ih =>
    intro k k' h
    obtain ⟨a, w⟩ := kv
    by_cases hk : k = a
    · subst hk
      simp [Store.erase, Store.find, h]
    · by_cases hk' : k' = a
      · simp [Store.erase, Store.find, hk, hk']
      · simp [Store.erase, Store.find, hk, hk', ih k k' h]

theorem extends_refl (m : Store) : Extends m m := fun _ _ h => h

theorem extends_trans {m m1 m2 : Store} (h1 : Extends m m1) (h2 : Extends m1 m2) :
    Extends m m2 := fun k e h => h2 k e (h1 k e h)

theorem keeps_of_extends {m m1 : Store} (u : Int) (h : Extends m m1) : Keeps u m m1 :=
  fun k _ e he => ⟨e, h k e he, rfl, rfl⟩

theorem keeps_trans {u : Int} {m m1 m2 : Store} (h1 : Keeps u m m1) (h2 : Keeps u m1 m2) :
    Keeps u m m2 := by
  intro k hk e he
  obtain ⟨e1, a1, a2, a3⟩ := h1 k hk e he
  obtain ⟨e2, b1, b2, b3⟩ := h2 k hk e1 a1
  exact ⟨e2, b1, by rw [b2, a2], by rw [b3, a3]⟩

theorem keeps_update (u : Int) (m : Store) (k : Int) (f : INode → INode)
    (hf : ∀ e, (f e).is_directory = e.is_directory ∧ (f e).parent = e.parent) :
    Keeps u m (Store.update m k f) := by
  intro k' _ e he
  refine ⟨_, find_update_some k f he, ?_, ?_⟩
  · by_cases h : k' = k
    · simp [h, (hf e).1]
    · simp [h]
  · by_cases h : k' = k
    · simp [h, (hf e).2]
    · simp [h]

theorem keeps_update_above {u k : Int} (m : Store) (f : INode → INode) (h : u < k) :
    Keeps u m (Store.update m k f) := by
  intro k' hk' e he
  have hne : k' ≠ k := by omega
  exact ⟨e, by rw [find_update_some k f he]; simp [hne], rfl, rfl⟩

theorem keeps_erase_above {u k : Int} (m : Store) (h : u < k) :
    Keeps u m (Store.erase m k) := by
  intro k' hk' e he
  have hne : k' ≠ k := by omega
  exact ⟨e, by rw [find_erase_ne m k k' hne]; exact he, rfl, rfl⟩

theorem upChain_keeps {m m1 : Store} {u k : Int} (h : UpChain m k) (hk : k ≤ u)
    (hm : Keeps u m m1) : UpChain m1 k := by
  induction h with
  | root h1 h2 =>
    obtain ⟨e1, a1, a2, _⟩ := hm 0 hk _ h1
    exact UpChain.root a1 (by rw [a2, h2])
  | step h0 h1 h2 h3 _ ih =>
    obtain ⟨e1, a1, a2, a3⟩ := hm _ hk _ h1
    have h4 := ih (by omega)
    rw [← a3] at h4
    exact UpChain.step h0 a1 (by rw [a2, h2]) (by rw [a3]; exact h3) h4

theorem upChain_nonneg {m : Store} {k : Int} (h : UpChain m k) : 0 ≤ k := by
  cases h with
  | root _ _ => exact le_refl _
  | step h0 _ _ _ _ => omega

theorem upChain_root {m : Store} {k : Int} (h : UpChain m k) : UpChain m 0 := by
  induction h with
  | root h1 h2 => exact UpChain.root h1 h2
  | step _ _ _ _ _ ih => exact ih

theorem upChain_dir {m : Store} {k : Int} (h : UpChain m k) :
    ∃ e, Store.find m k = some e ∧ e.is_directory = true := by
  cases h with
  | root h1 h2 => exact ⟨_, h1, h2⟩
  | step _ h1 h2 _ _ => exact ⟨_, h1, h2⟩

theorem upChain_parent {m : Store} {k : Int} {e : INode} (h : UpChain m k) (hk : k ≠ 0)
    (he : Store.find m k = some e) : UpChain m e.parent := by
  cases h with
  | root _ _ => exact absurd rfl hk
  | step _ h1 _ _ h4 =>
    rw [he] at h1
    simp only [Option.some.injEq] at h1
    rw [h1]
    exact h4

theorem tidy_insert_new {c : Int} {m : Store} (k t : Int) (h : Tidy c m) (hk : k < c)
    (hc : 0 ≤ c) : Tidy c (Store.insert m k (INode.new t)) := by
  obtain ⟨h1, h2, h3⟩ := h
  refine ⟨below_insert k _ h1 hk (nodeBelow_new c t hc), ?_, ?_⟩
  · intro kv hkv x hx
    rcases mem_insert m k _ kv hkv with e | hm
    · rw [e] at hx; exact absurd hx (List.not_mem_nil _)
    · exact h2 kv hm x hx
  · intro kv hkv x hx xe hxe hd
    rcases mem_insert m k _ kv hkv with e | hm
    · rw [e] at hx; exact absurd hx (List.not_mem_nil _)
    · rcases mem_insert m k _ (x, xe) hxe with e | hm2
      · simp only [Prod.mk.injEq] at e
        rw [e.2] at hd
        exact absurd hd (by simp [INode.new])
      · exact h3 kv hm x hx xe hm2 hd

theorem tidy_update {c : Int} {m : Store} (k : Int) (f : INode → INode) (h : Tidy c m)
    (hf : ∀ e, (∀ x ∈ (f e).children, x ∈ e.children) ∧
      (f e).is_directory = e.is_directory ∧ (f e).parent = e.parent) :
    Tidy c (Store.update m k f) := by
  obtain ⟨h1, h2, h3⟩ := h
  refine ⟨below_update k f h1 fun e he => ⟨fun x hx => he.1 x ((hf e).1 x hx), ?_⟩, ?_, ?_⟩
  · rw [(hf e).2.2]; exact he.2
  · intro kv hkv x hx
    obtain ⟨e, a1, a2⟩ := mem_update m k f kv hkv
    rcases a2 with ⟨_, a2⟩ | ⟨_, a2⟩
    · rw [a2] at hx; exact h2 (kv.1, e) a1 x hx
    · rw [a2] at hx; exact h2 (kv.1, e) a1 x ((hf e).1 x hx)
  · intro kv hkv x hx xe hxe hd
    obtain ⟨e, a1, a2⟩ := mem_update m k f kv hkv
    obtain ⟨e', b1, b2⟩ := mem_update m k f (x, xe) hxe
    have hx' : x ∈ e.children := by
      rcases a2 with ⟨_, a2⟩ | ⟨_, a2⟩
      · rw [a2] at hx; exact hx
      · rw [a2] at hx; exact (hf e).1 x hx
    have hxe' : xe.is_directory = e'.is_directory ∧ xe.parent = e'.parent := by
      rcases b2 with ⟨_, b2⟩ | ⟨_, b2⟩
      · simp only at b2; rw [b2]; exact ⟨rfl, rfl⟩
      · simp only at b2; rw [b2]; exact (hf e').2
    rw [hxe'.2]
    exact h3 (kv.1, e) a1 x hx' e' b1 (by rw [← hxe'.1]; exact hd)

theorem tidy_erase {c : Int} {m : Store} (k : Int) (h : Tidy c m) :
    Tidy c (Store.erase m k) := by
  obtain ⟨h1, h2, h3⟩ := h
  refine ⟨below_erase k h1, ?_, ?_⟩
  · intro kv hkv x hx
    exact h2 kv (mem_erase m k kv hkv) x hx
  · intro kv hkv x hx xe hxe hd
    exact h3 kv (mem_erase m k kv hkv) x hx xe (mem_erase m k _ hxe) hd

theorem tidy_subscript {c : Int} {m m1 : Store} {clk clk1 : Clock} {k : Int} {node : INode}
    (h : Tidy c m) (hk : k < c) (hc : 0 ≤ c) (hs : subscript m clk k = (node, m1, clk1)) :
    Tidy c m1 ∧ Extends m m1 ∧ Store.find m1 k = some node := by
  have hfind := find_subscript hs
  unfold subscript at hs
  cases hf : Store.find m k with
  | none =>
    simp only [hf, Prod.mk.injEq] at hs
    obtain ⟨_, h2, _⟩ := hs
    refine ⟨h2 ▸ tidy_insert_new k _ h hk hc, fun k' e he => ?_, by rw [hfind]; simp⟩
    rw [hfind]
    have hne : k' ≠ k := by
      intro e1; rw [e1, hf] at he; exact absurd he (by simp)
    simp [hne, he]
  | some v =>
    simp only [hf, Prod.mk.injEq] at hs
    obtain ⟨_, h2, _⟩ := hs
    exact ⟨h2 ▸ h, h2 ▸ extends_refl m, by rw [hfind]; simp⟩

theorem tidy_scan (p : INode → Bool) {c : Int} (hc : 0 ≤ c) :
    ∀ (cs : List Int) (i : Nat) (m m1 : Store) (clk clk1 : Clock) (r : Option (Nat × Int)),
      Tidy c m → (∀ x ∈ cs, x < c) → scan p cs i m clk = (r, m1, clk1) →
      Tidy c m1 ∧ Extends m m1 ∧
      ∀ j x, r = some (j, x) → x ∈ cs ∧ ∃ e, Store.find m1 x = some e ∧ p e = true := by
  intro cs
  induction cs with
  | nil =>
    intro i m m1 clk clk1 r h _ hs
    simp only [scan, Prod.mk.injEq] at hs
    obtain ⟨rfl, rfl, _⟩ := hs
    exact ⟨h, extends_refl _, fun j x hx => by simp at hx⟩
  | cons a cs ih =>
    intro i m m1 clk clk1 r h hcs hs
    rcases hsub : subscript m clk a with ⟨node, m2, clk2⟩
    obtain ⟨h2, hext, hfa⟩ := tidy_subscript h (hcs a (List.mem_cons_self _ _)) hc hsub
    simp only [scan, hsub] at hs
    by_cases hp : p node = true
    · simp only [hp, if_true, Prod.mk.injEq] at hs
      obtain ⟨rfl, rfl, _⟩ := hs
      refine ⟨h2, hext, fun j x hx => ?_⟩
      simp only [Option.some.injEq, Prod.mk.injEq] at hx
      obtain ⟨_, rfl⟩ := hx
      exact ⟨List.mem_cons_self _ _, node, hfa, hp⟩
    · simp only [hp, if_false] at hs
      obtain ⟨h3, h4, h5⟩ := ih (i + 1) m2 m1 clk2 clk1 r h2
        (fun x hx => hcs x (List.mem_cons_of_mem _ hx)) hs
      exact ⟨h3, extends_trans hext h4,
        fun j x hx => ⟨List.mem_cons_of_mem _ (h5 j x hx).1, (h5 j x hx).2⟩⟩

theorem tidy_uMT {c : Int} {m : Store} {k : Int} {v : INode} (clk : Clock) (u : Int)
    (h : Tidy c m) (hv : Store.find m k = some v) :
    Tidy c (updateModificationTime m clk k).1 ∧
    Keeps u m (updateModificationTime m clk k).1 := by
  rw [updateModificationTime_present clk hv]
  exact ⟨tidy_update k _ h fun e => ⟨fun x hx => hx, rfl, rfl⟩,
    keeps_update u m k _ fun e => ⟨rfl, rfl⟩⟩

theorem tidy_rmLoop {c u : Int} (hc : 0 ≤ c) :
    ∀ (fuel : Nat) (st : List Int) (m : Store) (clk : Clock) (r : Store × Clock),
      Tidy c m → (∀ x ∈ st, u < x ∧ x < c) → rmLoop fuel st m clk = some r →
      Tidy c r.1 ∧ Keeps u m r.1 := by
  intro fuel
  induction fuel with
  | zero =>
    intro st m clk r h _ hr
    cases st with
    | nil =>
      simp only [rmLoop, Option.some.injEq] at hr
      rw [← hr]; exact ⟨h, keeps_of_extends u (extends_refl m)⟩
    | cons a st => simp [rmLoop] at hr
  | succ f ih =>
    intro st m clk r h hst hr
    cases st with
    | nil =>
      simp only [rmLoop, Option.some.injEq] at hr
      rw [← hr]; exact ⟨h, keeps_of_extends u (extends_refl m)⟩
    | cons a st =>
      have ha := hst a (List.mem_cons_self _ _)
      rcases hsub : subscript m clk a with ⟨node, m1, clk1⟩
      obtain ⟨h1, hext, hfa⟩ := tidy_subscript h ha.2 hc hsub
      have hmem := mem_of_find m1 a node hfa
      simp only [rmLoop, hsub] at hr
      obtain ⟨g1, g2⟩ := ih _ _ _ r (tidy_erase a h1) (by
        intro x hx
        split at hx
        · rcases List.mem_append.mp hx with hx | hx
          · have hx' := List.mem_reverse.mp hx
            have a1 := h1.2.1 (a, node) hmem x hx'
            have a2 := (h1.1 (a, node) hmem).2.1 x hx'
            simp only at a1
            exact ⟨by omega, a2⟩
          · exact hst x (List.mem_cons_of_mem _ hx)
        · exact hst x (List.mem_cons_of_mem _ hx)) hr
      exact ⟨g1, keeps_trans (keeps_of_extends u hext)
        (keeps_trans (keeps_erase_above m1 ha.1) g2)⟩

theorem mem_subscript {m m1 : Store} {clk clk1 : Clock} {k : Int} {node : INode}
    (hs : subscript m clk k = (node, m1, clk1)) (kv : Int × INode) (h : kv ∈ m1) :
    kv = (k, node) ∨ kv ∈ m := by
  unfold subscript at hs
  cases hf : Store.find m k with
  | none =>
    simp only [hf, Prod.mk.injEq] at hs
    obtain ⟨h1, h2, _⟩ := hs
    rw [← h2] at h
    rw [← h1]
    exact mem_insert m k _ kv h
  | some v =>
    simp only [hf, Prod.mk.injEq] at hs
    obtain ⟨_, h2, _⟩ := hs
    rw [← h2] at h
    exact Or.inr h

theorem extends_subscript {m m1 : Store} {clk clk1 : Clock} {k : Int} {node : INode}
    (hs : subscript m clk k = (node, m1, clk1)) : Extends m m1 := by
  intro k' e he
  rw [find_subscript hs]
  by_cases hk : k' = k
  · subst hk
    unfold subscript at hs
    simp only [he, Prod.mk.injEq] at hs
    simp [hs.1]
  · simp [hk, he]

/-- The nodes of the store left by the tail of `mkdir` / `touch`, when the counter `c` is
above every stored id: the new node under `c`, and the nodes as they were, the cursor with
`c` appended to its children. -/
theorem mem_created {m m5 : Store} {u c : Int} {new n5 : INode} {clk3 clk4 : Clock}
    (hb : StoreBelow c m)
    (h5 : subscript (Store.update m u fun n => { n with children := n.children ++ [c] })
      clk3 c = (n5, m5, clk4)) (kv : Int × INode)
    (h : kv ∈ Store.update m5 c fun _ => new) :
    kv = (c, new) ∨
    (kv.1 < c ∧ ∃ e, (kv.1, e) ∈ m ∧
      ((kv.1 ≠ u ∧ kv.2 = e) ∨
       (kv.1 = u ∧ kv.2 = { e with children := e.children ++ [c] }))) := by
  obtain ⟨e5, a1, a2⟩ := mem_update m5 c _ kv h
  rcases a2 with ⟨a2, a3⟩ | ⟨a2, a3⟩
  · right
    rcases mem_subscript h5 _ a1 with b | b
    · simp only [Prod.mk.injEq] at b
      exact absurd b.1 a2
    · obtain ⟨e, c1, c2⟩ := mem_update m u _ _ b
      simp only at c2
      refine ⟨(hb _ c1).1, e, c1, ?_⟩
      rw [a3]
      exact c2
  · left
    exact Prod.ext a2 a3

theorem tidy_created {m m5 : Store} {u c : Int} {new n5 : INode} {clk3 clk4 : Clock}
    (h : Tidy c m) (hu : u < c) (hch : new.children = []) (hpar : new.parent = u)
    (h5 : subscript (Store.update m u fun n => { n with children := n.children ++ [c] })
      clk3 c = (n5, m5, clk4)) :
    Tidy (c + 1) (Store.update m5 c fun _ => new) ∧
    Keeps u m (Store.update m5 c fun _ => new) := by
  obtain ⟨h1, h2, h3⟩ := h
  have hmem := fun kv hkv => @mem_created m m5 u c new n5 clk3 clk4 h1 h5 kv hkv
  refine ⟨⟨?_, ?_, ?_⟩, ?_⟩
  · intro kv hkv
    rcases hmem kv hkv with e | ⟨a1, e, a2, a3⟩
    · rw [e]
      refine ⟨by show c < c + 1; omega, fun x hx => ?_, by show new.parent < c + 1; omega⟩
      rw [hch] at hx; exact absurd hx (List.not_mem_nil _)
    · obtain ⟨_, b1, b2⟩ := h1 _ a2
      simp only at b1 b2
      rcases a3 with ⟨_, a3⟩ | ⟨_, a3⟩
      · rw [a3]
        exact ⟨by omega, fun x hx => by have := b1 x hx; omega, by omega⟩
      · rw [a3]
        refine ⟨by omega, fun x hx => ?_, by show e.parent < c + 1; omega⟩
        rcases List.mem_append.mp hx with hx | hx
        · have := b1 x hx; omega
        · have e1 : x = c := by simpa using hx
          omega
  · intro kv hkv x hx
    rcases hmem kv hkv with e | ⟨a1, e, a2, a3⟩
    · rw [e, hch] at hx; exact absurd hx (List.not_mem_nil _)
    · rcases a3 with ⟨_, a3⟩ | ⟨a4, a3⟩
      · rw [a3] at hx; exact h2 _ a2 x hx
      · rw [a3] at hx
        rcases List.mem_append.mp hx with hx | hx
        · exact h2 _ a2 x hx
        · have e1 : x = c := by simpa using hx
          omega
  · intro kv hkv x hx xe hxe hd
    rcases hmem kv hkv with e | ⟨a1, e, a2, a3⟩
    · rw [e, hch] at hx; exact absurd hx (List.not_mem_nil _)
    · have hx' : x ∈ e.children ∨ (kv.1 = u ∧ x = c) := by
        rcases a3 with ⟨_, a3⟩ | ⟨a4, a3⟩
        · rw [a3] at hx; exact Or.inl hx
        · rw [a3] at hx
          rcases List.mem_append.mp hx with hx | hx
          · exact Or.inl hx
          · exact Or.inr ⟨a4, by simpa using hx⟩
      rcases hmem (x, xe) hxe with e2 | ⟨b1, e', b2, b3⟩
      · simp only [Prod.mk.injEq] at e2
        rcases hx' with hx' | hx'
        · have := (h1 _ a2).2.1 x hx'
          omega
        · rw [e2.2, hpar, hx'.1]
      · simp only at b1 b2 b3
        rcases hx' with hx' | hx'
        · have hxe' : xe.is_directory = e'.is_directory ∧ xe.parent = e'.parent := by
            rcases b3 with ⟨_, b3⟩ | ⟨_, b3⟩
            · rw [b3]; exact ⟨rfl, rfl⟩
            · rw [b3]; exact ⟨rfl, rfl⟩
          rw [hxe'.2]
          exact h3 _ a2 x hx' e' b2 (by rw [← hxe'.1]; exact hd)
        · omega
  · exact keeps_trans
      (keeps_update u m u (fun n => { n with children := n.children ++ [c] })
        fun e => ⟨rfl, rfl⟩)
      (keeps_trans (keeps_of_extends u (extends_subscript h5))
        (keeps_update_above m5 _ hu))

theorem sound_mkdir (s : FS) (clk : Clock) (name : String) (h : Sound s)
    (hroom : s.next_inode_id < 2147483647) : Sound (mkdir s clk name).1 := by
  obtain ⟨hc1, hu, ht, hup⟩ := h
  have hc0 : 0 ≤ s.next_inode_id := by omega
  obtain ⟨cur, hcur, _⟩ := upChain_dir hup
  have hcb := (ht.1 _ (mem_of_find _ _ _ hcur)).2
  rcases hscan : scan (fun n => n.name == name) cur.children 0 s.inodes clk with ⟨r, m2, clk2⟩
  obtain ⟨ht2, hext2, _⟩ := tidy_scan _ hc0 _ _ _ _ _ _ _ ht hcb.1 hscan
  cases r with
  | some ic =>
    simp only [mkdir, subscript_present clk hcur, hscan]
    exact ⟨hc1, hu, ht2, upChain_keeps hup (le_refl _) (keeps_of_extends _ hext2)⟩
  | none =>
    have hcur2 := hext2 _ _ hcur
    rcases h5 : subscript (Store.update m2 s.current_inode
      fun n => { n with children := n.children ++ [s.next_inode_id] }) clk2.tick
      s.next_inode_id with ⟨n5, m5, clk4⟩
    obtain ⟨g1, g2⟩ := @tidy_created m2 m5 s.current_inode s.next_inode_id
      { INode.new clk2.now with
        id := s.next_inode_id, name := name, is_directory := true,
        parent := s.current_inode } n5 clk2.tick clk4 ht2 hu rfl rfl h5
    obtain ⟨e6, he6, _⟩ := g2 _ (le_refl _) _ hcur2
    obtain ⟨g3, g4⟩ := tidy_uMT clk4 s.current_inode g1 he6
    simp only [mkdir, subscript_present clk hcur, hscan, subscript_present clk2.tick hcur2, h5,
      wrapInt32_succ hc1 hroom]
    exact ⟨by show (1 : Int) ≤ s.next_inode_id + 1; omega,
      by show s.current_inode < s.next_inode_id + 1; omega, g3,
      upChain_keeps hup (le_refl _)
        (keeps_trans (keeps_of_extends _ hext2) (keeps_trans g2 g4))⟩

theorem sound_touch (s : FS) (clk : Clock) (name : String) (h : Sound s)
    (hroom : s.next_inode_id < 2147483647) : Sound (touch s clk name).1 := by
  obtain ⟨hc1, hu, ht, hup⟩ := h
  have hc0 : 0 ≤ s.next_inode_id := by omega
  obtain ⟨cur, hcur, _⟩ := upChain_dir hup
  have hcb := (ht.1 _ (mem_of_find _ _ _ hcur)).2
  rcases hscan : scan (fun n => n.name == name) cur.children 0 s.inodes clk with ⟨r, m2, clk2⟩
  obtain ⟨ht2, hext2, hq⟩ := tidy_scan _ hc0 _ _ _ _ _ _ _ ht hcb.1 hscan
  cases r with
  | some ic =>
    obtain ⟨i, x⟩ := ic
    obtain ⟨_, e, he, _⟩ := hq i x rfl
    obtain ⟨g3, g4⟩ := tidy_uMT clk2 s.current_inode ht2 he
    simp only [touch, subscript_present clk hcur, hscan]
    exact ⟨hc1, hu, g3,
      upChain_keeps hup (le_refl _) (keeps_trans (keeps_of_extends _ hext2) g4)⟩
  | none =>
    have hcur2 := hext2 _ _ hcur
    rcases h5 : subscript (Store.update m2 s.current_inode
      fun n => { n with children := n.children ++ [s.next_inode_id] }) clk2.tick
      s.next_inode_id with ⟨n5, m5, clk4⟩
    obtain ⟨g1, g2⟩ := @tidy_created m2 m5 s.current_inode s.next_inode_id
      { INode.new clk2.now with
        id := s.next_inode_id, name := name, is_directory := false,
        parent := s.current_inode } n5 clk2.tick clk4 ht2 hu rfl rfl h5
    obtain ⟨e6, he6, _⟩ := g2 _ (le_refl _) _ hcur2
    obtain ⟨g3, g4⟩ := tidy_uMT clk4 s.current_inode g1 he6
    simp only [touch, subscript_present clk hcur, hscan, subscript_present clk2.tick hcur2, h5,
      wrapInt32_succ hc1 hroom]
    exact ⟨by show (1 : Int) ≤ s.next_inode_id + 1; omega,
      by show s.current_inode < s.next_inode_id + 1; omega, g3,
      upChain_keeps hup (le_refl _)
        (keeps_trans (keeps_of_extends _ hext2) (keeps_trans g2 g4))⟩

theorem sound_rm (fuel : Nat) (s : FS) (clk : Clock) (name : String) (r : FS × Msg)
    (h : Sound s) (hr : rm fuel s clk name = some r) : Sound r.1 := by
  obtain ⟨hc1, hu, ht, hup⟩ := h
  have hc0 : 0 ≤ s.next_inode_id := by omega
  obtain ⟨cur, hcur, _⟩ := upChain_dir hup
  have hcb := (ht.1 _ (mem_of_find _ _ _ hcur)).2
  have hca := ht.2.1 _ (mem_of_find _ _ _ hcur)
  rcases hscan : scan (fun n => n.name == name) cur.children 0 s.inodes clk with ⟨q, m2, clk2⟩
  obtain ⟨ht2, hext2, hq⟩ := tidy_scan _ hc0 _ _ _ _ _ _ _ ht hcb.1 hscan
  have hk2 := keeps_of_extends s.current_inode hext2
  cases q with
  | none =>
    simp only [rm, subscript_present clk hcur, hscan, Option.some.injEq] at hr
    rw [← hr]
    exact ⟨hc1, hu, ht2, upChain_keeps hup (le_refl _) hk2⟩
  | some ic =>
    obtain ⟨i, x⟩ := ic
    obtain ⟨hmem, e, he, _⟩ := hq i x rfl
    simp only [rm, subscript_present clk hcur, hscan, subscript_present clk2 he] at hr
    split at hr
    · simp only [Option.some.injEq] at hr
      rw [← hr]
      exact ⟨hc1, hu, ht2, upChain_keeps hup (le_refl _) hk2⟩
    · have ht4 := tidy_update s.current_inode
        (fun n => { n with children := n.children.eraseIdx i }) ht2
        (fun e => ⟨fun x hx => mem_eraseIdx_self i hx, rfl, rfl⟩)
      have hk4 := keeps_update s.current_inode m2 s.current_inode
        (fun n => { n with children := n.children.eraseIdx i }) (fun e => ⟨rfl, rfl⟩)
      cases hl : rmLoop fuel [derefAfterErase cur.children i x]
          (Store.update m2 s.current_inode
            fun n => { n with children := n.children.eraseIdx i }) clk2 with
      | none => simp [hl] at hr
      | some w =>
        have hd := derefAfterErase_mem cur.children i x hmem
        obtain ⟨ht5, hk5⟩ := @tidy_rmLoop s.next_inode_id s.current_inode hc0 _ _ _ _ w ht4
          (by
            intro y hy
            simp only [List.mem_singleton] at hy
            rw [hy]
            exact ⟨hca _ hd, hcb.1 _ hd⟩) hl
        have hk := keeps_trans hk2 (keeps_trans hk4 hk5)
        obtain ⟨e6, he6, _⟩ := hk _ (le_refl _) _ hcur
        obtain ⟨g3, g4⟩ := tidy_uMT w.2 s.current_inode ht5 he6
        simp only [hl, Option.some.injEq] at hr
        rw [← hr]
        exact ⟨hc1, hu, g3, upChain_keeps hup (le_refl _) (keeps_trans hk g4)⟩

theorem sound_mv (s : FS) (clk : Clock) (a b : String) (h : Sound s) :
    Sound (mv s clk a b).1 := by
  obtain ⟨hc1, hu, ht, hup⟩ := h
  have hc0 : 0 ≤ s.next_inode_id := by omega
  obtain ⟨cur, hcur, _⟩ := upChain_dir hup
  have hcb := (ht.1 _ (mem_of_find _ _ _ hcur)).2
  rcases hscan : scan (fun n => n.name == a) cur.children 0 s.inodes clk with ⟨q, m2, clk2⟩
  obtain ⟨ht2, hext2, hq⟩ := tidy_scan _ hc0 _ _ _ _ _ _ _ ht hcb.1 hscan
  have hk2 := keeps_of_extends s.current_inode hext2
  cases q with
  | none =>
    simp only [mv, subscript_present clk hcur, hscan]
    exact ⟨hc1, hu, ht2, upChain_keeps hup (le_refl _) hk2⟩
  | some ic =>
    obtain ⟨i, x⟩ := ic
    obtain ⟨_, e, he, _⟩ := hq i x rfl
    have hcur2 := hext2 _ _ hcur
    rcases hscan2 : scan (fun n => n.name == b) cur.children 0 m2 clk2 with ⟨q2, m4, clk4⟩
    obtain ⟨ht4, hext4, _⟩ := tidy_scan _ hc0 _ _ _ _ _ _ _ ht2 hcb.1 hscan2
    have hk4 := keeps_trans hk2 (keeps_of_extends s.current_inode hext4)
    cases q2 with
    | some jc =>
      simp only [mv, subscript_present clk hcur, hscan, subscript_present clk2 hcur2, hscan2]
      exact ⟨hc1, hu, ht4, upChain_keeps hup (le_refl _) hk4⟩
    | none =>
      have he4 := hext4 _ _ he
      have ht6 := tidy_update x (fun n => { n with name := b }) ht4
        (fun e => ⟨fun y hy => hy, rfl, rfl⟩)
      have hk6 := keeps_update s.current_inode m4 x (fun n => { n with name := b })
        (fun e => ⟨rfl, rfl⟩)
      have he6 := find_update_some x (fun n => { n with name := b }) he4
      have h7 := tidy_uMT clk4 s.current_inode ht6 he6
      rw [updateModificationTime_present clk4 he6] at h7
      obtain ⟨ht7, hk7⟩ := h7
      have hk := keeps_trans hk4 (keeps_trans hk6 hk7)
      obtain ⟨e8, he8, _⟩ := hk _ (le_refl _) _ hcur
      obtain ⟨ht8, hk8⟩ := tidy_uMT clk4.tick s.current_inode ht7 he8
      simp only [mv, subscript_present clk hcur, hscan, subscript_present clk2 hcur2, hscan2,
        subscript_present clk4 he4, updateModificationTime_present clk4 he6]
      exact ⟨hc1, hu, ht8, upChain_keeps hup (le_refl _) (keeps_trans hk hk8)⟩

theorem sound_chmod (s : FS) (clk : Clock) (name mode : String) (h : Sound s) :
    Sound (chmod s clk name mode).1 := by
  obtain ⟨hc1, hu, ht, hup⟩ := h
  have hc0 : 0 ≤ s.next_inode_id := by omega
  obtain ⟨cur, hcur, _⟩ := upChain_dir hup
  have hcb := (ht.1 _ (mem_of_find _ _ _ hcur)).2
  rcases hscan : scan (fun n => n.name == name) cur.children 0 s.inodes clk with ⟨q, m2, clk2⟩
  obtain ⟨ht2, hext2, hq⟩ := tidy_scan _ hc0 _ _ _ _ _ _ _ ht hcb.1 hscan
  have hk2 := keeps_of_extends s.current_inode hext2
  cases q with
  | none =>
    simp only [chmod, subscript_present clk hcur, hscan]
    exact ⟨hc1, hu, ht2, upChain_keeps hup (le_refl _) hk2⟩
  | some ic =>
    obtain ⟨i, x⟩ := ic
    obtain ⟨_, e, he, _⟩ := hq i x rfl
    by_cases hm : mode.length = 9 ∨ mode.length = 3
    · have ht4 := tidy_update x (fun n => { n with permissions := mode }) ht2
        (fun e => ⟨fun y hy => hy, rfl, rfl⟩)
      have hk4 := keeps_update s.current_inode m2 x (fun n => { n with permissions := mode })
        (fun e => ⟨rfl, rfl⟩)
      have he4 := find_update_some x (fun n => { n with permissions := mode }) he
      obtain ⟨ht5, hk5⟩ := tidy_uMT clk2 s.current_inode ht4 he4
      simp only [chmod, subscript_present clk hcur, hscan, hm, if_true,
        subscript_present clk2 he]
      exact ⟨hc1, hu, ht5,
        upChain_keeps hup (le_refl _) (keeps_trans hk2 (keeps_trans hk4 hk5))⟩
    · simp only [chmod, subscript_present clk hcur, hscan, hm, if_false]
      exact ⟨hc1, hu, ht2, upChain_keeps hup (le_refl _) hk2⟩

theorem sound_cd (s : FS) (clk : Clock) (path : String) (h : Sound s) :
    Sound (cd s clk path).1 := by
  obtain ⟨hc1, hu, ht, hup⟩ := h
  have hc0 : 0 ≤ s.next_inode_id := by omega
  obtain ⟨cur, hcur, _⟩ := upChain_dir hup
  have hmc := mem_of_find _ _ _ hcur
  have hcb := (ht.1 _ hmc).2
  by_cases h1 : path = ""
  · simp only [cd, h1, if_true]
    exact ⟨hc1, hu, ht, hup⟩
  · by_cases h2 : path = "/"
    · simp only [cd, h1, h2, if_true, if_false]
      exact ⟨hc1, by show (0 : Int) < s.next_inode_id; omega, ht, upChain_root hup⟩
    · by_cases h3 : path = ".."
      · by_cases h4 : s.current_inode = 0
        · simp only [cd, h1, h2, h3, h4, if_true, if_false, ne_eq, not_true_eq_false]
          exact ⟨hc1, hu, ht, hup⟩
        · simp only [cd, h1, h2, h3, h4, if_true, if_false, ne_eq, not_false_eq_true,
            subscript_present clk hcur]
          exact ⟨hc1, hcb.2, ht, upChain_parent hup h4 hcur⟩
      · rcases hscan : scan (fun n => n.name == path && n.is_directory) cur.children 0
          s.inodes clk with ⟨q, m2, clk2⟩
        obtain ⟨ht2, hext2, hq⟩ := tidy_scan _ hc0 _ _ _ _ _ _ _ ht hcb.1 hscan
        have hup2 := upChain_keeps hup (le_refl _) (keeps_of_extends s.current_inode hext2)
        cases q with
        | none =>
          simp only [cd, h1, h2, h3, if_false, subscript_present clk hcur, hscan]
          exact ⟨hc1, hu, ht2, hup2⟩
        | some ic =>
          obtain ⟨i, x⟩ := ic
          obtain ⟨hmem, e, he, hp⟩ := hq i x rfl
          have hdir : e.is_directory = true := by
            simp only [Bool.and_eq_true] at hp
            exact hp.2
          have hmc2 := mem_of_find _ _ _ (hext2 _ _ hcur)
          have hpar : e.parent = s.current_inode :=
            ht2.2.2 _ hmc2 x hmem e (mem_of_find _ _ _ he) hdir
          have hlt : s.current_inode < x := ht2.2.1 _ hmc2 x hmem
          have h0 := upChain_nonneg hup
          simp only [cd, h1, h2, h3, if_false, subscript_present clk hcur, hscan]
          refine ⟨hc1, hcb.1 x hmem, ht2, ?_⟩
          refine UpChain.step (by show (0 : Int) < x; omega) he hdir
            (by rw [hpar]; exact hlt) ?_
          rw [hpar]
          exact hup2

theorem sound_fresh (t : Int) : Sound (FS.fresh t) := by
  refine ⟨le_refl _, by show (0 : Int) < 1; omega, ⟨?_, ?_, ?_⟩, UpChain.root rfl rfl⟩
  · intro kv hkv
    simp only [FS.fresh, List.mem_singleton] at hkv
    rw [hkv]
    exact ⟨by show (0 : Int) < 1; omega, fun x hx => absurd hx (List.not_mem_nil _),
      by show (0 : Int) < 1; omega⟩
  · intro kv hkv x hx
    simp only [FS.fresh, List.mem_singleton] at hkv
    rw [hkv] at hx
    exact absurd hx (List.not_mem_nil _)
  · intro kv hkv x hx
    simp only [FS.fresh, List.mem_singleton] at hkv
    rw [hkv] at hx
    exact absurd hx (List.not_mem_nil _)

theorem sound_reach {t : Int} {s : FS} (hr : Reach counterRoom (FS.fresh t) s) :
    Sound s := by
  induction hr with
  | start => exact sound_fresh t
  | step op fuel clk _ hok hrun ih =>
    cases op with
    | mkdir name =>
      simp only [Op.run, Option.some.injEq] at hrun
      rw [← hrun]; exact sound_mkdir _ clk name ih hok
    | touch name =>
      simp only [Op.run, Option.some.injEq] at hrun
      rw [← hrun]; exact sound_touch _ clk name ih hok
    | rm name =>
      simp only [Op.run, Option.map_eq_some'] at hrun
      obtain ⟨r, h1, h2⟩ := hrun
      rw [← h2]; exact sound_rm fuel _ clk name r ih h1
    | mv old new =>
      simp only [Op.run, Option.some.injEq] at hrun
      rw [← hrun]; exact sound_mv _ clk old new ih
    | chmod name mode =>
      simp only [Op.run, Option.some.injEq] at hrun
      rw [← hrun]; exact sound_chmod _ clk name mode ih
    | cd path =>
      simp only [Op.run, Option.some.injEq] at hrun
      rw [← hrun]; exact sound_cd _ clk path ih

theorem exName_injective {i j : Nat} (h : exName i = exName j) : i = j := by
  have hd : ∀ a < 10, ∀ b < 10, Char.ofNat (48 + a) = Char.ofNat (48 + b) → a = b := by
    decide
  have hl : ∀ l1 l2 : List Nat, (∀ a ∈ l1, a < 10) → (∀ b ∈ l2, b < 10) →
      (l1.map fun d => Char.ofNat (48 + d)) = (l2.map fun d => Char.ofNat (48 + d)) →
      l1 = l2 := by
    intro l1
    induction l1 with
    | nil =>
      intro l2 _ _ e
      cases l2 with
      | nil => rfl
      | cons b l2 => simp at e
    | cons a l1 ih =>
      intro l2 h1 h2 e
      cases l2 with
      | nil => simp at e
      | cons b l2 =>
        simp only [List.map_cons, List.cons.injEq] at e
        have e1 := hd a (h1 a (List.mem_cons_self _ _)) b (h2 b (List.mem_cons_self _ _)) e.1
        have e2 := ih l2 (fun x hx => h1 x (List.mem_cons_of_mem _ hx))
          (fun x hx => h2 x (List.mem_cons_of_mem _ hx)) e.2
        rw [e1, e2]
  have h1 : (Nat.digits 10 i).map (fun d => Char.ofNat (48 + d)) =
      (Nat.digits 10 j).map (fun d => Char.ofNat (48 + d)) := congrArg String.data h
  exact Nat.digits_inj_iff.mp
    (hl _ _ (fun a ha => Nat.digits_lt_base (by decide) ha)
      (fun b hb => Nat.digits_lt_base (by decide) hb) h1)

theorem exFill_succ (n : Nat) :
    exFill (n + 1) = (touch (exFill n) exClock (exName (n + 1))).1 := rfl

theorem reach_exFill (n : Nat) : Reach anyOp (FS.fresh 0) (exFill n) := by
  induction n with
  | zero => exact Reach.start
  | succ n ih => exact Reach.step (Op.touch (exName (n + 1))) 0 exClock ih trivial rfl

/-- While fewer than 2^32 files were created in the root, the cursor is the root, the counter
is the wrapped count, and the root is a Directory whose children are stored under the names
given so far. -/
theorem exFill_inv : ∀ n : Nat, n ≤ 4294967295 →
    (exFill n).current_inode = 0 ∧
    (exFill n).next_inode_id = wrapInt32 (1 + n) ∧
    ∃ cur, Store.find (exFill n).inodes 0 = some cur ∧ cur.is_directory = true ∧
      ∀ x ∈ cur.children, ∃ wx, view (exFill n).inodes x = some wx ∧
        ∃ i, 1 ≤ i ∧ i ≤ n ∧ wx.name = exName i := by
  intro n
  induction n with
  | zero =>
    intro _
    exact ⟨rfl, by decide, _, rfl, rfl, fun x hx => absurd hx (List.not_mem_nil _)⟩
  | succ n ih =>
    intro hn
    obtain ⟨h1, h2, cur, hcur, hd, hch⟩ := ih (by omega)
    have hp : ChildrenPresent (exFill n) cur := by
      refine ⟨by rw [h1]; exact hcur, fun c hc => ?_⟩
      obtain ⟨wx, hwx, _⟩ := hch c hc
      obtain ⟨e, he, _⟩ := view_some hwx
      exact ⟨e, he⟩
    have hno : ¬ SomeNamed (exFill n).inodes cur.children (exName (n + 1)) := by
      rintro ⟨x, hx, e, he, hname⟩
      obtain ⟨wx, hwx, i, _, i2, i3⟩ := hch x hx
      rw [view_of_find he] at hwx
      simp only [Option.some.injEq] at hwx
      have e1 : exName i = exName (n + 1) := by rw [← i3, ← hwx, ← hname]; rfl
      have := exName_injective e1
      omega
    obtain ⟨g1, g2, g3⟩ := touch_view exClock hp hno
    have hc : (0 : Int) ≠ wrapInt32 (1 + n) := by
      unfold wrapInt32; omega
    have hv0 : view (exFill n).inodes 0 = some cur.view := view_of_find hcur
    rw [exFill_succ]
    refine ⟨g1.trans h1, ?_, ?_⟩
    · rw [g2, h2]
      unfold wrapInt32
      push_cast
      omega
    · have hroot := g3 0
      rw [h1, h2] at hroot
      simp only [createdView, hc, if_false, if_true] at hroot
      obtain ⟨r, hr, hrv⟩ := view_some hroot
      refine ⟨r, hr, by rw [← hd]; exact congrArg View.is_directory hrv, ?_⟩
      intro x hx
      have hx' : x ∈ cur.children ++ [wrapInt32 (1 + n)] := by
        have := congrArg View.children hrv
        simp only [INode.view] at this
        rw [this] at hx
        exact hx
      rw [g3 x, h1, h2]
      by_cases e1 : x = wrapInt32 (1 + n)
      · refine ⟨⟨[], 0, exName (n + 1), false⟩, ?_, n + 1, by omega, le_refl _, rfl⟩
        unfold createdView
        rw [if_pos e1]
      · have hx2 : x ∈ cur.children := by
          rcases List.mem_append.mp hx' with a | a
          · exact a
          · exact absurd (by simpa using a) e1
        obtain ⟨wx, hwx, i, i1, i2, i3⟩ := hch x hx2
        by_cases e2 : x = 0
        · subst e2
          rw [hv0] at hwx
          simp only [Option.some.injEq] at hwx
          refine ⟨{ cur.view with children := cur.view.children ++ [wrapInt32 (1 + n)] }, ?_,
            i, i1, by omega, ?_⟩
          · unfold createdView
            rw [if_neg e1, if_pos rfl]
          · rw [← i3, ← hwx]
        · refine ⟨wx, ?_, i, i1, by omega, i3⟩
          unfold createdView
          rw [if_neg e1, if_neg e2]
          exact hwx

/-- C19 (counterexample): 4294967296 calls of `touch` with pairwise distinct names, made in
the root of a fresh session, end in a state whose cursor, still 0, is the id of a File: the
counter has wrapped to 0 and the last call stored its new File under the id of the root. -/
theorem cursor_on_file_after_wrap :
    Reach anyOp (FS.fresh 0) (exFill 4294967296) ∧
    (exFill 4294967296).current_inode = 0 ∧
    (Store.find (exFill 4294967296).inodes 0).map (fun e => e.is_directory) = some false := by
  obtain ⟨h1, h2, cur, hcur, hd, hch⟩ := exFill_inv 4294967295 (le_refl _)
  have hp : ChildrenPresent (exFill 4294967295) cur := by
    refine ⟨by rw [h1]; exact hcur, fun c hc => ?_⟩
    obtain ⟨wx, hwx, _⟩ := hch c hc
    obtain ⟨e, he, _⟩ := view_some hwx
    exact ⟨e, he⟩
  have hno : ¬ SomeNamed (exFill 4294967295).inodes cur.children (exName 4294967296) := by
    rintro ⟨x, hx, e, he, hname⟩
    obtain ⟨wx, hwx, i, _, i2, i3⟩ := hch x hx
    rw [view_of_find he] at hwx
    simp only [Option.some.injEq] at hwx
    have e1 : exName i = exName 4294967296 := by rw [← i3, ← hwx, ← hname]; rfl
    have := exName_injective e1
    omega
  obtain ⟨g1, g2, g3⟩ := touch_view exClock hp hno
  have hc : (exFill 4294967295).next_inode_id = 0 := by
    rw [h2]; decide
  have hroot := g3 0
  rw [h1, hc] at hroot
  simp only [createdView, if_true] at hroot
  obtain ⟨r, hr, hrv⟩ := view_some hroot
  have e : exFill 4294967296 =
      (touch (exFill 4294967295) exClock (exName 4294967296)).1 := exFill_succ 4294967295
  refine ⟨reach_exFill 4294967296, ?_, ?_⟩
  · rw [e]; exact g1.trans h1
  · rw [e, hr]
    exact congrArg (fun w => some w.is_directory) hrv

/-- C19 (amended): in every state reached from the fresh store by finitely many `mkdir`,
`touch`, `rm` (whatever the fuel that lets it return), `mv`, `chmod` and `cd` calls with
arbitrary arguments, none of the `mkdir` and `touch` calls being made once the counter has
reached the largest `int`: the cursor is the id of a stored Directory, and so is every id
met by the parent walk from the cursor up to the root 0. -/
theorem cursor_on_directory (t : Int) (s : FS) (hr : Reach counterRoom (FS.fresh t) s) :
    (∃ e, Store.find s.inodes s.current_inode = some e ∧ e.is_directory = true) ∧
    UpChain s.inodes s.current_inode :=
  ⟨upChain_dir (sound_reach hr).2.2.2, (sound_reach hr).2.2.2⟩

/-- Witness of C19 (amended): the session `mkdir a`, `mkdir b`, `rm a`. -/
theorem cursor_on_directory_witness :
    Reach counterRoom (FS.fresh 7) exBug ∧
    ((∃ e, Store.find exBug.inodes exBug.current_inode = some e ∧ e.is_directory = true) ∧
      UpChain exBug.inodes exBug.current_inode) :=
  have h : Reach counterRoom (FS.fresh 7) exBug :=
    Reach.step (Op.rm "a") 1 exClock
      (Reach.step (Op.mkdir "b") 0 exClock
        (Reach.step (Op.mkdir "a") 0 exClock Reach.start
          (show (FS.fresh 7).next_inode_id < 2147483647 by decide) rfl)
        (show exA.next_inode_id < 2147483647 by decide) rfl)
      trivial (by decide)
  ⟨h, cursor_on_directory 7 exBug h⟩

end SimpleFS
